import Mathlib

/-!
Wear-tracked block device (`ExhaustibleBlockDevice`).

A shallow embedding of `src/filesystem_recovery/ExhaustibleBlockDevice.cpp`.

* The object is a record of its private members; every member function is a
  function on that record.  A function that can stop the program (a failed
  `MBED_ASSERT`, a null or out-of-range memory access, a division by zero)
  returns in `Except Fault`.
* `bd_size_t` / `bd_addr_t` values are natural numbers; for arguments that passed
  the validity assertion they are bounded by the device size, so they never wrap.
* `uint32_t` values (cycle counters, unit indices) are natural numbers reduced
  modulo `2 ^ 32` wherever the source stores into such a variable.
* Heap arrays are lists; a pointer that may be null is an `Option`.
-/

namespace FilesystemRecovery

/-- One `uint8_t`. -/
abbrev Byte := Fin 256

/-- The ways a call can stop the program instead of returning. -/
inductive Fault where
  /-- a failed assertion: `MBED_ASSERT` in the devices, a Unity `TEST_ASSERT` in the
  harness -/
  | assertion
  /-- access through a null pointer -/
  | nullDeref
  /-- access outside an allocated array -/
  | outOfBounds
  /-- integer division by zero -/
  | divByZero
  /-- the loop did not finish within the iteration budget given to it -/
  | diverged
  /-- a call of `error()`: a fatal diagnostic, the process ends -/
  | fatal
deriving DecidableEq, Repr

instance instDecidableEqExcept {ε α : Type} [DecidableEq ε] [DecidableEq α] :
    DecidableEq (Except ε α) := fun a b =>
  match a, b with
  | .ok x, .ok y => if h : x = y then isTrue (by rw [h]) else isFalse (fun e => h (by cases e; rfl))
  | .error x, .error y =>
    if h : x = y then isTrue (by rw [h]) else isFalse (fun e => h (by cases e; rfl))
  | .ok _, .error _ => isFalse (fun e => by cases e)
  | .error _, .ok _ => isFalse (fun e => by cases e)

/-- The width of `uint32_t`. -/
def U32 : Nat := 4294967296

/-- The private members of `class ExhaustibleBlockDevice`.

`_blocks` is `uint8_t **`: null before `init`, afterwards an array of `_erase_count`
pointers, each null or a buffer of `_erase_size` bytes. -/
structure ExhaustibleBlockDevice where
  _blocks : Option (List (Option (List Byte)))
  _read_size : Nat
  _program_size : Nat
  _program_count : Nat
  _program_array : List Nat
  _program_life : Nat
  _erase_size : Nat
  _erase_count : Nat
  _erase_array : List Nat
  _erase_life : Nat
deriving DecidableEq, Repr

/-- The status every member function returns on success. -/
def BD_ERROR_OK : Int := 0

/-- The C library call `memcpy(&dst[lo], src, size)` into a heap buffer `dst`. -/
def memcpy_into (dst : Option (List Byte)) (lo : Nat) (src : List Byte) (size : Nat) :
    Except Fault (Option (List Byte)) :=
  match dst with
  | none => .error .nullDeref
  | some blk =>
    if src.length < size then .error .outOfBounds
    else if blk.length < lo + size then .error .outOfBounds
    else .ok (some (blk.take lo ++ src.take size ++ blk.drop (lo + size)))

/-- The C library call `memcpy(buffer, &src[lo], size)` out of a heap buffer `src`:
the bytes copied. -/
def memcpy_from (src : List Byte) (lo : Nat) (size : Nat) : Except Fault (List Byte) :=
  if src.length < lo + size then .error .outOfBounds
  else .ok ((src.drop lo).take size)

/-- The C library call `memset(dst, c, size)` on a heap buffer `dst`. -/
def memset (dst : Option (List Byte)) (c : Byte) (size : Nat) :
    Except Fault (Option (List Byte)) :=
  match dst with
  | none => .error .nullDeref
  | some blk =>
    if blk.length < size then .error .outOfBounds
    else .ok (some (List.replicate size c ++ blk.drop size))

/-- `static void program_data(dst, src, size, prog_exhausted, erase_exhausted)`
with `dst = &block[lo]`. -/
def program_data (block : Option (List Byte)) (lo : Nat) (src : List Byte) (size : Nat)
    (prog_exhausted erase_exhausted : Bool) : Except Fault (Option (List Byte)) :=
  if prog_exhausted || erase_exhausted then .ok block
  else memcpy_into block lo src size

/-- `static void erase_data(dst, size, exhausted)`. -/
def erase_data (dst : Option (List Byte)) (size : Nat) (exhausted : Bool) :
    Except Fault (Option (List Byte)) :=
  if exhausted then .ok dst
  else memset dst 255 size

/-- The expression `life && (array[index] > life)`; `&&` does not read the array
when `life` is 0. -/
def cycles_reached (life : Nat) (array : List Nat) (index : Nat) : Except Fault Bool :=
  if life = 0 then .ok false
  else
    match array[index]? with
    | none => .error .outOfBounds
    | some c => .ok (decide (c > life))

/-- The statement `array[index]++` on an array of `uint32_t`. -/
def increment (array : List Nat) (index : Nat) : Except Fault (List Nat) :=
  match array[index]? with
  | none => .error .outOfBounds
  | some c => .ok (array.set index ((c + 1) % U32))

namespace ExhaustibleBlockDevice

/-- The constructor `ExhaustibleBlockDevice(size, read, program, erase)`. -/
def construct (size read program erase : Nat) : Except Fault ExhaustibleBlockDevice :=
  if program = 0 ∨ erase = 0 then .error .divByZero
  else
    let d : ExhaustibleBlockDevice :=
      { _blocks := none
        _read_size := read
        _program_size := program
        _program_count := size / program
        _program_array := List.replicate (size / program) 0
        _program_life := 0
        _erase_size := erase
        _erase_count := size / erase
        _erase_array := List.replicate (size / erase) 0
        _erase_life := 0 }
    if d._program_count * d._program_size ≠ size then .error .assertion
    else if d._erase_count * d._erase_size ≠ size then .error .assertion
    else .ok d

/-- `void set_program_cycles(uint32_t cycles)`. -/
def set_program_cycles (d : ExhaustibleBlockDevice) (cycles : Nat) :
    Except Fault ExhaustibleBlockDevice :=
  if d._blocks.isSome then .error .assertion
  else .ok { d with _program_life := cycles }

/-- `void set_erase_cycles(uint32_t cycles)`. -/
def set_erase_cycles (d : ExhaustibleBlockDevice) (cycles : Nat) :
    Except Fault ExhaustibleBlockDevice :=
  if d._blocks.isSome then .error .assertion
  else .ok { d with _erase_life := cycles }

/-- `int init()`: the status and the device afterwards. -/
def init (d : ExhaustibleBlockDevice) : Int × ExhaustibleBlockDevice :=
  if d._blocks.isSome then (BD_ERROR_OK, d)
  else (BD_ERROR_OK, { d with _blocks := some (List.replicate d._erase_count none) })

/-- `int deinit()`: the status and the device afterwards. -/
def deinit (d : ExhaustibleBlockDevice) : Except Fault (Int × ExhaustibleBlockDevice) :=
  if d._blocks.isSome then .ok (BD_ERROR_OK, d)
  else .error .assertion

/-- `bd_size_t get_read_size() const`. -/
def get_read_size (d : ExhaustibleBlockDevice) : Except Fault Nat :=
  if d._blocks.isSome then .ok d._read_size else .error .assertion

/-- `bd_size_t get_program_size() const`. -/
def get_program_size (d : ExhaustibleBlockDevice) : Except Fault Nat :=
  if d._blocks.isSome then .ok d._program_size else .error .assertion

/-- `bd_size_t get_erase_size() const`. -/
def get_erase_size (d : ExhaustibleBlockDevice) : Except Fault Nat :=
  if d._blocks.isSome then .ok d._erase_size else .error .assertion

/-- `bd_size_t size() const`. -/
def size (d : ExhaustibleBlockDevice) : Except Fault Nat :=
  if d._blocks.isSome then .ok (d._erase_count * d._erase_size) else .error .assertion

/-- Modelled from the spec: `is_valid_read` of the `BlockDevice` base class, whose
header is not among the sources.  Address and size are multiples of the read unit
and the range is fully contained in the device. -/
def is_valid_read (d : ExhaustibleBlockDevice) (addr size : Nat) : Bool :=
  addr % d._read_size == 0 && size % d._read_size == 0 &&
    decide (addr + size ≤ d._erase_count * d._erase_size)

/-- Modelled from the spec: `is_valid_program` of the `BlockDevice` base class, whose
header is not among the sources.  Address and size are multiples of the program unit
and the range is fully contained in the device. -/
def is_valid_program (d : ExhaustibleBlockDevice) (addr size : Nat) : Bool :=
  addr % d._program_size == 0 && size % d._program_size == 0 &&
    decide (addr + size ≤ d._erase_count * d._erase_size)

/-- Modelled from the spec: `is_valid_erase` of the `BlockDevice` base class, whose
header is not among the sources.  Address and size are multiples of the erase unit
and the range is fully contained in the device. -/
def is_valid_erase (d : ExhaustibleBlockDevice) (addr size : Nat) : Bool :=
  addr % d._erase_size == 0 && size % d._erase_size == 0 &&
    decide (addr + size ≤ d._erase_count * d._erase_size)

/-- The `for` loop of `_lazy_allocate`: `n` iterations starting at index `i`. -/
def lazy_allocate_loop (erase_size : Nat) :
    Nat → Nat → List (Option (List Byte)) → Except Fault (List (Option (List Byte)))
  | 0, _, blocks => .ok blocks
  | n + 1, i, blocks =>
    match blocks[i]? with
    | none => .error .outOfBounds
    | some (some _) => lazy_allocate_loop erase_size n (i + 1) blocks
    | some none =>
      lazy_allocate_loop erase_size n (i + 1) (blocks.set i (some (List.replicate erase_size 0)))

/-- `void _lazy_allocate(bd_addr_t addr, bd_size_t size)`.  The loop
`for (i = start_index; i < end_index; i++)` runs `end_index - start_index` times
(no time when `end_index <= start_index`). -/
def _lazy_allocate (d : ExhaustibleBlockDevice) (addr size : Nat) :
    Except Fault ExhaustibleBlockDevice :=
  let start_index := (addr / d._erase_size) % U32
  let end_index := ((addr + size) / d._erase_size) % U32
  match d._blocks with
  | none => if start_index < end_index then .error .nullDeref else .ok d
  | some blocks =>
    match lazy_allocate_loop d._erase_size (end_index - start_index) start_index blocks with
    | .error e => .error e
    | .ok blocks' => .ok { d with _blocks := some blocks' }

/-- One pass through the body of the `while` loop of `read` at address `addr`:
the `_read_size` bytes stored into the caller's buffer. -/
def read_chunk (d : ExhaustibleBlockDevice) (addr : Nat) : Except Fault (List Byte) :=
  let hi := addr / d._erase_size
  let lo := addr % d._erase_size
  match d._blocks with
  | none => .error .nullDeref
  | some blocks =>
    match blocks[hi]? with
    | none => .error .outOfBounds
    | some (some block) => memcpy_from block lo d._read_size
    | some none => .ok (List.replicate d._read_size 0)

/-- The `while (size > 0)` loop of `read`, given a budget of iterations: the bytes
stored into the caller's buffer, in order. -/
def read_loop (d : ExhaustibleBlockDevice) : Nat → Nat → Nat → Except Fault (List Byte)
  | 0, _, size => if size > 0 then .error .diverged else .ok []
  | fuel + 1, addr, size =>
    if size > 0 then
      match read_chunk d addr with
      | .error e => .error e
      | .ok chunk =>
        match read_loop d fuel (addr + d._read_size) (size - d._read_size) with
        | .error e => .error e
        | .ok rest => .ok (chunk ++ rest)
    else .ok []

/-- `int read(void *b, bd_addr_t addr, bd_size_t size)`: the status and the bytes
left in the caller's buffer.  The member function writes no member. -/
def read (d : ExhaustibleBlockDevice) (addr size : Nat) : Except Fault (Int × List Byte) :=
  if !d._blocks.isSome then .error .assertion
  else if !d.is_valid_read addr size then .error .assertion
  else
    match read_loop d size addr size with
    | .error e => .error e
    | .ok out => .ok (0, out)

/-- One pass through the body of the `while` loop of `program` at address `addr`,
`buffer` being the caller's bytes from the current position on. -/
def program_chunk (d : ExhaustibleBlockDevice) (buffer : List Byte) (addr : Nat) :
    Except Fault ExhaustibleBlockDevice :=
  let hi := addr / d._erase_size
  let lo := addr % d._erase_size
  let prog_index := (addr / d._program_size) % U32
  let erase_index := (addr / d._erase_size) % U32
  match cycles_reached d._program_life d._program_array prog_index with
  | .error e => .error e
  | .ok prog_cycles_reached =>
    match cycles_reached d._erase_life d._erase_array erase_index with
    | .error e => .error e
    | .ok erase_cycles_reached =>
      match d._blocks with
      | none => .error .nullDeref
      | some blocks =>
        match blocks[hi]? with
        | none => .error .outOfBounds
        | some block =>
          match program_data block lo buffer d._program_size
              prog_cycles_reached erase_cycles_reached with
          | .error e => .error e
          | .ok block' =>
            let d1 := { d with _blocks := some (blocks.set hi block') }
            if prog_cycles_reached then .ok d1
            else
              match increment d1._program_array prog_index with
              | .error e => .error e
              | .ok array => .ok { d1 with _program_array := array }

/-- The `while (size > 0)` loop of `program`, given a budget of iterations. -/
def program_loop : Nat → ExhaustibleBlockDevice → List Byte → Nat → Nat →
    Except Fault ExhaustibleBlockDevice
  | 0, d, _, _, size => if size > 0 then .error .diverged else .ok d
  | fuel + 1, d, buffer, addr, size =>
    if size > 0 then
      match program_chunk d buffer addr with
      | .error e => .error e
      | .ok d1 =>
        program_loop fuel d1 (buffer.drop d._program_size) (addr + d._program_size)
          (size - d._program_size)
    else .ok d

/-- `int program(const void *b, bd_addr_t addr, bd_size_t size)`: the status and the
device afterwards. -/
def program (d : ExhaustibleBlockDevice) (buffer : List Byte) (addr size : Nat) :
    Except Fault (Int × ExhaustibleBlockDevice) :=
  if !d._blocks.isSome then .error .assertion
  else if !d.is_valid_program addr size then .error .assertion
  else
    match d._lazy_allocate addr size with
    | .error e => .error e
    | .ok d0 =>
      match program_loop size d0 buffer addr size with
      | .error e => .error e
      | .ok d1 => .ok (0, d1)

/-- One pass through the body of the `while` loop of `erase` at address `addr`. -/
def erase_chunk (d : ExhaustibleBlockDevice) (addr : Nat) :
    Except Fault ExhaustibleBlockDevice :=
  let erase_index := (addr / d._erase_size) % U32
  match cycles_reached d._erase_life d._erase_array erase_index with
  | .error e => .error e
  | .ok erase_cycles_reached =>
    match d._blocks with
    | none => .error .nullDeref
    | some blocks =>
      match blocks[erase_index]? with
      | none => .error .outOfBounds
      | some block =>
        match erase_data block d._erase_size erase_cycles_reached with
        | .error e => .error e
        | .ok block' =>
          let d1 := { d with _blocks := some (blocks.set erase_index block') }
          if erase_cycles_reached then .ok d1
          else
            match increment d1._erase_array erase_index with
            | .error e => .error e
            | .ok array => .ok { d1 with _erase_array := array }

/-- The `while (size > 0)` loop of `erase`, given a budget of iterations. -/
def erase_loop : Nat → ExhaustibleBlockDevice → Nat → Nat →
    Except Fault ExhaustibleBlockDevice
  | 0, d, _, size => if size > 0 then .error .diverged else .ok d
  | fuel + 1, d, addr, size =>
    if size > 0 then
      match erase_chunk d addr with
      | .error e => .error e
      | .ok d1 => erase_loop fuel d1 (addr + d._erase_size) (size - d._erase_size)
    else .ok d

/-- `int erase(bd_addr_t addr, bd_size_t size)`: the status and the device
afterwards. -/
def erase (d : ExhaustibleBlockDevice) (addr size : Nat) :
    Except Fault (Int × ExhaustibleBlockDevice) :=
  if !d._blocks.isSome then .error .assertion
  else if !d.is_valid_erase addr size then .error .assertion
  else
    match d._lazy_allocate addr size with
    | .error e => .error e
    | .ok d0 =>
      match erase_loop size d0 addr size with
      | .error e => .error e
      | .ok d1 => .ok (0, d1)

/-- The byte a `read` observes at absolute address `a`: the byte of the backing
buffer of the containing erase unit, or 0 when that unit has no buffer. -/
def content (d : ExhaustibleBlockDevice) (a : Nat) : Byte :=
  match d._blocks with
  | none => 0
  | some blocks =>
    match blocks[a / d._erase_size]? with
    | some (some block) => block.getD (a % d._erase_size) 0
    | _ => 0

/-- Whether erase unit `i` has a backing buffer. -/
def allocated (d : ExhaustibleBlockDevice) (i : Nat) : Bool :=
  match d._blocks with
  | none => false
  | some blocks =>
    match blocks[i]? with
    | some (some _) => true
    | _ => false

/-- The value of `prog_cycles_reached` for program unit `i`. -/
def prog_exhausted (d : ExhaustibleBlockDevice) (i : Nat) : Bool :=
  d._program_life != 0 && decide (d._program_array.getD i 0 > d._program_life)

/-- The value of `erase_cycles_reached` for erase unit `i`. -/
def erase_exhausted (d : ExhaustibleBlockDevice) (i : Nat) : Bool :=
  d._erase_life != 0 && decide (d._erase_array.getD i 0 > d._erase_life)

/-- The representation invariant of a constructed device: the unit sizes are
positive, both unit counts tile the same total size and fit the `uint32_t` index
variables, the counter arrays have one entry per unit, and after `init` there is
one slot per erase unit, each buffer being `_erase_size` bytes long. -/
def WF (d : ExhaustibleBlockDevice) : Prop :=
  0 < d._read_size ∧ 0 < d._program_size ∧ 0 < d._erase_size ∧
  d._program_count * d._program_size = d._erase_count * d._erase_size ∧
  d._program_count < U32 ∧ d._erase_count < U32 ∧
  d._program_array.length = d._program_count ∧
  d._erase_array.length = d._erase_count ∧
  ∀ blocks ∈ d._blocks, blocks.length = d._erase_count ∧
    ∀ slot ∈ blocks, ∀ block ∈ slot, List.length block = d._erase_size

instance instDecidableWF (d : ExhaustibleBlockDevice) : Decidable (WF d) := by
  unfold WF; infer_instance

/-- A call of a public member function, with its arguments. -/
inductive Call where
  | set_program_cycles (cycles : Nat)
  | set_erase_cycles (cycles : Nat)
  | init
  | deinit
  | read (addr size : Nat)
  | program (buffer : List Byte) (addr size : Nat)
  | erase (addr size : Nat)
deriving DecidableEq, Repr

/-- The effect of one call: the status it returns (`none` for a `void` function)
and the device afterwards. -/
def step (d : ExhaustibleBlockDevice) : Call → Except Fault (Option Int × ExhaustibleBlockDevice)
  | .set_program_cycles cycles =>
    match d.set_program_cycles cycles with
    | .error e => .error e
    | .ok d1 => .ok (none, d1)
  | .set_erase_cycles cycles =>
    match d.set_erase_cycles cycles with
    | .error e => .error e
    | .ok d1 => .ok (none, d1)
  | .init => .ok (some d.init.1, d.init.2)
  | .deinit =>
    match d.deinit with
    | .error e => .error e
    | .ok r => .ok (some r.1, r.2)
  | .read addr size =>
    match d.read addr size with
    | .error e => .error e
    | .ok r => .ok (some r.1, d)
  | .program buffer addr size =>
    match d.program buffer addr size with
    | .error e => .error e
    | .ok r => .ok (some r.1, r.2)
  | .erase addr size =>
    match d.erase addr size with
    | .error e => .error e
    | .ok r => .ok (some r.1, r.2)

/-- A sequence of calls, one after the other: the statuses in order and the device
at the end; the first fault ends the run. -/
def run (d : ExhaustibleBlockDevice) : List Call → Except Fault (List (Option Int) × ExhaustibleBlockDevice)
  | [] => .ok ([], d)
  | c :: cs =>
    match step d c with
    | .error e => .error e
    | .ok r =>
      match run r.2 cs with
      | .error e => .error e
      | .ok rs => .ok (r.1 :: rs.1, rs.2)

/-- Whether the call programs or erases some address of erase unit `j`, the erase
units being `E` bytes long: the call is a `program` or an `erase` with a non-empty
range `[addr, addr + size)` that meets `[j * E, (j + 1) * E)`. -/
def Call.touches (E : Nat) : Call → Nat → Bool
  | .program _ addr size, j => decide (0 < size ∧ addr / E ≤ j ∧ j ≤ (addr + size - 1) / E)
  | .erase addr size, j => decide (0 < size ∧ addr / E ≤ j ∧ j ≤ (addr + size - 1) / E)
  | _, _ => false

/-- The device that `construct 8 1 2 4` returns: two erase units of four bytes,
program unit two bytes, read unit one byte, no limits, not yet after `init`. -/
def constructed_small : ExhaustibleBlockDevice :=
  { _blocks := none, _read_size := 1, _program_size := 2, _program_count := 4,
    _program_array := [0, 0, 0, 0], _program_life := 0, _erase_size := 4, _erase_count := 2,
    _erase_array := [0, 0], _erase_life := 0 }

/-- The device `constructed_small` after `init`. -/
def fresh_small : ExhaustibleBlockDevice :=
  { constructed_small with _blocks := some [none, none] }

/-- The device `fresh_small` after an erase of its first erase unit. -/
def erased_first_unit : ExhaustibleBlockDevice :=
  { constructed_small with
    _blocks := some [some [255, 255, 255, 255], none], _erase_array := [1, 0] }

/-- A device of two erase units of four bytes (program unit two bytes, read unit one
byte) right after `init`, configured with an erase limit of one cycle. -/
def fresh_limited : ExhaustibleBlockDevice :=
  { _blocks := some [none, none], _read_size := 1, _program_size := 2, _program_count := 4,
    _program_array := [0, 0, 0, 0], _program_life := 0, _erase_size := 4, _erase_count := 2,
    _erase_array := [0, 0], _erase_life := 1 }

/-- The device `fresh_limited` after two erases of its first erase unit: the erase
counter of that unit (2) exceeds the limit (1). -/
def worn_erase_unit : ExhaustibleBlockDevice :=
  { _blocks := some [some [255, 255, 255, 255], none], _read_size := 1, _program_size := 2,
    _program_count := 4, _program_array := [0, 0, 0, 0], _program_life := 0,
    _erase_size := 4, _erase_count := 2, _erase_array := [2, 0], _erase_life := 1 }

/-- A device of the same geometry configured with a program limit of one cycle and
no erase limit, after one erase of its first erase unit and two programs (bytes 1, 2
and then bytes 3, 4) of its first program unit: the program counter of that unit (2)
exceeds the limit (1). -/
def worn_program_unit : ExhaustibleBlockDevice :=
  { _blocks := some [some [3, 4, 255, 255], none], _read_size := 1, _program_size := 2,
    _program_count := 4, _program_array := [2, 0, 0, 0], _program_life := 1,
    _erase_size := 4, _erase_count := 2, _erase_array := [1, 0], _erase_life := 0 }

/-- The device `worn_program_unit` after a program of the bytes 7, 7, 7, 7 over its
first two program units: only the second unit took them. -/
def worn_program_unit_next : ExhaustibleBlockDevice :=
  { worn_program_unit with
    _blocks := some [some [3, 4, 7, 7], none], _program_array := [2, 1, 0, 0] }

end ExhaustibleBlockDevice

namespace ExhaustibleBlockDevice

/-- The device `fresh_small` with a buffer in its first erase unit and with the
counters of its first units at the largest `uint32_t` value, one increment before
they wrap. -/
def wrapping_counters : ExhaustibleBlockDevice :=
  { constructed_small with
    _blocks := some [some [9, 9, 9, 9], none],
    _program_array := [4294967295, 0, 0, 0], _erase_array := [4294967295, 0] }

/-- The device that `construct 6 1 2 3` returns: two erase units of three bytes and
three program units of two bytes. -/
def constructed_unnested : ExhaustibleBlockDevice :=
  { _blocks := none, _read_size := 1, _program_size := 2, _program_count := 3,
    _program_array := [0, 0, 0], _program_life := 0, _erase_size := 3, _erase_count := 2,
    _erase_array := [0, 0], _erase_life := 0 }

end ExhaustibleBlockDevice

/-! ## The read-only guard (`ReadOnlyBlockDevice.cpp`) -/

/-- Modelled from the spec: `error()` of `mbed_error.h`, which is not among the
sources.  It prints a fatal diagnostic and ends the process; it does not return. -/
def error {α : Type} (_message : String) : Except Fault α := .error .fatal

/-- Modelled from the spec: the capability interface `BlockDevice`, whose header is not
among the sources, as the virtual member functions of an object with state `σ`. -/
structure BlockDevice (σ : Type) where
  init : σ → Except Fault (Int × σ)
  deinit : σ → Except Fault (Int × σ)
  read : σ → Nat → Nat → Except Fault ((Int × List Byte) × σ)
  program : σ → List Byte → Nat → Nat → Except Fault (Int × σ)
  erase : σ → Nat → Nat → Except Fault (Int × σ)
  get_read_size : σ → Except Fault Nat
  get_program_size : σ → Except Fault Nat
  get_erase_size : σ → Except Fault Nat
  size : σ → Except Fault Nat

/-- The wear-tracked device as an implementation of the interface. -/
def ExhaustibleBlockDevice.as_block_device : BlockDevice ExhaustibleBlockDevice where
  init := fun d => .ok d.init
  deinit := fun d => d.deinit
  read := fun d addr size =>
    match d.read addr size with
    | .error e => .error e
    | .ok r => .ok (r, d)
  program := fun d buffer addr size => d.program buffer addr size
  erase := fun d addr size => d.erase addr size
  get_read_size := fun d => d.get_read_size
  get_program_size := fun d => d.get_program_size
  get_erase_size := fun d => d.get_erase_size
  size := fun d => d.size

/-- The private member of `class ReadOnlyBlockDevice`: the pointer `_bd` to the
wrapped device.  The state of the wrapped object is passed to every member function. -/
structure ReadOnlyBlockDevice (σ : Type) where
  _bd : BlockDevice σ

namespace ReadOnlyBlockDevice

/-- `int ReadOnlyBlockDevice::init()`. -/
def init {σ : Type} (_ro : ReadOnlyBlockDevice σ) (s : σ) : Int × σ := (0, s)

/-- `int ReadOnlyBlockDevice::deinit()`. -/
def deinit {σ : Type} (_ro : ReadOnlyBlockDevice σ) (s : σ) : Int × σ := (0, s)

/-- `int ReadOnlyBlockDevice::read(void *buffer, bd_addr_t addr, bd_size_t size)`. -/
def read {σ : Type} (ro : ReadOnlyBlockDevice σ) (s : σ) (addr size : Nat) :
    Except Fault ((Int × List Byte) × σ) :=
  ro._bd.read s addr size

/-- `int ReadOnlyBlockDevice::program(const void *buffer, bd_addr_t addr, bd_size_t size)`:
`error(...)`, then `return 0`. -/
def program {σ : Type} (_ro : ReadOnlyBlockDevice σ) (s : σ) (_buffer : List Byte)
    (_addr _size : Nat) : Except Fault (Int × σ) :=
  match (error "ReadOnlyBlockDevice::program() not allowed" : Except Fault Unit) with
  | .error e => .error e
  | .ok _ => .ok (0, s)

/-- `int ReadOnlyBlockDevice::erase(bd_addr_t addr, bd_size_t size)`: `error(...)`, then
`return 0`. -/
def erase {σ : Type} (_ro : ReadOnlyBlockDevice σ) (s : σ) (_addr _size : Nat) :
    Except Fault (Int × σ) :=
  match (error "ReadOnlyBlockDevice::erase() not allowed" : Except Fault Unit) with
  | .error e => .error e
  | .ok _ => .ok (0, s)

/-- `bd_size_t ReadOnlyBlockDevice::get_read_size() const`. -/
def get_read_size {σ : Type} (ro : ReadOnlyBlockDevice σ) (s : σ) : Except Fault Nat :=
  ro._bd.get_read_size s

/-- `bd_size_t ReadOnlyBlockDevice::get_program_size() const`. -/
def get_program_size {σ : Type} (ro : ReadOnlyBlockDevice σ) (s : σ) : Except Fault Nat :=
  ro._bd.get_program_size s

/-- `bd_size_t ReadOnlyBlockDevice::get_erase_size() const`. -/
def get_erase_size {σ : Type} (ro : ReadOnlyBlockDevice σ) (s : σ) : Except Fault Nat :=
  ro._bd.get_erase_size s

/-- `bd_size_t ReadOnlyBlockDevice::size() const`. -/
def size {σ : Type} (ro : ReadOnlyBlockDevice σ) (s : σ) : Except Fault Nat :=
  ro._bd.size s

end ReadOnlyBlockDevice

/-! ## The harness (`atomic_usage.cpp`): registry and driver -/

/-- `struct TestEntry`: a scenario, its three actions acting on the world `σ` (the
filesystem under test on its block device).  `perform` returns whether it was aborted
for lack of space. -/
structure TestEntry (σ : Type) where
  name : String
  setup : σ → Except Fault σ
  perform : σ → Except Fault (Bool × σ)
  check : σ → Except Fault σ

/-- Modelled from the spec: the filesystem under test, `class LittleFileSystem`, which
is not among the sources, as the driver consumes it: `mount`, `format` and `unmount`,
each returning a status and the world afterwards. -/
structure LittleFileSystem (σ : Type) where
  mount : σ → Int × σ
  format : σ → Int × σ
  unmount : σ → Int × σ

/-- The loop `for (i ...) atomic_test_entries[i].setup(&fs)`. -/
def setup_entries {σ : Type} : List (TestEntry σ) → σ → Except Fault σ
  | [], s => .ok s
  | e :: es, s =>
    match e.setup s with
    | .error f => .error f
    | .ok s1 => setup_entries es s1

/-- `void setup_atomic_operations(BlockDevice *bd, bool force_rebuild)`; with
`force_rebuild` set, `||` does not evaluate the first `mount`. -/
def setup_atomic_operations {σ : Type} (fs : LittleFileSystem σ) (entries : List (TestEntry σ))
    (s : σ) (force_rebuild : Bool) : Except Fault σ :=
  let tried : Bool × σ :=
    if force_rebuild then (true, s) else ((fs.mount s).1 != 0, (fs.mount s).2)
  let mounted : Except Fault σ :=
    if tried.1 then
      if (fs.format tried.2).1 ≠ 0 then .error .assertion
      else if (fs.mount (fs.format tried.2).2).1 ≠ 0 then .error .assertion
      else .ok (fs.mount (fs.format tried.2).2).2
    else .ok tried.2
  match mounted with
  | .error f => .error f
  | .ok s1 =>
    match setup_entries entries s1 with
    | .error f => .error f
    | .ok s2 => .ok (fs.unmount s2).2

/-- The loop `for (i ...) out_of_space |= atomic_test_entries[i].perform(&fs)`. -/
def perform_entries {σ : Type} : List (TestEntry σ) → Bool → σ → Except Fault (Bool × σ)
  | [], out_of_space, s => .ok (out_of_space, s)
  | e :: es, out_of_space, s =>
    match e.perform s with
    | .error f => .error f
    | .ok r => perform_entries es (out_of_space || r.1) r.2

/-- `bool perform_atomic_operations(BlockDevice *bd)`. -/
def perform_atomic_operations {σ : Type} (fs : LittleFileSystem σ)
    (entries : List (TestEntry σ)) (s : σ) : Except Fault (Bool × σ) :=
  match perform_entries entries false (fs.mount s).2 with
  | .error f => .error f
  | .ok r => .ok (r.1, (fs.unmount r.2).2)

/-- The loop `for (i ...) atomic_test_entries[i].check(&fs)`. -/
def check_entries {σ : Type} : List (TestEntry σ) → σ → Except Fault σ
  | [], s => .ok s
  | e :: es, s =>
    match e.check s with
    | .error f => .error f
    | .ok s1 => check_entries es s1

/-- `void check_atomic_operations(BlockDevice *bd)`. -/
def check_atomic_operations {σ : Type} (fs : LittleFileSystem σ)
    (entries : List (TestEntry σ)) (s : σ) : Except Fault σ :=
  match check_entries entries (fs.mount s).2 with
  | .error f => .error f
  | .ok s1 => .ok (fs.unmount s1).2

/-- `void change_callback(BlockDevice *bd)`; `main` never attaches it. -/
def change_callback {σ : Type} (fs : LittleFileSystem σ) (entries : List (TestEntry σ))
    (s : σ) : Except Fault σ :=
  check_atomic_operations fs entries s

/-- The loop of `main`, `for (int i = 0; i < 100; i++) { ...; if (out_of_space) break; }`,
with `n` iterations left. -/
def main_loop {σ : Type} (fs : LittleFileSystem σ) (entries : List (TestEntry σ)) :
    Nat → σ → Except Fault σ
  | 0, s => .ok s
  | n + 1, s =>
    match perform_atomic_operations fs entries s with
    | .error f => .error f
    | .ok r => if r.1 then .ok r.2 else main_loop fs entries n r.2

/-- The first three statements of `main`: `ExhaustibleBlockDevice ebd(128 * 1024);`
(default units 1 / 64 / 512), `ebd.set_erase_cycles(100);`, `ebd.init();`. -/
def main_device : Except Fault ExhaustibleBlockDevice :=
  match ExhaustibleBlockDevice.construct (128 * 1024) 1 64 512 with
  | .error f => .error f
  | .ok ebd =>
    match ebd.set_erase_cycles 100 with
    | .error f => .error f
    | .ok ebd1 => .ok ebd1.init.2

/-- `int main()`.  The registry `atomic_test_entries` and the filesystem are
parameters; `world ebd` is the world in which the filesystem finds the device `ebd`. -/
def main {σ : Type} (fs : LittleFileSystem σ) (entries : List (TestEntry σ))
    (world : ExhaustibleBlockDevice → σ) : Except Fault (Int × σ) :=
  match main_device with
  | .error f => .error f
  | .ok ebd =>
    match setup_atomic_operations fs entries (world ebd) true with
    | .error f => .error f
    | .ok s1 =>
      match main_loop fs entries 100 s1 with
      | .error f => .error f
      | .ok s2 =>
        match check_atomic_operations fs entries s2 with
        | .error f => .error f
        | .ok s3 => .ok (0, s3)

/-! ### A world that records the calls -/

/-- A call the driver makes, as recorded by the tracing world; the number is the
position of the scenario in the registry. -/
inductive Event where
  | format
  | mount
  | unmount
  | setup (i : Nat)
  | perform (i : Nat)
  | check (i : Nat)
deriving DecidableEq, Repr

/-- A filesystem that only records its calls and always returns 0. -/
def trace_fs : LittleFileSystem (List Event) where
  mount := fun log => (0, log ++ [Event.mount])
  format := fun log => (0, log ++ [Event.format])
  unmount := fun log => (0, log ++ [Event.unmount])

/-- Scenario number `i` of a registry whose actions only record their calls.  Its
`perform` signals exhaustion as `exhausted j i` says, `j` being the number of the
perform iteration (the mounts so far, less the one of the setup phase). -/
def trace_entry (exhausted : Nat → Nat → Bool) (i : Nat) : TestEntry (List Event) where
  name := ""
  setup := fun log => .ok (log ++ [Event.setup i])
  perform := fun log => .ok (exhausted (log.count Event.mount - 1) i, log ++ [Event.perform i])
  check := fun log => .ok (log ++ [Event.check i])

/-- A registry of `n` recording scenarios. -/
def trace_entries (exhausted : Nat → Nat → Bool) (n : Nat) : List (TestEntry (List Event)) :=
  (List.range n).map (trace_entry exhausted)

/-- The calls of the setup phase for `n` scenarios. -/
def setup_log (n : Nat) : List Event :=
  [Event.format, Event.mount] ++ (List.range n).map Event.setup ++ [Event.unmount]

/-- The calls of one perform iteration for `n` scenarios: every perform action once,
in registry order. -/
def iteration_log (n : Nat) : List Event :=
  [Event.mount] ++ (List.range n).map Event.perform ++ [Event.unmount]

/-- The calls of one check phase for `n` scenarios. -/
def check_log (n : Nat) : List Event :=
  [Event.mount] ++ (List.range n).map Event.check ++ [Event.unmount]

/-- Whether some scenario of iteration `j` signals exhaustion. -/
def iteration_exhausted (exhausted : Nat → Nat → Bool) (n : Nat) (j : Nat) : Bool :=
  (List.range n).any (exhausted j)

/-- The number of iterations a loop of at most `m` iterations makes, the next one
being iteration `j`, when it stops after the first iteration for which `p` holds. -/
def iterations_run (p : Nat → Bool) : Nat → Nat → Nat
  | 0, _ => 0
  | m + 1, j => if p j then 1 else 1 + iterations_run p m (j + 1)


/-! ## The scenarios (`atomic_usage.cpp`) -/

/-- The bytes of a string literal of the source, without the terminating NUL. -/
def bytes (s : String) : List Byte := s.toList.map (fun c => Fin.ofNat c.toNat)

/-- Modelled from the spec: the filesystem as the scenarios see it, a map from the name
of a file to its content, `none` for a name that does not exist. -/
abbrev Files := String → Option (List Byte)

/-- The map `files` with the entry of `name` replaced. -/
def Files.set (files : Files) (name : String) (v : Option (List Byte)) : Files :=
  fun n => if n = name then v else files n

/-- `ENOENT` of `errno.h`. -/
def ENOENT : Int := 2

/-- `ENOSPC` of `errno.h`. -/
def ENOSPC : Int := 28

/-- Modelled from the spec: `fs->stat(path, &st)`: `0` for a name that exists,
`-ENOENT` otherwise. -/
def fs_stat (files : Files) (path : String) : Int :=
  if (files path).isSome then 0 else -ENOENT

/-- Modelled from the spec: `fs->rename(src, dst)`.  It either fails with `-ENOSPC` and
leaves the filesystem unchanged (`no_space`, the choice of the filesystem), or moves
`src` to `dst` in one step, replacing `dst` if it exists; a `src` that does not exist is
`-ENOENT`. -/
def fs_rename (no_space : Bool) (files : Files) (src dst : String) : Int × Files :=
  if no_space then (-ENOSPC, files)
  else
    match files src with
    | none => (-ENOENT, files)
    | some content =>
      if src = dst then (0, files)
      else (0, (files.set dst (some content)).set src none)

/-- Modelled from the spec: `file.open(fs, path, O_RDONLY)`: `0` for a name that
exists, `-ENOENT` otherwise. -/
def open_rdonly (files : Files) (path : String) : Int :=
  if (files path).isSome then 0 else -ENOENT

/-- Modelled from the spec: `file.open(fs, path, O_WRONLY | O_CREAT)`.  It either fails
with `-ENOSPC` and leaves the filesystem unchanged (`no_space`), or succeeds: a name
that does not exist is created empty, a file that exists keeps its content (there is no
`O_TRUNC`). -/
def open_create (no_space : Bool) (files : Files) (path : String) : Int × Files :=
  if no_space then (-ENOSPC, files)
  else
    match files path with
    | none => (0, files.set path (some []))
    | some _ => (0, files)

/-- Modelled from the spec: `file.write(data, length)` on a file just opened for
writing, at position 0.  With `stored = none` it succeeds: the bytes replace the
beginning of the file, and the result is their number.  With `stored = some k` it fails
with `-ENOSPC` after `k` of the bytes reached the file (`k = 0`: the file is
unchanged). -/
def file_write (stored : Option Nat) (files : Files) (path : String) (data : List Byte) :
    Int × Files :=
  let old := (files path).getD []
  match stored with
  | none => ((data.length : Int), files.set path (some (data ++ old.drop data.length)))
  | some k =>
    (-ENOSPC, files.set path (some (data.take k ++ old.drop (data.take k).length)))

/-- Modelled from the spec: `file.read(buffer, size)` on a file just opened for
reading: the first `size` bytes of the file, fewer if the file is shorter; the result of
the call is their number. -/
def file_read (files : Files) (path : String) (size : Nat) : List Byte :=
  ((files path).getD []).take size

/-- `FILE_RENAME_A`. -/
def FILE_RENAME_A : String := "file_to_rename_a.txt"

/-- `FILE_RENAME_B`. -/
def FILE_RENAME_B : String := "file_to_rename_b.txt"

/-- `FILE_RENAME_CONTENTS`. -/
def FILE_RENAME_CONTENTS : List Byte := bytes "Test contents for the file to be renamed"

/-- `FILE_RENAME_LEN`: `sizeof(FILE_RENAME_CONTENTS) - 1`. -/
def FILE_RENAME_LEN : Nat := FILE_RENAME_CONTENTS.length

/-- `void setup_file_rename(LittleFileSystem *fs)`; `no_space` and `stored` are the
outcomes of the `open` and of the `write`. -/
def setup_file_rename (no_space : Bool) (stored : Option Nat) (files : Files) :
    Except Fault Files :=
  let (res, files) := open_create no_space files FILE_RENAME_A
  if res ≠ 0 then .error .assertion
  else
    let (res, files) := file_write stored files FILE_RENAME_A FILE_RENAME_CONTENTS
    if res ≠ (FILE_RENAME_LEN : Int) then .error .assertion
    else .ok files

/-- `bool perform_file_rename(LittleFileSystem *fs)`; `no_space` is the outcome of the
`rename`. -/
def perform_file_rename (no_space : Bool) (files : Files) : Except Fault (Bool × Files) :=
  let res := fs_stat files FILE_RENAME_A
  let src := if 0 = res then FILE_RENAME_A else FILE_RENAME_B
  let dst := if 0 = res then FILE_RENAME_B else FILE_RENAME_A
  if ¬ (res = -ENOENT ∨ 0 = res) then .error .assertion
  else
    let (res, files) := fs_rename no_space files src dst
    if -ENOSPC = res then .ok (true, files)
    else if res ≠ 0 then .error .assertion
    else .ok (false, files)

/-- The loop of `check_file_rename` over the names still to be looked at; `files_seen`
and `valids` are the two counters.  A `break` ends the loop with the counters as they
are. -/
def check_file_rename_loop (files : Files) : List String → Nat → Nat → Nat × Nat
  | [], files_seen, valids => (files_seen, valids)
  | name :: rest, files_seen, valids =>
    if 0 = open_rdonly files name then
      let files_seen := files_seen + 1
      let data := file_read files name FILE_RENAME_LEN
      let check_buffer := data ++ List.replicate (1024 - data.length) (0 : Byte)
      if data.length ≠ FILE_RENAME_LEN then (files_seen, valids)
      else if check_buffer.take FILE_RENAME_LEN ≠ FILE_RENAME_CONTENTS then (files_seen, valids)
      else check_file_rename_loop files rest files_seen (valids + 1)
    else check_file_rename_loop files rest files_seen valids

/-- `void check_file_rename(LittleFileSystem *fs)`. -/
def check_file_rename (files : Files) : Except Fault Files :=
  let (files_seen, valids) := check_file_rename_loop files [FILE_RENAME_A, FILE_RENAME_B] 0 0
  if files_seen ≠ 1 then .error .assertion
  else if valids ≠ 1 then .error .assertion
  else .ok files

/-- A sequence of calls of `perform_file_rename`, one for each outcome of the list; the
results of the calls, in order, and the filesystem afterwards. -/
def perform_file_rename_run : List Bool → Files → Except Fault (List Bool × Files)
  | [], files => .ok ([], files)
  | no_space :: rest, files =>
    match perform_file_rename no_space files with
    | .error f => .error f
    | .ok (aborted, files1) =>
      match perform_file_rename_run rest files1 with
      | .error f => .error f
      | .ok (results, files2) => .ok (aborted :: results, files2)

/-- The state the swap-rename scenario keeps: exactly one of the two names exists, and
its content is the payload; `true` when the name is `FILE_RENAME_A`. -/
def rename_holder (files : Files) : Option Bool :=
  match files FILE_RENAME_A, files FILE_RENAME_B with
  | some content, none => if content = FILE_RENAME_CONTENTS then some true else none
  | none, some content => if content = FILE_RENAME_CONTENTS then some false else none
  | _, _ => none

/-- A filesystem in which `FILE_RENAME_A` begins with the payload and goes on after
it. -/
def payload_with_tail : Files :=
  fun name => if name = FILE_RENAME_A then some (FILE_RENAME_CONTENTS ++ [33]) else none

/-- The name that holds the payload after a sequence of calls of `perform_file_rename`
with the given outcomes, when `FILE_RENAME_A` (`true`) or `FILE_RENAME_B` (`false`) held
it before: every call that is not aborted changes the name. -/
def holder_after : List Bool → Bool → Bool
  | [], holder => holder
  | no_space :: rest, holder => holder_after rest (if no_space then holder else !holder)

/-! ### The counter scenario -/

/-- `FILE_RENAME_REPLACE`. -/
def FILE_RENAME_REPLACE : String := "rename_replace_file.txt"

/-- `FILE_RENAME_REPLACE_NEW`. -/
def FILE_RENAME_REPLACE_NEW : String := "new_rename_replace_file.txt"

/-- `FILE_RENAME_REPLACE_FMT`. -/
def FILE_RENAME_REPLACE_FMT : List Byte := bytes "file replace count: %lu\r\n"

/-- `EOF` of `stdio.h`. -/
def EOF : Int := -1

/-- Modelled from the spec: `isspace` of `ctype.h` in the C locale: space, `\t`, `\n`,
`\v`, `\f`, `\r`. -/
def isspace (c : Byte) : Bool := c.val = 32 ∨ (9 ≤ c.val ∧ c.val ≤ 13)

/-- Modelled from the spec: `isdigit` of `ctype.h`. -/
def isdigit (c : Byte) : Bool := 48 ≤ c.val ∧ c.val ≤ 57

/-- The directives of a format string, as far as the formats of the source go: the
conversion `%lu`, and single characters. -/
inductive Directive where
  /-- the conversion specification `%lu` -/
  | lu
  /-- a character that is not part of a conversion specification -/
  | char (c : Byte)
deriving DecidableEq, Repr

/-- Modelled from the spec: the format string cut into its directives. -/
def directives : List Byte → List Directive
  | [] => []
  | [c] => [.char c]
  | [c, d] => [.char c, .char d]
  | c :: d :: e :: rest =>
    if c = 37 ∧ d = 108 ∧ e = 117 then .lu :: directives rest
    else .char c :: directives (d :: e :: rest)

/-- The decimal digits of `n`, most significant first, at most `width` of them. -/
def decimal_digits : Nat → Nat → List Byte
  | 0, _ => []
  | width + 1, n =>
    if n < 10 then [Fin.ofNat (48 + n)]
    else decimal_digits width (n / 10) ++ [Fin.ofNat (48 + n % 10)]

/-- The output of `%lu` for an `unsigned long` of 32 bits: up to ten digits. -/
def decimal (n : Nat) : List Byte := decimal_digits 10 (n % U32)

/-- The characters `sprintf` writes for a list of directives and one argument. -/
def sprintf_loop : List Directive → Nat → List Byte
  | [], _ => []
  | .lu :: ds, arg => decimal arg ++ sprintf_loop ds arg
  | .char c :: ds, arg => c :: sprintf_loop ds arg

/-- Modelled from the spec: `sprintf(buffer, format, arg)` of `stdio.h` with one
argument: the characters written, without the terminating NUL; the result of the call is
their number. -/
def sprintf (format : List Byte) (arg : Nat) : List Byte :=
  sprintf_loop (directives format) arg

/-- Input white space is skipped up to the first character that is none. -/
def skip_space : List Byte → List Byte
  | [] => []
  | c :: rest => if isspace c then skip_space rest else c :: rest

/-- The run of digits at the beginning of the input, read as a decimal number on top of
`acc`, and the input after it. -/
def scan_digits : Nat → List Byte → Nat × List Byte
  | acc, [] => (acc, [])
  | acc, c :: rest =>
    if isdigit c then scan_digits (acc * 10 + (c.val - 48)) rest else (acc, c :: rest)

/-- The outcome of one conversion of `sscanf`. -/
inductive Scan where
  /-- the input ended before the item began -/
  | input_failure
  /-- the input does not begin with an item of the conversion -/
  | matching_failure
  /-- the converted value and the input after the item -/
  | value (n : Nat) (rest : List Byte)
deriving DecidableEq, Repr

/-- Modelled from the spec: the conversion `%lu` of `sscanf`: white space is skipped,
then an optional sign and the longest run of decimal digits are taken, at least one
digit.  The value is the one an `unsigned long` of 32 bits holds (a `-` negates it
modulo `2^32`); of a number that does not fit, the low 32 bits are kept. -/
def scan_lu (input : List Byte) : Scan :=
  match skip_space input with
  | [] => .input_failure
  | c :: rest =>
    let body := if c = 43 ∨ c = 45 then rest else c :: rest
    match body with
    | [] => .matching_failure
    | d :: _ =>
      if isdigit d then
        let scanned := scan_digits 0 body
        .value (if c = 45 then (U32 - scanned.1 % U32) % U32 else scanned.1 % U32) scanned.2
      else .matching_failure

/-- The directives of `sscanf` still to be executed, on the input still to be read;
`assigned` are the values stored so far.  A white-space directive skips input white
space; any other character must be the next character of the input; the result is the
number of values stored, or `EOF` when the input ends before the first of them. -/
def sscanf_loop : List Directive → List Byte → List Nat → Int × List Nat
  | [], _, assigned => ((assigned.length : Int), assigned)
  | .char c :: ds, input, assigned =>
    if isspace c then sscanf_loop ds (skip_space input) assigned
    else
      match input with
      | [] => (if assigned.isEmpty then EOF else (assigned.length : Int), assigned)
      | x :: rest =>
        if x = c then sscanf_loop ds rest assigned else ((assigned.length : Int), assigned)
  | .lu :: ds, input, assigned =>
    match scan_lu input with
    | .input_failure => (if assigned.isEmpty then EOF else (assigned.length : Int), assigned)
    | .matching_failure => ((assigned.length : Int), assigned)
    | .value n rest => sscanf_loop ds rest (assigned ++ [n])

/-- Modelled from the spec: `sscanf(str, format, ...)` of `stdio.h`: the result of the
call and the values stored through the pointer arguments, in order. -/
def sscanf (str format : List Byte) : Int × List Nat :=
  sscanf_loop (directives format) str []

/-- The C string a buffer holds: the bytes before the first NUL; `none` when the buffer
holds no NUL, so that a reader of the string runs past its end. -/
def c_string : List Byte → Option (List Byte)
  | [] => none
  | c :: rest => if c = 0 then some [] else (c_string rest).map (fun s => c :: s)

/-- The 1024 bytes of `buffer` or `check_buffer` after `memset(buffer, 0, ...)` and a
`read` that stored `data` at its beginning. -/
def buffer_with (data : List Byte) : List Byte :=
  data ++ List.replicate (1024 - data.length) (0 : Byte)

/-- The outcomes of the three calls of `perform_file_rename_replace` that can run out of
space: the `open` of the new file, the `write` to it, and the `rename`. -/
structure Outcomes where
  open_no_space : Bool
  write_stored : Option Nat
  rename_no_space : Bool
deriving DecidableEq, Repr

/-- Whether the outcomes let some call run out of space. -/
def Outcomes.aborted (o : Outcomes) : Bool :=
  o.open_no_space || o.write_stored.isSome || o.rename_no_space

/-- `void setup_file_rename_replace(LittleFileSystem *fs)`; `no_space` and `stored` are
the outcomes of the `open` and of the `write`. -/
def setup_file_rename_replace (no_space : Bool) (stored : Option Nat) (files : Files) :
    Except Fault Files :=
  let (res, files) := open_create no_space files FILE_RENAME_REPLACE
  if res ≠ 0 then .error .assertion
  else
    let count : Nat := 0
    let buffer := sprintf FILE_RENAME_REPLACE_FMT count
    let length : Int := buffer.length
    if ¬ (length > 0) then .error .assertion
    else
      let (res, files) := file_write stored files FILE_RENAME_REPLACE buffer
      if res ≠ length then .error .assertion
      else .ok files

/-- `bool perform_file_rename_replace(LittleFileSystem *fs)`. -/
def perform_file_rename_replace (o : Outcomes) (files : Files) : Except Fault (Bool × Files) :=
  let res := open_rdonly files FILE_RENAME_REPLACE
  if res ≠ 0 then .error .assertion
  else
    let data := file_read files FILE_RENAME_REPLACE 1024
    let buffer := buffer_with data
    if ¬ ((data.length : Int) > 0) then .error .assertion
    else
      match c_string buffer with
      | none => .error .outOfBounds
      | some str =>
        let scanned := sscanf str FILE_RENAME_REPLACE_FMT
        if scanned.1 ≠ 1 then .error .assertion
        else
          let count : Nat := scanned.2.headD 0 % U32
          let count := (count + 1) % U32
          let buffer := sprintf FILE_RENAME_REPLACE_FMT count
          let length : Int := buffer.length
          if ¬ (length > 0) then .error .assertion
          else
            let (res, files) := open_create o.open_no_space files FILE_RENAME_REPLACE_NEW
            if -ENOSPC = res then .ok (true, files)
            else if res ≠ 0 then .error .assertion
            else
              let (res, files) := file_write o.write_stored files FILE_RENAME_REPLACE_NEW buffer
              if -ENOSPC = res then .ok (true, files)
              else if res ≠ length then .error .assertion
              else
                let (res, files) :=
                  fs_rename o.rename_no_space files FILE_RENAME_REPLACE_NEW FILE_RENAME_REPLACE
                if -ENOSPC = res then .ok (true, files)
                else if res ≠ 0 then .error .assertion
                else .ok (false, files)

/-- `void check_file_rename_replace(LittleFileSystem *fs)`. -/
def check_file_rename_replace (files : Files) : Except Fault Files :=
  let res := open_rdonly files FILE_RENAME_REPLACE
  if res ≠ 0 then .error .assertion
  else
    let data := file_read files FILE_RENAME_REPLACE 1024
    let check_buffer := buffer_with data
    if ¬ ((data.length : Int) > 0) then .error .assertion
    else
      match c_string check_buffer with
      | none => .error .outOfBounds
      | some str =>
        if (sscanf str FILE_RENAME_REPLACE_FMT).1 ≠ 1 then .error .assertion
        else .ok files

/-- A sequence of calls of `perform_file_rename_replace`, one for each element of the
list of outcomes; the results of the calls, in order, and the filesystem afterwards. -/
def perform_file_rename_replace_run : List Outcomes → Files → Except Fault (List Bool × Files)
  | [], files => .ok ([], files)
  | o :: rest, files =>
    match perform_file_rename_replace o files with
    | .error f => .error f
    | .ok (aborted, files1) =>
      match perform_file_rename_replace_run rest files1 with
      | .error f => .error f
      | .ok (results, files2) => .ok (aborted :: results, files2)

/-- The complete record of the count `n`: what `sprintf` writes for
`FILE_RENAME_REPLACE_FMT`. -/
def count_record (n : Nat) : List Byte :=
  bytes "file replace count: " ++ decimal n ++ bytes "\r\n"

/-- The state the counter scenario keeps: the stable file holds the complete record of
the count `n`, and the new file, where an aborted call left one behind, is not longer
than the record the next call writes. -/
def counter_state (files : Files) (n : Nat) : Prop :=
  n < U32 ∧ files FILE_RENAME_REPLACE = some (count_record n) ∧
    ∀ content, files FILE_RENAME_REPLACE_NEW = some content →
      content.length ≤ (count_record ((n + 1) % U32)).length

/-- A filesystem with only the stable file, its content the given one. -/
def stable_file (content : List Byte) : Files :=
  fun name => if name = FILE_RENAME_REPLACE then some content else none

/-- The count after a sequence of calls of `perform_file_rename_replace` with the given
outcomes, from the count `n`: every call that is not aborted adds one, as `count++` on a
`uint32_t` does. -/
def count_after : List Outcomes → Nat → Nat
  | [], n => n
  | o :: rest, n => count_after rest (if o.aborted then n else (n + 1) % U32)

namespace ExhaustibleBlockDevice

/-- Whether the call is one of the two that set a limit, `set_program_cycles` and
`set_erase_cycles`. -/
def Call.sets_limit : Call → Bool
  | .set_program_cycles _ => true
  | .set_erase_cycles _ => true
  | _ => false

/-- The number of `erase` calls of a list whose range holds erase unit `j`, the erase
units being `E` bytes long: the range of a valid `erase(addr, size)` is made of the
whole units `addr / E <= j < (addr + size) / E`. -/
def erases_of (E : Nat) : List Call → Nat → Nat
  | [], _ => 0
  | .erase addr size :: calls, j =>
    (if addr / E ≤ j ∧ j < (addr + size) / E then 1 else 0) + erases_of E calls j
  | _ :: calls, j => erases_of E calls j

end ExhaustibleBlockDevice

namespace ExhaustibleBlockDevice

/-- One pass through the body of the `while` loop of `read` at address `addr`, as it
acts on the object: the `_read_size` bytes stored into the caller's buffer, and the
device after the pass.  `memcpy` and `memset` write the caller's buffer, and no
statement of the body assigns a member. -/
def read_chunk_state (d : ExhaustibleBlockDevice) (addr : Nat) :
    Except Fault (List Byte × ExhaustibleBlockDevice) :=
  let hi := addr / d._erase_size
  let lo := addr % d._erase_size
  match d._blocks with
  | none => .error .nullDeref
  | some blocks =>
    match blocks[hi]? with
    | none => .error .outOfBounds
    | some (some block) =>
      match memcpy_from block lo d._read_size with
      | .error e => .error e
      | .ok chunk => .ok (chunk, d)
    | some none => .ok (List.replicate d._read_size 0, d)

/-- The `while (size > 0)` loop of `read` as it acts on the object, given a budget of
iterations: each pass works on the device the pass before it left; the bytes stored
into the caller's buffer, in order, and the device after the last pass. -/
def read_loop_state : Nat → ExhaustibleBlockDevice → Nat → Nat →
    Except Fault (List Byte × ExhaustibleBlockDevice)
  | 0, d, _, size => if size > 0 then .error .diverged else .ok ([], d)
  | fuel + 1, d, addr, size =>
    if size > 0 then
      match read_chunk_state d addr with
      | .error e => .error e
      | .ok (chunk, d1) =>
        match read_loop_state fuel d1 (addr + d._read_size) (size - d._read_size) with
        | .error e => .error e
        | .ok (rest, d2) => .ok (chunk ++ rest, d2)
    else .ok ([], d)

/-- `int read(void *b, bd_addr_t addr, bd_size_t size)` as it acts on the object: the
status, the bytes left in the caller's buffer, and the device afterwards. -/
def read_state (d : ExhaustibleBlockDevice) (addr size : Nat) :
    Except Fault (Int × List Byte × ExhaustibleBlockDevice) :=
  if !d._blocks.isSome then .error .assertion
  else if !d.is_valid_read addr size then .error .assertion
  else
    match read_loop_state size d addr size with
    | .error e => .error e
    | .ok (out, d1) => .ok (0, out, d1)

/-- The device `construct 12 3 4 4` returns (read unit 3, program unit 4, erase unit
4: the erase unit is no multiple of the read unit) after `init` and an erase of its
first erase unit. -/
def read_unit_unnested : ExhaustibleBlockDevice :=
  { _blocks := some [some [255, 255, 255, 255], none, none], _read_size := 3,
    _program_size := 4, _program_count := 3, _program_array := [0, 0, 0],
    _program_life := 0, _erase_size := 4, _erase_count := 3, _erase_array := [1, 0, 0],
    _erase_life := 0 }

/-- The device `construct 24 1 8 12` returns (program unit 8, erase unit 12: the erase
unit is no multiple of the program unit) after `set_program_cycles(5)`,
`set_erase_cycles(5)`, `init` and an erase of both its erase units. -/
def program_unit_unnested : ExhaustibleBlockDevice :=
  { _blocks := some [some (List.replicate 12 255), some (List.replicate 12 255)],
    _read_size := 1, _program_size := 8, _program_count := 3, _program_array := [0, 0, 0],
    _program_life := 5, _erase_size := 12, _erase_count := 2, _erase_array := [1, 1],
    _erase_life := 5 }

/-- The device `constructed_unnested` after `init` and an erase of both its erase
units: every erase unit has a buffer, both limits are 0. -/
def unnested_erased : ExhaustibleBlockDevice :=
  { constructed_unnested with
    _blocks := some [some [255, 255, 255], some [255, 255, 255]], _erase_array := [1, 1] }

/-- The device `construct 6 2 2 3` returns (read unit 2, erase unit 3) after `init` and
an erase of both its erase units. -/
def read_two_erase_three : ExhaustibleBlockDevice :=
  { _blocks := some [some [255, 255, 255], some [255, 255, 255]], _read_size := 2,
    _program_size := 2, _program_count := 3, _program_array := [0, 0, 0],
    _program_life := 0, _erase_size := 3, _erase_count := 2, _erase_array := [1, 1],
    _erase_life := 0 }

end ExhaustibleBlockDevice

/-! ## The helper expressions -/

theorem cycles_reached_inv {life : Nat} {array : List Nat} {i : Nat} {b : Bool}
    (h : cycles_reached life array i = .ok b) :
    b = (life != 0 && decide (array.getD i 0 > life)) := by
  unfold cycles_reached at h
  by_cases hl : life = 0
  · simp [hl] at h; simp [hl, ← h]
  · simp only [hl, if_false] at h
    cases hg : array[i]? with
    | none => simp [hg] at h
    | some c =>
      simp only [hg, Except.ok.injEq] at h
      simp [hl, ← h, List.getD_eq_getElem?_getD, hg]

theorem cycles_reached_ok (life : Nat) (array : List Nat) (i : Nat) (hi : i < array.length) :
    cycles_reached life array i = .ok (life != 0 && decide (array.getD i 0 > life)) := by
  unfold cycles_reached
  by_cases hl : life = 0
  · simp [hl]
  · simp [hl, List.getD_eq_getElem?_getD, List.getElem?_eq_getElem hi]

theorem increment_inv {array array' : List Nat} {i : Nat}
    (h : increment array i = .ok array') :
    i < array.length ∧ array' = array.set i ((array.getD i 0 + 1) % U32) := by
  unfold increment at h
  cases hg : array[i]? with
  | none => simp [hg] at h
  | some c =>
    simp only [hg, Except.ok.injEq] at h
    have hi : i < array.length := by
      by_contra hn
      rw [List.getElem?_eq_none (by omega)] at hg
      cases hg
    exact ⟨hi, by simp [← h, List.getD_eq_getElem?_getD, hg]⟩

theorem increment_ok (array : List Nat) (i : Nat) (hi : i < array.length) :
    increment array i = .ok (array.set i ((array.getD i 0 + 1) % U32)) := by
  unfold increment
  simp [List.getD_eq_getElem?_getD, List.getElem?_eq_getElem hi]

namespace ExhaustibleBlockDevice

/-- What a finished pass of the `erase` loop did. -/
theorem erase_chunk_inv {d d1 : ExhaustibleBlockDevice} {a : Nat}
    (h : erase_chunk d a = .ok d1) :
    ∃ blocks slot slot', d._blocks = some blocks ∧
      blocks[(a / d._erase_size) % U32]? = some slot ∧
      erase_data slot d._erase_size (d.erase_exhausted ((a / d._erase_size) % U32)) = .ok slot' ∧
      d1 = { d with
        _blocks := some (blocks.set ((a / d._erase_size) % U32) slot')
        _erase_array :=
          if d.erase_exhausted ((a / d._erase_size) % U32) then d._erase_array
          else d._erase_array.set ((a / d._erase_size) % U32)
            ((d._erase_array.getD ((a / d._erase_size) % U32) 0 + 1) % U32) } := by
  unfold erase_chunk at h
  simp only at h
  generalize (a / d._erase_size) % U32 = idx at h ⊢
  cases hc : cycles_reached d._erase_life d._erase_array idx with
  | error e => simp [hc] at h
  | ok b =>
    have hb := cycles_reached_inv hc
    simp only [hc] at h
    cases hbl : d._blocks with
    | none => simp [hbl] at h
    | some blocks =>
      simp only [hbl] at h
      cases hs : blocks[idx]? with
      | none => simp [hs] at h
      | some slot =>
        simp only [hs] at h
        cases he : erase_data slot d._erase_size b with
        | error e => simp [he] at h
        | ok slot' =>
          simp only [he] at h
          have hbe : d.erase_exhausted idx = b := by rw [hb]; rfl
          refine ⟨blocks, slot, slot', rfl, hs, by rw [hbe]; exact he, ?_⟩
          rw [hbe]
          cases b with
          | true => simp at h; simp [← h]
          | false =>
            simp only [Bool.false_eq_true, if_false] at h
            cases hinc : increment d._erase_array idx with
            | error e => simp [hinc] at h
            | ok arr =>
              simp only [hinc, Except.ok.injEq] at h
              simp [← h, (increment_inv hinc).2]

end ExhaustibleBlockDevice

/-! ## The loops: invariants carried from pass to pass -/

namespace ExhaustibleBlockDevice

theorem program_loop_zero (fuel : Nat) (d : ExhaustibleBlockDevice) (buf : List Byte)
    (addr : Nat) : program_loop fuel d buf addr 0 = .ok d := by
  cases fuel <;> simp [program_loop]

theorem erase_loop_zero (fuel : Nat) (d : ExhaustibleBlockDevice) (addr : Nat) :
    erase_loop fuel d addr 0 = .ok d := by
  cases fuel <;> simp [erase_loop]

theorem read_loop_zero (fuel : Nat) (d : ExhaustibleBlockDevice) (addr : Nat) :
    read_loop d fuel addr 0 = .ok [] := by
  cases fuel <;> simp [read_loop]

/-- A property `I i` of the device before pass `i`, which every pass of the
`program` loop carries to the next index, holds with index `n` after the `n` passes,
whenever the loop finishes. -/
theorem program_loop_inv (P : Nat) (hP : 0 < P) :
    ∀ (n : Nat) (I : Nat → ExhaustibleBlockDevice → Prop) (addr : Nat),
      (∀ i d, I i d → d._program_size = P) →
      (∀ d buf i d1, I i d → i < n → program_chunk d buf (addr + i * P) = .ok d1 →
        I (i + 1) d1) →
      ∀ (fuel : Nat) (d : ExhaustibleBlockDevice) (buf : List Byte)
        (d' : ExhaustibleBlockDevice),
        I 0 d → program_loop fuel d buf addr (n * P) = .ok d' → I n d' := by
  intro n
  induction n with
  | zero =>
    intro I addr _ _ fuel d buf d' hd h
    rw [Nat.zero_mul, program_loop_zero] at h
    cases h; exact hd
  | succ n ih =>
    intro I addr hI hstep fuel d buf d' hd h
    have hpos : (n + 1) * P > 0 := Nat.mul_pos (Nat.succ_pos n) hP
    cases fuel with
    | zero => simp [program_loop, hpos] at h
    | succ fuel =>
      simp only [program_loop, hpos, if_true] at h
      cases hc : program_chunk d buf addr with
      | error e => simp [hc] at h
      | ok d1 =>
        simp only [hc] at h
        have hd1 : I 1 d1 := hstep d buf 0 d1 hd (Nat.succ_pos n) (by simpa using hc)
        have hsz : (n + 1) * P - d._program_size = n * P := by
          rw [hI 0 d hd, Nat.succ_mul]; omega
        rw [hsz, hI 0 d hd] at h
        refine ih (fun i => I (i + 1)) (addr + P) (fun i d2 h2 => hI (i + 1) d2 h2) ?_
          fuel d1 _ d' hd1 h
        intro d2 buf2 i d3 h2 hi hc2
        refine hstep d2 buf2 (i + 1) d3 h2 (Nat.succ_lt_succ hi) ?_
        rw [Nat.succ_mul]
        have : addr + (i * P + P) = addr + P + i * P := by omega
        rw [this]; exact hc2

/-- When every pass of the `program` loop succeeds on a device with the property
`I i` (given `P` more bytes in the caller's buffer) and establishes `I (i + 1)`, the
loop finishes and `I n` holds. -/
theorem program_loop_ok (P : Nat) (hP : 0 < P) :
    ∀ (n : Nat) (I : Nat → ExhaustibleBlockDevice → Prop) (addr : Nat),
      (∀ i d, I i d → d._program_size = P) →
      (∀ d buf i, I i d → i < n → P ≤ buf.length →
        ∃ d1, program_chunk d buf (addr + i * P) = .ok d1 ∧ I (i + 1) d1) →
      ∀ (fuel : Nat) (d : ExhaustibleBlockDevice) (buf : List Byte),
        n ≤ fuel → n * P ≤ buf.length → I 0 d →
        ∃ d', program_loop fuel d buf addr (n * P) = .ok d' ∧ I n d' := by
  intro n
  induction n with
  | zero =>
    intro I addr _ _ fuel d buf _ _ hd
    exact ⟨d, by rw [Nat.zero_mul, program_loop_zero], hd⟩
  | succ n ih =>
    intro I addr hI hstep fuel d buf hfuel hbuf hd
    have hpos : (n + 1) * P > 0 := Nat.mul_pos (Nat.succ_pos n) hP
    have hPn : (n + 1) * P = n * P + P := Nat.succ_mul n P
    cases fuel with
    | zero => omega
    | succ fuel =>
      obtain ⟨d1, hc, hd1⟩ := hstep d buf 0 hd (Nat.succ_pos n) (by omega)
      simp only [Nat.zero_mul, Nat.add_zero] at hc
      have hsz : (n + 1) * P - d._program_size = n * P := by
        rw [hI 0 d hd]; omega
      have hlen : n * P ≤ (buf.drop P).length := by
        rw [List.length_drop]; omega
      have hstep1 : ∀ d2 buf2 i, I (i + 1) d2 → i < n → P ≤ buf2.length →
          ∃ d3, program_chunk d2 buf2 (addr + P + i * P) = .ok d3 ∧ I (i + 1 + 1) d3 := by
        intro d2 buf2 i h2 hi hb2
        have := hstep d2 buf2 (i + 1) h2 (Nat.succ_lt_succ hi) hb2
        rw [Nat.succ_mul] at this
        have he : addr + (i * P + P) = addr + P + i * P := by omega
        rw [he] at this; exact this
      obtain ⟨d', hl, hd'⟩ := ih (fun i => I (i + 1)) (addr + P)
        (fun i d2 h2 => hI (i + 1) d2 h2) hstep1 fuel d1 (buf.drop P) (by omega) hlen hd1
      refine ⟨d', ?_, hd'⟩
      simp only [program_loop, hpos, if_true, hc]
      rw [hsz, hI 0 d hd]; exact hl

/-- A property `I i` of the device before pass `i`, which every pass of the `erase`
loop carries to the next index, holds with index `n` after the `n` passes, whenever
the loop finishes. -/
theorem erase_loop_inv (E : Nat) (hE : 0 < E) :
    ∀ (n : Nat) (I : Nat → ExhaustibleBlockDevice → Prop) (addr : Nat),
      (∀ i d, I i d → d._erase_size = E) →
      (∀ d i d1, I i d → i < n → erase_chunk d (addr + i * E) = .ok d1 → I (i + 1) d1) →
      ∀ (fuel : Nat) (d d' : ExhaustibleBlockDevice),
        I 0 d → erase_loop fuel d addr (n * E) = .ok d' → I n d' := by
  intro n
  induction n with
  | zero =>
    intro I addr _ _ fuel d d' hd h
    rw [Nat.zero_mul, erase_loop_zero] at h
    cases h; exact hd
  | succ n ih =>
    intro I addr hI hstep fuel d d' hd h
    have hpos : (n + 1) * E > 0 := Nat.mul_pos (Nat.succ_pos n) hE
    cases fuel with
    | zero => simp [erase_loop, hpos] at h
    | succ fuel =>
      simp only [erase_loop, hpos, if_true] at h
      cases hc : erase_chunk d addr with
      | error e => simp [hc] at h
      | ok d1 =>
        simp only [hc] at h
        have hd1 : I 1 d1 := hstep d 0 d1 hd (Nat.succ_pos n) (by simpa using hc)
        have hsz : (n + 1) * E - d._erase_size = n * E := by
          rw [hI 0 d hd, Nat.succ_mul]; omega
        rw [hsz, hI 0 d hd] at h
        refine ih (fun i => I (i + 1)) (addr + E) (fun i d2 h2 => hI (i + 1) d2 h2) ?_
          fuel d1 d' hd1 h
        intro d2 i d3 h2 hi hc2
        refine hstep d2 (i + 1) d3 h2 (Nat.succ_lt_succ hi) ?_
        rw [Nat.succ_mul]
        have : addr + (i * E + E) = addr + E + i * E := by omega
        rw [this]; exact hc2

/-- When every pass of the `erase` loop succeeds on a device with the property
`I i` and establishes `I (i + 1)`, the loop finishes and `I n` holds. -/
theorem erase_loop_ok (E : Nat) (hE : 0 < E) :
    ∀ (n : Nat) (I : Nat → ExhaustibleBlockDevice → Prop) (addr : Nat),
      (∀ i d, I i d → d._erase_size = E) →
      (∀ d i, I i d → i < n → ∃ d1, erase_chunk d (addr + i * E) = .ok d1 ∧ I (i + 1) d1) →
      ∀ (fuel : Nat) (d : ExhaustibleBlockDevice),
        n ≤ fuel → I 0 d → ∃ d', erase_loop fuel d addr (n * E) = .ok d' ∧ I n d' := by
  intro n
  induction n with
  | zero =>
    intro I addr _ _ fuel d _ hd
    exact ⟨d, by rw [Nat.zero_mul, erase_loop_zero], hd⟩
  | succ n ih =>
    intro I addr hI hstep fuel d hfuel hd
    have hpos : (n + 1) * E > 0 := Nat.mul_pos (Nat.succ_pos n) hE
    have hEn : (n + 1) * E = n * E + E := Nat.succ_mul n E
    cases fuel with
    | zero => omega
    | succ fuel =>
      obtain ⟨d1, hc, hd1⟩ := hstep d 0 hd (Nat.succ_pos n)
      simp only [Nat.zero_mul, Nat.add_zero] at hc
      have hsz : (n + 1) * E - d._erase_size = n * E := by
        rw [hI 0 d hd]; omega
      have hstep1 : ∀ d2 i, I (i + 1) d2 → i < n →
          ∃ d3, erase_chunk d2 (addr + E + i * E) = .ok d3 ∧ I (i + 1 + 1) d3 := by
        intro d2 i h2 hi
        have := hstep d2 (i + 1) h2 (Nat.succ_lt_succ hi)
        rw [Nat.succ_mul] at this
        have he : addr + (i * E + E) = addr + E + i * E := by omega
        rw [he] at this; exact this
      obtain ⟨d', hl, hd'⟩ := ih (fun i => I (i + 1)) (addr + E)
        (fun i d2 h2 => hI (i + 1) d2 h2) hstep1 fuel d1 (by omega) hd1
      refine ⟨d', ?_, hd'⟩
      simp only [erase_loop, hpos, if_true, hc]
      rw [hsz, hI 0 d hd]; exact hl

end ExhaustibleBlockDevice

/-! ## Lists, indices, the representation invariant -/

theorem set_eq_self_of_getElem? {α : Type} (l : List α) (i : Nat) (x : α)
    (h : l[i]? = some x) : l.set i x = l := by
  apply List.ext_getElem?
  intro j
  rw [List.getElem?_set]
  by_cases hij : i = j
  · subst hij
    have hi : i < l.length := by
      by_contra hn
      rw [List.getElem?_eq_none (by omega)] at h
      cases h
    simp [hi, h]
  · simp [hij]

namespace ExhaustibleBlockDevice

theorem WF.block_length {d : ExhaustibleBlockDevice} (hwf : WF d)
    {blocks : List (Option (List Byte))} (hb : d._blocks = some blocks)
    {i : Nat} {block : List Byte} (hi : blocks[i]? = some (some block)) :
    block.length = d._erase_size := by
  obtain ⟨_, _, _, _, _, _, _, _, h⟩ := hwf
  exact (h blocks (by simp [hb])).2 (some block) (List.mem_iff_getElem?.mpr ⟨i, hi⟩) block rfl

theorem WF.blocks_length {d : ExhaustibleBlockDevice} (hwf : WF d)
    {blocks : List (Option (List Byte))} (hb : d._blocks = some blocks) :
    blocks.length = d._erase_count := by
  obtain ⟨_, _, _, _, _, _, _, _, h⟩ := hwf
  exact (h blocks (by simp [hb])).1

/-- Replacing the slots and the counter arrays by ones of the same shape keeps the
representation invariant. -/
theorem WF.update {d : ExhaustibleBlockDevice} (hwf : WF d)
    {blocks : List (Option (List Byte))} (hb : d._blocks = some blocks)
    (blocks' : List (Option (List Byte))) (parr earr : List Nat)
    (hlen : blocks'.length = blocks.length)
    (hslots : ∀ (i : Nat) (block : List Byte),
      blocks'[i]? = some (some block) → block.length = d._erase_size)
    (hp : parr.length = d._program_array.length)
    (he : earr.length = d._erase_array.length) :
    WF { d with _blocks := some blocks', _program_array := parr, _erase_array := earr } := by
  have hbl := hwf.blocks_length hb
  obtain ⟨h1, h2, h3, h4, h5, h6, h7, h8, _⟩ := hwf
  refine ⟨h1, h2, h3, h4, h5, h6, by simpa [hp] using h7, by simpa [he] using h8, ?_⟩
  intro bs hbs
  simp only [Option.mem_def, Option.some.injEq] at hbs
  subst hbs
  refine ⟨by simpa [hlen] using hbl, ?_⟩
  intro slot hslot block hblock
  simp only [Option.mem_def] at hblock
  subst hblock
  obtain ⟨i, hi⟩ := List.mem_iff_getElem?.mp hslot
  exact hslots i block hi

/-- An address inside the device lies in an erase unit whose index needs no
reduction modulo `2 ^ 32`. -/
theorem WF.erase_index {d : ExhaustibleBlockDevice} (hwf : WF d) {a : Nat}
    (ha : a < d._erase_count * d._erase_size) :
    a / d._erase_size < d._erase_count ∧ (a / d._erase_size) % U32 = a / d._erase_size := by
  obtain ⟨_, _, h3, _, _, h6, _, _, _⟩ := hwf
  have h : a / d._erase_size < d._erase_count := (Nat.div_lt_iff_lt_mul h3).mpr ha
  exact ⟨h, Nat.mod_eq_of_lt (by omega)⟩

/-- An address inside the device lies in a program unit whose index needs no
reduction modulo `2 ^ 32`. -/
theorem WF.program_index {d : ExhaustibleBlockDevice} (hwf : WF d) {a : Nat}
    (ha : a < d._erase_count * d._erase_size) :
    a / d._program_size < d._program_count ∧
      (a / d._program_size) % U32 = a / d._program_size := by
  obtain ⟨_, h2, _, h4, h5, _, _, _, _⟩ := hwf
  have h : a / d._program_size < d._program_count :=
    (Nat.div_lt_iff_lt_mul h2).mpr (by rw [h4]; exact ha)
  exact ⟨h, Nat.mod_eq_of_lt (by omega)⟩

/-- The `for` loop of `_lazy_allocate` over slots that exist: every null slot in
`[i, i + n)` gets a zero-filled buffer, every other slot is left as it is. -/
theorem lazy_allocate_loop_spec (E : Nat) :
    ∀ (n i : Nat) (blocks : List (Option (List Byte))), i + n ≤ blocks.length →
      ∃ blocks', lazy_allocate_loop E n i blocks = .ok blocks' ∧
        blocks'.length = blocks.length ∧
        ∀ j, blocks'[j]? =
          if i ≤ j ∧ j < i + n ∧ blocks[j]? = some none
          then some (some (List.replicate E 0)) else blocks[j]? := by
  intro n
  induction n with
  | zero =>
    intro i blocks _
    refine ⟨blocks, rfl, rfl, ?_⟩
    intro j
    have : ¬ (i ≤ j ∧ j < i ∧ blocks[j]? = some none) := by omega
    simp [this]
  | succ n ih =>
    intro i blocks hlen
    have hi : i < blocks.length := by omega
    cases hs : blocks[i]? with
    | none =>
      rw [List.getElem?_eq_getElem hi] at hs
      cases hs
    | some slot =>
      cases slot with
      | some block =>
        obtain ⟨blocks', h1, h2, h3⟩ := ih (i + 1) blocks (by omega)
        refine ⟨blocks', by simp [lazy_allocate_loop, hs, h1], h2, ?_⟩
        intro j
        rw [h3 j]
        by_cases hj : j = i
        · subst hj; simp [hs]
        · have hiff : (i + 1 ≤ j ∧ j < i + 1 + n ∧ blocks[j]? = some none) ↔
              (i ≤ j ∧ j < i + (n + 1) ∧ blocks[j]? = some none) := by
            constructor
            · rintro ⟨a, b, c⟩; exact ⟨by omega, by omega, c⟩
            · rintro ⟨a, b, c⟩; exact ⟨by omega, by omega, c⟩
          simp only [hiff]
      | none =>
        obtain ⟨blocks', h1, h2, h3⟩ :=
          ih (i + 1) (blocks.set i (some (List.replicate E 0))) (by simp; omega)
        refine ⟨blocks', by simp [lazy_allocate_loop, hs, h1], by simpa using h2, ?_⟩
        intro j
        rw [h3 j]
        by_cases hj : j = i
        · subst hj
          have : ¬ (j + 1 ≤ j ∧ j < j + 1 + n ∧
              (blocks.set j (some (List.replicate E 0)))[j]? = some none) := by omega
          simp [this, hs, hi]
        · have hne : i ≠ j := fun h => hj h.symm
          rw [List.getElem?_set_ne hne]
          have hiff : (i + 1 ≤ j ∧ j < i + 1 + n ∧ blocks[j]? = some none) ↔
              (i ≤ j ∧ j < i + (n + 1) ∧ blocks[j]? = some none) := by
            constructor
            · rintro ⟨a, b, c⟩; exact ⟨by omega, by omega, c⟩
            · rintro ⟨a, b, c⟩; exact ⟨by omega, by omega, c⟩
          simp only [hiff]

/-- The function `_lazy_allocate` on a range inside the device: it finishes, and
exactly the null slots of the erase units `addr / E ≤ i < (addr + size) / E` get a
zero-filled buffer. -/
theorem lazy_allocate_spec {d : ExhaustibleBlockDevice} (hwf : WF d)
    {blocks : List (Option (List Byte))} (hb : d._blocks = some blocks)
    (addr size : Nat) (hr : addr + size ≤ d._erase_count * d._erase_size) :
    ∃ blocks', d._lazy_allocate addr size = .ok { d with _blocks := some blocks' } ∧
      blocks'.length = blocks.length ∧
      ∀ j, blocks'[j]? =
        if addr / d._erase_size ≤ j ∧ j < (addr + size) / d._erase_size ∧
            blocks[j]? = some none
        then some (some (List.replicate d._erase_size 0)) else blocks[j]? := by
  have hbl := hwf.blocks_length hb
  have hE : 0 < d._erase_size := hwf.2.2.1
  have hC : d._erase_count < U32 := hwf.2.2.2.2.2.1
  have hend : (addr + size) / d._erase_size ≤ d._erase_count := by
    calc (addr + size) / d._erase_size
        ≤ (d._erase_count * d._erase_size) / d._erase_size := Nat.div_le_div_right hr
      _ = d._erase_count := Nat.mul_div_cancel _ hE
  have hstart : addr / d._erase_size ≤ (addr + size) / d._erase_size :=
    Nat.div_le_div_right (Nat.le_add_right _ _)
  have hm1 : (addr / d._erase_size) % U32 = addr / d._erase_size :=
    Nat.mod_eq_of_lt (by omega)
  have hm2 : ((addr + size) / d._erase_size) % U32 = (addr + size) / d._erase_size :=
    Nat.mod_eq_of_lt (by omega)
  obtain ⟨blocks', h1, h2, h3⟩ := lazy_allocate_loop_spec d._erase_size
    ((addr + size) / d._erase_size - addr / d._erase_size) (addr / d._erase_size) blocks
    (by omega)
  refine ⟨blocks', ?_, h2, ?_⟩
  · simp only [_lazy_allocate, hb, hm1, hm2, h1]
  · intro j
    rw [h3 j]
    have hiff : (addr / d._erase_size ≤ j ∧
        j < addr / d._erase_size + ((addr + size) / d._erase_size - addr / d._erase_size) ∧
        blocks[j]? = some none) ↔
        (addr / d._erase_size ≤ j ∧ j < (addr + size) / d._erase_size ∧
          blocks[j]? = some none) := by
      constructor
      · rintro ⟨a, b, c⟩; exact ⟨a, by omega, c⟩
      · rintro ⟨a, b, c⟩; exact ⟨a, by omega, c⟩
    simp only [hiff]

end ExhaustibleBlockDevice

/-! ## `erase` -/

namespace ExhaustibleBlockDevice

/-- One pass of the `erase` loop on a slot that exists: an exhausted unit is left as
it is, any other unit (which must have a buffer) is filled with 0xFF and its counter
is incremented. -/
theorem erase_chunk_eq {d : ExhaustibleBlockDevice} {blocks : List (Option (List Byte))}
    (hb : d._blocks = some blocks) (a idx : Nat)
    (hidx : (a / d._erase_size) % U32 = idx)
    {slot : Option (List Byte)} (hs : blocks[idx]? = some slot)
    (hslot : d.erase_exhausted idx = false →
      ∃ block, slot = some block ∧ block.length = d._erase_size)
    (hi : idx < d._erase_array.length) :
    erase_chunk d a = .ok { d with
      _blocks := some (blocks.set idx
        (if d.erase_exhausted idx then slot else some (List.replicate d._erase_size 255)))
      _erase_array :=
        if d.erase_exhausted idx then d._erase_array
        else d._erase_array.set idx ((d._erase_array.getD idx 0 + 1) % U32) } := by
  unfold erase_chunk
  simp only [hidx, cycles_reached_ok _ _ _ hi, hb, hs]
  have hex : (d._erase_life != 0 && decide (d._erase_array.getD idx 0 > d._erase_life))
      = d.erase_exhausted idx := rfl
  rw [hex]
  cases hc : d.erase_exhausted idx with
  | true => simp [erase_data]
  | false =>
    obtain ⟨block, hsl, hlen⟩ := hslot hc
    subst hsl
    have hdrop : List.drop d._erase_size block = [] := by
      rw [List.drop_eq_nil_iff]; omega
    simp [erase_data, memset, hlen, increment_ok _ _ hi, hdrop]

/-- The whole of `erase` on a valid range: it returns 0; of the erase units in the
range, those that are not exhausted are filled with 0xFF and their counter is
incremented, the exhausted ones keep their counter and their bytes (a missing buffer
is allocated zero-filled); nothing else changes. -/
theorem erase_spec {d : ExhaustibleBlockDevice} (hwf : WF d)
    {blocks : List (Option (List Byte))} (hb : d._blocks = some blocks)
    (addr size : Nat) (hv : d.is_valid_erase addr size = true) :
    ∃ blocks' array', d.erase addr size =
        .ok (0, { d with _blocks := some blocks', _erase_array := array' }) ∧
      blocks'.length = blocks.length ∧ array'.length = d._erase_array.length ∧
      ∀ j,
        blocks'[j]? =
          (if addr / d._erase_size ≤ j ∧ j < (addr + size) / d._erase_size then
            (if d.erase_exhausted j then
              (if blocks[j]? = some none then some (some (List.replicate d._erase_size 0))
               else blocks[j]?)
             else some (some (List.replicate d._erase_size 255)))
           else blocks[j]?) ∧
        array'[j]? =
          (if addr / d._erase_size ≤ j ∧ j < (addr + size) / d._erase_size ∧
              d.erase_exhausted j = false
           then some ((d._erase_array.getD j 0 + 1) % U32) else d._erase_array[j]?) := by
  have hE : 0 < d._erase_size := hwf.2.2.1
  have hC : d._erase_count < U32 := hwf.2.2.2.2.2.1
  have hal : d._erase_array.length = d._erase_count := hwf.2.2.2.2.2.2.2.1
  have hbl := hwf.blocks_length hb
  simp only [is_valid_erase, Bool.and_eq_true, beq_iff_eq, decide_eq_true_eq] at hv
  obtain ⟨⟨hv1, hv2⟩, hv3⟩ := hv
  -- the range in units
  obtain ⟨k, hk⟩ : ∃ k, addr = k * d._erase_size :=
    ⟨addr / d._erase_size, (Nat.div_mul_cancel (Nat.dvd_of_mod_eq_zero hv1)).symm⟩
  obtain ⟨n, hn⟩ : ∃ n, size = n * d._erase_size :=
    ⟨size / d._erase_size, (Nat.div_mul_cancel (Nat.dvd_of_mod_eq_zero hv2)).symm⟩
  have hstart : addr / d._erase_size = k := by rw [hk]; exact Nat.mul_div_cancel _ hE
  have hend : (addr + size) / d._erase_size = k + n := by
    rw [hk, hn, ← Nat.add_mul]; exact Nat.mul_div_cancel _ hE
  have hkn : k + n ≤ d._erase_count := by
    have : (k + n) * d._erase_size ≤ d._erase_count * d._erase_size := by
      rw [Nat.add_mul, ← hk, ← hn]; exact hv3
    exact Nat.le_of_mul_le_mul_right this hE
  -- the allocation step
  obtain ⟨blocks0, hla, hl0, hs0⟩ := lazy_allocate_spec hwf hb addr size hv3
  rw [hstart, hend] at hs0
  have hwf0 : WF { d with _blocks := some blocks0 } := by
    refine hwf.update hb blocks0 d._program_array d._erase_array hl0 ?_ rfl rfl
    intro i block hi
    rw [hs0 i] at hi
    split at hi
    · simp only [Option.some.injEq] at hi; rw [← hi]; simp
    · exact hwf.block_length hb hi
  have halloc : ∀ j, k ≤ j → j < k + n →
      ∃ block, blocks0[j]? = some (some block) ∧ block.length = d._erase_size := by
    intro j h1 h2
    have hj : j < blocks.length := by omega
    cases hsj : blocks[j]? with
    | none => rw [List.getElem?_eq_getElem hj] at hsj; cases hsj
    | some slot =>
      cases slot with
      | none =>
        refine ⟨List.replicate d._erase_size 0, ?_, by simp⟩
        rw [hs0 j]; simp [h1, h2, hsj]
      | some block =>
        refine ⟨block, ?_, hwf.block_length hb hsj⟩
        rw [hs0 j]; simp [hsj]
  -- the loop
  let d0 : ExhaustibleBlockDevice := { d with _blocks := some blocks0 }
  let I : Nat → ExhaustibleBlockDevice → Prop := fun i d1 =>
    ∃ bs arr, d1 = { d with _blocks := some bs, _erase_array := arr } ∧
      bs.length = blocks.length ∧ arr.length = d._erase_array.length ∧
      ∀ j,
        bs[j]? = (if k ≤ j ∧ j < k + i ∧ d.erase_exhausted j = false
          then some (some (List.replicate d._erase_size 255)) else blocks0[j]?) ∧
        arr[j]? = (if k ≤ j ∧ j < k + i ∧ d.erase_exhausted j = false
          then some ((d._erase_array.getD j 0 + 1) % U32) else d._erase_array[j]?)
  have hI0 : I 0 d0 := by
    refine ⟨blocks0, d._erase_array, rfl, hl0, rfl, ?_⟩
    intro j
    have : ¬ (k ≤ j ∧ j < k + 0 ∧ d.erase_exhausted j = false) := by omega
    simp only [this, if_false, and_self]
  have hIE : ∀ i d1, I i d1 → d1._erase_size = d._erase_size := by
    rintro i d1 ⟨bs, arr, rfl, _⟩; rfl
  have hstep : ∀ d1 i, I i d1 → i < n →
      ∃ d2, erase_chunk d1 (addr + i * d._erase_size) = .ok d2 ∧ I (i + 1) d2 := by
    rintro d1 i ⟨bs, arr, rfl, hbs, harr, hch⟩ hi
    have hidx : ((addr + i * d._erase_size) / d._erase_size) % U32 = k + i := by
      rw [hk, ← Nat.add_mul, Nat.mul_div_cancel _ hE]
      exact Nat.mod_eq_of_lt (by omega)
    have hnot : ¬ (k ≤ k + i ∧ k + i < k + i ∧ d.erase_exhausted (k + i) = false) := by omega
    have hbsi : bs[k + i]? = blocks0[k + i]? := by
      rw [(hch (k + i)).1]; simp only [hnot, if_false]
    have harri : arr[k + i]? = d._erase_array[k + i]? := by
      rw [(hch (k + i)).2]; simp only [hnot, if_false]
    obtain ⟨block, hblock, hblen⟩ := halloc (k + i) (by omega) (by omega)
    have hex : erase_exhausted { d with _blocks := some bs, _erase_array := arr } (k + i)
        = d.erase_exhausted (k + i) := by
      simp only [erase_exhausted, List.getD_eq_getElem?_getD, harri]
    have hgd : arr.getD (k + i) 0 = d._erase_array.getD (k + i) 0 := by
      simp only [List.getD_eq_getElem?_getD, harri]
    have hchunk := erase_chunk_eq (d := { d with _blocks := some bs, _erase_array := arr })
      (show _ = some bs from rfl) (addr + i * d._erase_size) (k + i) hidx
      (show bs[k + i]? = some (some block) from by rw [hbsi, hblock])
      (fun _ => ⟨block, rfl, hblen⟩)
      (by simp only [harr]; omega)
    refine ⟨_, hchunk, ?_⟩
    rw [hex]
    simp only [hgd]
    refine ⟨_, _, rfl, ?_, ?_, ?_⟩
    · simp [hbs]
    · split <;> simp [harr]
    · intro j
      by_cases hj : j = k + i
      · subst hj
        have hki : k + i < bs.length := by omega
        have hki2 : k + i < arr.length := by omega
        cases hx : d.erase_exhausted (k + i) with
        | true =>
          simp [hx, hki, hbsi, hblock, harri]
        | false =>
          simp [hx, hki, hki2]
      · have hne : k + i ≠ j := fun h => hj h.symm
        have hiff : (k ≤ j ∧ j < k + (i + 1) ∧ d.erase_exhausted j = false) ↔
            (k ≤ j ∧ j < k + i ∧ d.erase_exhausted j = false) := by
          constructor
          · rintro ⟨a, b, c⟩; exact ⟨a, by omega, c⟩
          · rintro ⟨a, b, c⟩; exact ⟨a, by omega, c⟩
        rw [List.getElem?_set_ne hne]
        simp only [hiff]
        refine ⟨(hch j).1, ?_⟩
        split
        · exact (hch j).2
        · rw [List.getElem?_set_ne hne]; exact (hch j).2
  obtain ⟨d', hloop, bs', arr', hd', hbs', harr', hch'⟩ :=
    erase_loop_ok d._erase_size hE n I addr hIE hstep size d0
      (by rw [hn]; exact Nat.le_mul_of_pos_right n hE) hI0
  refine ⟨bs', arr', ?_, hbs', harr', ?_⟩
  · have hval : d.is_valid_erase addr size = true := by
      simp [is_valid_erase, hv1, hv2, hv3]
    rw [hn] at hloop hla hval
    simp only [erase, hb, Option.isSome_some, Bool.not_true, Bool.false_eq_true, if_false,
      hn, hval, hla, hloop, hd']
  · intro j
    rw [hstart, hend, (hch' j).1, (hch' j).2, hs0 j]
    by_cases h1 : k ≤ j ∧ j < k + n
    · cases hx : d.erase_exhausted j <;> simp [h1, hx]
    · have h2 : ¬ (k ≤ j ∧ j < k + n ∧ d.erase_exhausted j = false) := fun h => h1 ⟨h.1, h.2.1⟩
      have h3 : ¬ (k ≤ j ∧ j < k + n ∧ blocks[j]? = some none) := fun h => h1 ⟨h.1, h.2.1⟩
      simp only [h1, h2, h3, if_false, and_self]

end ExhaustibleBlockDevice

/-! ## `program` -/

/-- The bytes of a buffer after `memcpy(&block[lo], src, size)`. -/
theorem getD_memcpy (block src : List Byte) (lo size y : Nat) (h1 : size ≤ src.length)
    (h2 : lo + size ≤ block.length) :
    (block.take lo ++ src.take size ++ block.drop (lo + size)).getD y 0 =
      if lo ≤ y ∧ y < lo + size then src.getD (y - lo) 0 else block.getD y 0 := by
  simp only [List.getD_eq_getElem?_getD]
  have hl1 : (block.take lo).length = lo := by rw [List.length_take]; omega
  have hl2 : (src.take size).length = size := by rw [List.length_take]; omega
  by_cases hy1 : y < lo
  · have : ¬ (lo ≤ y ∧ y < lo + size) := by omega
    rw [if_neg this, List.append_assoc, List.getElem?_append_left (by omega),
      List.getElem?_take, if_pos hy1]
  · by_cases hy2 : y < lo + size
    · rw [if_pos ⟨by omega, hy2⟩, List.getElem?_append_left (by simp [hl1, hl2]; omega),
        List.getElem?_append_right (by omega), hl1, List.getElem?_take, if_pos (by omega)]
    · have : ¬ (lo ≤ y ∧ y < lo + size) := by omega
      rw [if_neg this, List.getElem?_append_right (by simp [hl1, hl2]; omega),
        List.getElem?_drop]
      simp only [List.length_append, hl1, hl2]
      congr 2
      omega

theorem length_memcpy (block src : List Byte) (lo size : Nat) (h1 : size ≤ src.length)
    (h2 : lo + size ≤ block.length) :
    (block.take lo ++ src.take size ++ block.drop (lo + size)).length = block.length := by
  simp only [List.length_append, List.length_take, List.length_drop]
  omega

/-- What a finished `program_data` did: nothing when a limit was exceeded, otherwise a
copy of `size` bytes into an existing buffer with room for them. -/
theorem program_data_inv {slot slot' : Option (List Byte)} {lo size : Nat}
    {src : List Byte} {pe ee : Bool}
    (h : program_data slot lo src size pe ee = .ok slot') :
    ((pe || ee) = true ∧ slot' = slot) ∨
    ((pe || ee) = false ∧ ∃ block, slot = some block ∧ size ≤ src.length ∧
      lo + size ≤ block.length ∧
      slot' = some (block.take lo ++ src.take size ++ block.drop (lo + size))) := by
  unfold program_data at h
  cases hx : (pe || ee) with
  | true =>
    simp only [hx, if_true, Except.ok.injEq] at h
    exact Or.inl ⟨rfl, h.symm⟩
  | false =>
    simp only [hx, Bool.false_eq_true, if_false] at h
    cases slot with
    | none => simp [memcpy_into] at h
    | some block =>
      simp only [memcpy_into] at h
      by_cases h1 : src.length < size
      · simp [h1] at h
      · by_cases h2 : block.length < lo + size
        · simp [h1, h2] at h
        · simp only [h1, h2, if_false, Except.ok.injEq] at h
          exact Or.inr ⟨rfl, block, rfl, by omega, by omega, h.symm⟩

namespace ExhaustibleBlockDevice

/-- What a finished pass of the `program` loop did. -/
theorem program_chunk_inv {d d1 : ExhaustibleBlockDevice} {buf : List Byte} {a : Nat}
    (h : program_chunk d buf a = .ok d1) :
    ∃ blocks slot slot', d._blocks = some blocks ∧
      blocks[a / d._erase_size]? = some slot ∧
      program_data slot (a % d._erase_size) buf d._program_size
        (d.prog_exhausted ((a / d._program_size) % U32))
        (d.erase_exhausted ((a / d._erase_size) % U32)) = .ok slot' ∧
      (d.prog_exhausted ((a / d._program_size) % U32) = false →
        (a / d._program_size) % U32 < d._program_array.length) ∧
      d1 = { d with
        _blocks := some (blocks.set (a / d._erase_size) slot')
        _program_array :=
          if d.prog_exhausted ((a / d._program_size) % U32) then d._program_array
          else d._program_array.set ((a / d._program_size) % U32)
            ((d._program_array.getD ((a / d._program_size) % U32) 0 + 1) % U32) } := by
  unfold program_chunk at h
  simp only at h
  generalize (a / d._program_size) % U32 = pidx at h ⊢
  generalize (a / d._erase_size) % U32 = eidx at h ⊢
  cases hc : cycles_reached d._program_life d._program_array pidx with
  | error e => simp [hc] at h
  | ok pe =>
    have hpe : d.prog_exhausted pidx = pe := by rw [cycles_reached_inv hc]; rfl
    simp only [hc] at h
    cases hc2 : cycles_reached d._erase_life d._erase_array eidx with
    | error e => simp [hc2] at h
    | ok ee =>
      have hee : d.erase_exhausted eidx = ee := by rw [cycles_reached_inv hc2]; rfl
      simp only [hc2] at h
      cases hbl : d._blocks with
      | none => simp [hbl] at h
      | some blocks =>
        simp only [hbl] at h
        cases hs : blocks[a / d._erase_size]? with
        | none => simp [hs] at h
        | some slot =>
          simp only [hs] at h
          cases hd : program_data slot (a % d._erase_size) buf d._program_size pe ee with
          | error e => simp [hd] at h
          | ok slot' =>
            simp only [hd] at h
            rw [hpe, hee]
            refine ⟨blocks, slot, slot', rfl, hs, hd, ?_, ?_⟩
            · intro hf
              subst hf
              simp only [Bool.false_eq_true, if_false] at h
              cases hinc : increment d._program_array pidx with
              | error e => simp [hinc] at h
              | ok arr => exact (increment_inv hinc).1
            · cases pe with
              | true => simp at h; simp [← h]
              | false =>
                simp only [Bool.false_eq_true, if_false] at h
                cases hinc : increment d._program_array pidx with
                | error e => simp [hinc] at h
                | ok arr =>
                  simp only [hinc, Except.ok.injEq] at h
                  simp [← h, (increment_inv hinc).2]

/-- One pass of the `program` loop on a slot that exists: it finishes when the chunk
is exhausted, or when the unit has a buffer with room for the chunk at its offset
and the caller's buffer holds a chunk. -/
theorem program_chunk_eq {d : ExhaustibleBlockDevice} {blocks : List (Option (List Byte))}
    (hb : d._blocks = some blocks) (buf : List Byte) (a pidx eidx : Nat)
    (hpidx : (a / d._program_size) % U32 = pidx)
    (heidx : (a / d._erase_size) % U32 = eidx)
    {slot : Option (List Byte)} (hs : blocks[a / d._erase_size]? = some slot)
    (hslot : (d.prog_exhausted pidx || d.erase_exhausted eidx) = false →
      ∃ block, slot = some block ∧ a % d._erase_size + d._program_size ≤ block.length ∧
        d._program_size ≤ buf.length)
    (hp : pidx < d._program_array.length) (he : eidx < d._erase_array.length) :
    program_chunk d buf a = .ok { d with
      _blocks := some (blocks.set (a / d._erase_size)
        (if (d.prog_exhausted pidx || d.erase_exhausted eidx) then slot
         else some ((slot.getD []).take (a % d._erase_size) ++ buf.take d._program_size ++
            (slot.getD []).drop (a % d._erase_size + d._program_size))))
      _program_array :=
        if d.prog_exhausted pidx then d._program_array
        else d._program_array.set pidx ((d._program_array.getD pidx 0 + 1) % U32) } := by
  unfold program_chunk
  simp only [hpidx, heidx, cycles_reached_ok _ _ _ hp, cycles_reached_ok _ _ _ he, hb, hs]
  have hpx : (d._program_life != 0 && decide (d._program_array.getD pidx 0 > d._program_life))
      = d.prog_exhausted pidx := rfl
  have hex : (d._erase_life != 0 && decide (d._erase_array.getD eidx 0 > d._erase_life))
      = d.erase_exhausted eidx := rfl
  rw [hpx, hex]
  cases hc : (d.prog_exhausted pidx || d.erase_exhausted eidx) with
  | true =>
    simp only [program_data, hc, if_true]
    cases hq : d.prog_exhausted pidx with
    | true => simp
    | false => simp [increment_ok _ _ hp]
  | false =>
    obtain ⟨block, hsl, hlen, hbuf⟩ := hslot hc
    subst hsl
    have hq : d.prog_exhausted pidx = false := by
      cases hq : d.prog_exhausted pidx with
      | true => simp [hq] at hc
      | false => rfl
    have hq2 : d.erase_exhausted eidx = false := by
      cases hq2 : d.erase_exhausted eidx with
      | true => simp [hq2] at hc
      | false => rfl
    have h1 : ¬ buf.length < d._program_size := by omega
    have h2 : ¬ block.length < a % d._erase_size + d._program_size := by omega
    simp [program_data, memcpy_into, h1, h2, hq, hq2, increment_ok _ _ hp]

end ExhaustibleBlockDevice

namespace ExhaustibleBlockDevice

theorem content_of_blocks {d : ExhaustibleBlockDevice} {blocks : List (Option (List Byte))}
    (hb : d._blocks = some blocks) (x : Nat) :
    d.content x =
      match blocks[x / d._erase_size]? with
      | some (some block) => block.getD (x % d._erase_size) 0
      | _ => 0 := by
  simp only [content, hb]

/-- The observed bytes depend only on the slot of the containing erase unit. -/
theorem content_congr {d d1 : ExhaustibleBlockDevice}
    {blocks blocks1 : List (Option (List Byte))}
    (hb : d._blocks = some blocks) (hb1 : d1._blocks = some blocks1)
    (hE : d1._erase_size = d._erase_size) (x : Nat)
    (h : blocks1[x / d._erase_size]? = blocks[x / d._erase_size]?) :
    d1.content x = d.content x := by
  rw [content_of_blocks hb, content_of_blocks hb1, hE, h]

/-- What a finished pass of the `program` loop did, for a chunk inside the device. -/
theorem program_chunk_facts {d d1 : ExhaustibleBlockDevice} {buf : List Byte} {a : Nat}
    (hwf : WF d) (hr : a + d._program_size ≤ d._erase_count * d._erase_size)
    (h : program_chunk d buf a = .ok d1) :
    ∃ blocks blocks' array', d._blocks = some blocks ∧
      d1 = { d with _blocks := some blocks', _program_array := array' } ∧
      WF d1 ∧
      blocks'.length = blocks.length ∧ array'.length = d._program_array.length ∧
      (∀ j, j ≠ a / d._erase_size → blocks'[j]? = blocks[j]?) ∧
      (∀ j : Nat, blocks'[j]? = some none ↔ blocks[j]? = some none) ∧
      (∀ x, (x < a ∨ a + d._program_size ≤ x) → d1.content x = d.content x) ∧
      ((d.prog_exhausted (a / d._program_size) || d.erase_exhausted (a / d._erase_size)) = true →
        blocks' = blocks) ∧
      array' = (if d.prog_exhausted (a / d._program_size) then d._program_array
        else d._program_array.set (a / d._program_size)
          ((d._program_array.getD (a / d._program_size) 0 + 1) % U32)) ∧
      ((d.prog_exhausted (a / d._program_size) || d.erase_exhausted (a / d._erase_size)) = false →
        ∀ x, a ≤ x → x < a + d._program_size → d1.content x = buf.getD (x - a) 0) := by
  have hP : 0 < d._program_size := hwf.2.1
  have hE : 0 < d._erase_size := hwf.2.2.1
  have ha : a < d._erase_count * d._erase_size := by omega
  obtain ⟨blocks, slot, slot', hb, hs, hd, hlt, hd1⟩ := program_chunk_inv h
  simp only [(hwf.program_index ha).2, (hwf.erase_index ha).2] at hd hd1 hlt
  have hbl := hwf.blocks_length hb
  have hhi : a / d._erase_size < blocks.length := by rw [hbl]; exact (hwf.erase_index ha).1
  have hset : (blocks.set (a / d._erase_size) slot')[a / d._erase_size]? = some slot' :=
    List.getElem?_set_self hhi
  have harr : (if d.prog_exhausted (a / d._program_size) then d._program_array
        else d._program_array.set (a / d._program_size)
          ((d._program_array.getD (a / d._program_size) 0 + 1) % U32)).length
      = d._program_array.length := by
    split <;> simp
  have hb1 : d1._blocks = some (blocks.set (a / d._erase_size) slot') := by rw [hd1]
  have hE1 : d1._erase_size = d._erase_size := by rw [hd1]
  have hP1 : d1._program_size = d._program_size := by rw [hd1]
  have hframe : ∀ j, j ≠ a / d._erase_size →
      (blocks.set (a / d._erase_size) slot')[j]? = blocks[j]? :=
    fun j hj => List.getElem?_set_ne (fun h => hj h.symm)
  -- the two cases of `program_data`
  rcases program_data_inv hd with ⟨hx, hsl⟩ | ⟨hx, block, hsl, hbuf, hroom, hsl'⟩
  · -- exhausted: nothing is stored
    subst hsl
    have hsame : blocks.set (a / d._erase_size) slot' = blocks :=
      set_eq_self_of_getElem? _ _ _ hs
    rw [hsame] at hd1 hb1
    refine ⟨blocks, blocks, _, hb, hd1, ?_, rfl, harr, fun _ _ => rfl, fun _ => Iff.rfl, ?_,
      fun _ => rfl, rfl, ?_⟩
    · rw [hd1]
      exact hwf.update hb blocks _ d._erase_array rfl
        (fun i block hi => hwf.block_length hb hi) harr rfl
    · intro x _
      exact content_congr hb hb1 hE1 x rfl
    · intro hx'; rw [hx] at hx'; cases hx'
  · -- the chunk is stored
    subst hsl hsl'
    have hlen' := length_memcpy block buf (a % d._erase_size) d._program_size hbuf hroom
    have hblen : block.length = d._erase_size := hwf.block_length hb hs
    refine ⟨blocks, _, _, hb, hd1, ?_, by simp, harr, hframe, ?_, ?_, ?_, rfl, ?_⟩
    · rw [hd1]
      refine hwf.update hb _ _ d._erase_array (by simp) ?_ harr rfl
      intro i blk hi
      by_cases hij : i = a / d._erase_size
      · subst hij
        rw [hset] at hi
        simp only [Option.some.injEq] at hi
        rw [← hi, hlen', hblen]
      · rw [hframe i hij] at hi
        exact hwf.block_length hb hi
    · intro j
      by_cases hij : j = a / d._erase_size
      · subst hij
        rw [hset, hs]; simp
      · rw [hframe j hij]
    · intro x hx'
      rw [content_of_blocks hb, content_of_blocks hb1, hE1]
      by_cases hij : x / d._erase_size = a / d._erase_size
      · rw [hij, hset, hs]
        simp only
        rw [getD_memcpy _ _ _ _ _ hbuf hroom]
        have h1 := Nat.div_add_mod x d._erase_size
        have h2 := Nat.div_add_mod a d._erase_size
        rw [hij] at h1
        have : ¬ (a % d._erase_size ≤ x % d._erase_size ∧
            x % d._erase_size < a % d._erase_size + d._program_size) := by omega
        rw [if_neg this]
      · rw [hframe _ hij]
    · intro hx'; rw [hx] at hx'; cases hx'
    · intro _ x hx1 hx2
      rw [content_of_blocks hb1, hE1]
      have hmod := Nat.mod_lt a hE
      have h1 := Nat.div_add_mod x d._erase_size
      have h2 := Nat.div_add_mod a d._erase_size
      have hij : x / d._erase_size = a / d._erase_size := by
        have hlo : a / d._erase_size ≤ x / d._erase_size := Nat.div_le_div_right hx1
        have hhi2 : x / d._erase_size < a / d._erase_size + 1 := by
          rw [Nat.div_lt_iff_lt_mul hE, Nat.add_mul, Nat.mul_comm]
          omega
        omega
      rw [hij, hset]
      simp only
      rw [getD_memcpy _ _ _ _ _ hbuf hroom]
      rw [hij] at h1
      have hin : a % d._erase_size ≤ x % d._erase_size ∧
          x % d._erase_size < a % d._erase_size + d._program_size := by omega
      rw [if_pos hin]
      congr 1
      omega

end ExhaustibleBlockDevice

namespace ExhaustibleBlockDevice

/-- The allocation step on a range inside the device: it finishes, keeps the
representation invariant and every observed byte, and changes only null slots of
the range. -/
theorem lazy_allocate_facts {d : ExhaustibleBlockDevice} (hwf : WF d)
    {blocks : List (Option (List Byte))} (hb : d._blocks = some blocks)
    (addr size : Nat) (hr : addr + size ≤ d._erase_count * d._erase_size) :
    ∃ blocks0, d._lazy_allocate addr size = .ok { d with _blocks := some blocks0 } ∧
      WF { d with _blocks := some blocks0 } ∧
      blocks0.length = blocks.length ∧
      (∀ x, content { d with _blocks := some blocks0 } x = d.content x) ∧
      ∀ j, blocks0[j]? =
        if addr / d._erase_size ≤ j ∧ j < (addr + size) / d._erase_size ∧
            blocks[j]? = some none
        then some (some (List.replicate d._erase_size 0)) else blocks[j]? := by
  obtain ⟨blocks0, hla, hl0, hs0⟩ := lazy_allocate_spec hwf hb addr size hr
  refine ⟨blocks0, hla, ?_, hl0, ?_, hs0⟩
  · refine hwf.update hb blocks0 d._program_array d._erase_array hl0 ?_ rfl rfl
    intro i block hi
    rw [hs0 i] at hi
    split at hi
    · simp only [Option.some.injEq] at hi; rw [← hi]; simp
    · exact hwf.block_length hb hi
  · intro x
    rw [content_of_blocks hb, content_of_blocks (d := { d with _blocks := some blocks0 }) rfl]
    simp only
    rw [hs0 (x / d._erase_size)]
    by_cases hc : addr / d._erase_size ≤ x / d._erase_size ∧
        x / d._erase_size < (addr + size) / d._erase_size ∧
        blocks[x / d._erase_size]? = some none
    · rw [if_pos hc, hc.2.2]
      simp only [List.getD_eq_getElem?_getD, List.getElem?_replicate]
      split <;> rfl
    · rw [if_neg hc]

/-- What a finished `program` loop over `n` chunks inside the device did. -/
theorem program_loop_facts {d : ExhaustibleBlockDevice} (hwf : WF d)
    {blocks : List (Option (List Byte))} (hb : d._blocks = some blocks)
    (addr n fuel : Nat) (buf : List Byte) (d' : ExhaustibleBlockDevice)
    (hal : addr % d._program_size = 0)
    (hr : addr + n * d._program_size ≤ d._erase_count * d._erase_size)
    (h : program_loop fuel d buf addr (n * d._program_size) = .ok d') :
    ∃ blocks' array', d' = { d with _blocks := some blocks', _program_array := array' } ∧
      WF d' ∧ blocks'.length = blocks.length ∧ array'.length = d._program_array.length ∧
      (∀ j : Nat, (∀ a, addr ≤ a → a < addr + n * d._program_size → a / d._erase_size ≠ j) →
        blocks'[j]? = blocks[j]?) ∧
      (∀ j : Nat, blocks'[j]? = some none ↔ blocks[j]? = some none) ∧
      (∀ x, (x < addr ∨ addr + n * d._program_size ≤ x) → d'.content x = d.content x) ∧
      (∀ u, d.prog_exhausted u = true →
        array'[u]? = d._program_array[u]? ∧
        ∀ x, x / d._program_size = u → d'.content x = d.content x) ∧
      (∀ u, (u < addr / d._program_size ∨ addr / d._program_size + n ≤ u) →
        array'[u]? = d._program_array[u]?) := by
  have hP : 0 < d._program_size := hwf.2.1
  let I : Nat → ExhaustibleBlockDevice → Prop := fun _ d1 =>
    ∃ blocks' array', d1 = { d with _blocks := some blocks', _program_array := array' } ∧
      WF d1 ∧ blocks'.length = blocks.length ∧ array'.length = d._program_array.length ∧
      (∀ j : Nat, (∀ a, addr ≤ a → a < addr + n * d._program_size → a / d._erase_size ≠ j) →
        blocks'[j]? = blocks[j]?) ∧
      (∀ j : Nat, blocks'[j]? = some none ↔ blocks[j]? = some none) ∧
      (∀ x, (x < addr ∨ addr + n * d._program_size ≤ x) → d1.content x = d.content x) ∧
      (∀ u, d.prog_exhausted u = true →
        array'[u]? = d._program_array[u]? ∧
        ∀ x, x / d._program_size = u → d1.content x = d.content x) ∧
      (∀ u, (u < addr / d._program_size ∨ addr / d._program_size + n ≤ u) →
        array'[u]? = d._program_array[u]?)
  have hI0 : I 0 d := by
    refine ⟨blocks, d._program_array, ?_, hwf, rfl, rfl, fun _ _ => rfl, fun _ => Iff.rfl,
      fun _ _ => rfl, fun _ _ => ⟨rfl, fun _ _ => rfl⟩, fun _ _ => rfl⟩
    cases d; simp only at hb; subst hb; rfl
  have hIP : ∀ i d1, I i d1 → d1._program_size = d._program_size := by
    rintro i d1 ⟨bs, arr, rfl, _⟩; rfl
  refine program_loop_inv d._program_size hP n I addr hIP ?_ fuel d buf d' hI0 h
  rintro d1 buf1 i d2 ⟨bs1, arr1, rfl, hwf1, hl1, hla1, f1, f2, f3, f4, f5⟩ hi hc
  have hin : addr + i * d._program_size + d._program_size ≤ addr + n * d._program_size := by
    have : (i + 1) * d._program_size ≤ n * d._program_size :=
      Nat.mul_le_mul_right _ (by omega)
    rw [Nat.succ_mul] at this
    omega
  obtain ⟨bs, bs2, arr2, hbs, hd2, hwf2, hl2, hla2, g1, g2, g3, g4, g5, _⟩ :=
    program_chunk_facts hwf1 (by simp only; omega) hc
  simp only [Option.some.injEq] at hbs
  subst hbs
  simp only at hd2 hl2 hla2 g1 g3 g4 g5
  have hdiv : (addr + i * d._program_size) / d._program_size = addr / d._program_size + i :=
    Nat.add_mul_div_right _ _ hP
  have hmod : (addr + i * d._program_size) % d._program_size = 0 := by
    rw [Nat.add_mul_mod_self_right]; exact hal
  refine ⟨bs2, arr2, hd2, hwf2, by omega, by omega, ?_, ?_, ?_, ?_, ?_⟩
  · intro j hj
    rw [g1 j (fun h => hj (addr + i * d._program_size) (by omega) (by omega) h.symm)]
    exact f1 j hj
  · intro j; rw [g2 j]; exact f2 j
  · intro x hx
    rw [g3 x (by omega)]
    exact f3 x hx
  · intro u hu
    have harr1 := (f4 u hu).1
    have hex1 : prog_exhausted { d with _blocks := some bs1, _program_array := arr1 } u = true := by
      simp only [prog_exhausted, List.getD_eq_getElem?_getD, harr1]
      simpa only [prog_exhausted, List.getD_eq_getElem?_getD] using hu
    by_cases hua : addr / d._program_size + i = u
    · -- the chunk of the exhausted unit itself
      rw [hdiv, hua] at g4 g5
      rw [hex1] at g5
      have hbs2 : bs2 = bs1 := g4 (by rw [hex1]; rfl)
      simp only [if_true] at g5
      subst hbs2 g5
      subst hd2
      exact ⟨harr1, (f4 u hu).2⟩
    · rw [hdiv] at g5
      constructor
      · rw [g5]
        split
        · exact harr1
        · rw [List.getElem?_set_ne hua]; exact harr1
      · intro x hx
        have hxa : x < addr + i * d._program_size ∨
            addr + i * d._program_size + d._program_size ≤ x := by
          have hm := Nat.div_add_mod (addr + i * d._program_size) d._program_size
          rw [hmod, hdiv, Nat.add_zero] at hm
          by_cases hlt : u < addr / d._program_size + i
          · left
            rw [← hx] at hlt
            have := (Nat.div_lt_iff_lt_mul hP).mp hlt
            rw [Nat.mul_comm] at this
            omega
          · right
            have hge : addr / d._program_size + i + 1 ≤ x / d._program_size := by omega
            have := (Nat.le_div_iff_mul_le hP).mp hge
            rw [Nat.add_mul, Nat.one_mul, Nat.mul_comm] at this
            omega
        rw [g3 x hxa]
        exact (f4 u hu).2 x hx
  · intro u hu
    rw [g5, hdiv]
    split
    · exact f5 u hu
    · rw [List.getElem?_set_ne (by omega)]; exact f5 u hu

end ExhaustibleBlockDevice

/-- An erase unit between the first and the last unit of a non-empty address range
contains an address of the range. -/
theorem unit_in_range {E addr size j : Nat} (hE : 0 < E) (h1 : addr / E ≤ j)
    (h2 : j < (addr + size) / E) : ∃ a, addr ≤ a ∧ a < addr + size ∧ a / E = j := by
  have h3 : (j + 1) * E ≤ addr + size := (Nat.le_div_iff_mul_le hE).mp h2
  rw [Nat.add_mul, Nat.one_mul] at h3
  by_cases hj : addr / E = j
  · refine ⟨addr, Nat.le_refl _, ?_, hj⟩
    have hdm := Nat.div_add_mod addr E
    have hlt := Nat.mod_lt addr hE
    rw [hj, Nat.mul_comm E j] at hdm
    omega
  · have hlt : addr / E < j := by omega
    have := (Nat.div_lt_iff_lt_mul hE).mp hlt
    exact ⟨j * E, by omega, by omega, Nat.mul_div_cancel _ hE⟩

/-- A chunk of `R` bytes at an `R`-aligned address does not cross the end of an
erase unit whose size is a multiple of `R`. -/
theorem aligned_room {R E a : Nat} (hE : 0 < E) (hdvd : R ∣ E)
    (ha : a % R = 0) : a % E + R ≤ E := by
  obtain ⟨m, hm⟩ := hdvd
  have h1 : (a % E) % R = 0 := by rw [Nat.mod_mod_of_dvd _ ⟨m, hm⟩]; exact ha
  obtain ⟨t, ht⟩ : ∃ t, a % E = R * t :=
    ⟨a % E / R, (Nat.mul_div_cancel' (Nat.dvd_of_mod_eq_zero h1)).symm⟩
  have hlt : a % E < E := Nat.mod_lt _ hE
  rw [ht, hm] at hlt
  have htm : t < m := Nat.lt_of_mul_lt_mul_left hlt
  have : R * (t + 1) ≤ R * m := Nat.mul_le_mul_left R htm
  rw [Nat.mul_add, Nat.mul_one] at this
  rw [ht, hm]; exact this

namespace ExhaustibleBlockDevice

theorem is_valid_program_iff (d : ExhaustibleBlockDevice) (addr size : Nat) :
    d.is_valid_program addr size = true ↔
      addr % d._program_size = 0 ∧ size % d._program_size = 0 ∧
        addr + size ≤ d._erase_count * d._erase_size := by
  simp [is_valid_program, and_assoc]

theorem is_valid_erase_iff (d : ExhaustibleBlockDevice) (addr size : Nat) :
    d.is_valid_erase addr size = true ↔
      addr % d._erase_size = 0 ∧ size % d._erase_size = 0 ∧
        addr + size ≤ d._erase_count * d._erase_size := by
  simp [is_valid_erase, and_assoc]

theorem is_valid_read_iff (d : ExhaustibleBlockDevice) (addr size : Nat) :
    d.is_valid_read addr size = true ↔
      addr % d._read_size = 0 ∧ size % d._read_size = 0 ∧
        addr + size ≤ d._erase_count * d._erase_size := by
  simp [is_valid_read, and_assoc]

/-- A `program` call that returns was made on a device after `init` with valid
arguments. -/
theorem program_ok_pre {d : ExhaustibleBlockDevice} {buf : List Byte} {addr size : Nat}
    {r : Int × ExhaustibleBlockDevice} (h : d.program buf addr size = .ok r) :
    d._blocks.isSome = true ∧ d.is_valid_program addr size = true := by
  unfold program at h
  cases h1 : d._blocks.isSome <;> cases h2 : d.is_valid_program addr size <;>
    simp [h1, h2] at h ⊢

/-- An `erase` call that returns was made on a device after `init` with valid
arguments. -/
theorem erase_ok_pre {d : ExhaustibleBlockDevice} {addr size : Nat}
    {r : Int × ExhaustibleBlockDevice} (h : d.erase addr size = .ok r) :
    d._blocks.isSome = true ∧ d.is_valid_erase addr size = true := by
  unfold erase at h
  cases h1 : d._blocks.isSome <;> cases h2 : d.is_valid_erase addr size <;>
    simp [h1, h2] at h ⊢

/-- What a `program` call that returned did: the status is 0; only the slots and the
program counters can differ; slots of untouched erase units, bytes outside the range,
counters of untouched program units, and both the bytes and the counter of every
program unit whose counter exceeds the limit are as before; no buffer is freed. -/
theorem program_facts {d : ExhaustibleBlockDevice} (hwf : WF d)
    {blocks : List (Option (List Byte))} (hb : d._blocks = some blocks)
    {buf : List Byte} {addr size : Nat} {r : Int × ExhaustibleBlockDevice}
    (h : d.program buf addr size = .ok r) :
    r.1 = 0 ∧
    ∃ blocks' array', r.2 = { d with _blocks := some blocks', _program_array := array' } ∧
      WF r.2 ∧ blocks'.length = blocks.length ∧ array'.length = d._program_array.length ∧
      (∀ j : Nat, (∀ a, addr ≤ a → a < addr + size → a / d._erase_size ≠ j) →
        blocks'[j]? = blocks[j]?) ∧
      (∀ j : Nat, blocks'[j]? = some none → blocks[j]? = some none) ∧
      (∀ x, (x < addr ∨ addr + size ≤ x) → r.2.content x = d.content x) ∧
      (∀ u, d.prog_exhausted u = true →
        array'[u]? = d._program_array[u]? ∧
        ∀ x, x / d._program_size = u → r.2.content x = d.content x) ∧
      (∀ u, (u < addr / d._program_size ∨ (addr + size) / d._program_size ≤ u) →
        array'[u]? = d._program_array[u]?) := by
  have hP : 0 < d._program_size := hwf.2.1
  have hE : 0 < d._erase_size := hwf.2.2.1
  obtain ⟨_, hv⟩ := program_ok_pre h
  obtain ⟨hv1, hv2, hv3⟩ := (is_valid_program_iff d addr size).mp hv
  obtain ⟨n, hn⟩ : ∃ n, size = n * d._program_size :=
    ⟨size / d._program_size, (Nat.div_mul_cancel (Nat.dvd_of_mod_eq_zero hv2)).symm⟩
  obtain ⟨blocks0, hla, hwf0, hl0, hc0, hs0⟩ := lazy_allocate_facts hwf hb addr size hv3
  unfold program at h
  simp only [hb, Option.isSome_some, Bool.not_true, Bool.false_eq_true, if_false, hv, hla] at h
  cases hloop : program_loop size { d with _blocks := some blocks0 } buf addr size with
  | error e => simp [hloop] at h
  | ok d' =>
    simp only [hloop, Except.ok.injEq] at h
    subst h
    rw [hn] at hloop
    obtain ⟨bs', arr', hd', hwf', hl', hla', f1, f2, f3, f4, f5⟩ :=
      program_loop_facts hwf0 (show _ = some blocks0 from rfl) addr n (n * d._program_size)
        buf d' hv1
        (by simp only; rw [← hn]; exact hv3) hloop
    simp only at hd' hla' f1 f3 f4 f5
    rw [← hn] at f1 f3
    refine ⟨rfl, bs', arr', hd', hwf', by omega, hla', ?_, ?_, ?_, ?_, ?_⟩
    · intro j hj
      rw [f1 j hj, hs0 j]
      by_cases hc : addr / d._erase_size ≤ j ∧ j < (addr + size) / d._erase_size ∧
          blocks[j]? = some none
      · obtain ⟨a, ha1, ha2, ha3⟩ := unit_in_range hE hc.1 hc.2.1
        exact absurd ha3 (hj a ha1 ha2)
      · rw [if_neg hc]
    · intro j hj
      have := (f2 j).mp hj
      rw [hs0 j] at this
      by_cases hc : addr / d._erase_size ≤ j ∧ j < (addr + size) / d._erase_size ∧
          blocks[j]? = some none
      · exact hc.2.2
      · rw [if_neg hc] at this; exact this
    · intro x hx
      show d'.content x = d.content x
      rw [f3 x hx, hc0 x]
    · intro u hu
      have hu0 : prog_exhausted { d with _blocks := some blocks0 } u = true := hu
      obtain ⟨g1, g2⟩ := f4 u hu0
      refine ⟨g1, fun x hx => ?_⟩
      show d'.content x = d.content x
      rw [g2 x hx, hc0 x]
    · intro u hu
      refine f5 u ?_
      rcases hu with hu | hu
      · exact Or.inl hu
      · right
        rw [hn, Nat.add_mul_div_right _ _ hP] at hu
        exact hu

end ExhaustibleBlockDevice

/-! ## Construction, configuration, power cycles -/

namespace ExhaustibleBlockDevice

/-- C10. For non-zero program and erase unit sizes the constructor passes its
assertions exactly when the total size is a multiple of both unit sizes; an accepted
device has `size / program` program counters and `size / erase` erase counters, all
0, both limits are 0, and after `init` the member function `size()` returns the
total size. -/
theorem construct_accepts_iff (S read program erase : Nat)
    (hp : program ≠ 0) (he : erase ≠ 0) :
    ((∃ d, construct S read program erase = .ok d) ↔ (S % program = 0 ∧ S % erase = 0)) ∧
    (construct S read program erase = .error .assertion ↔
      ¬ (S % program = 0 ∧ S % erase = 0)) ∧
    ∀ d, construct S read program erase = .ok d →
      d._program_array = List.replicate (S / program) 0 ∧
      d._erase_array = List.replicate (S / erase) 0 ∧
      d._program_array.length = S / program ∧
      d._erase_array.length = S / erase ∧
      d._program_life = 0 ∧ d._erase_life = 0 ∧
      d.init.1 = 0 ∧ d.init.2.size = .ok S := by
  have h1 : S / program * program = S ↔ S % program = 0 := by
    constructor
    · intro h; exact Nat.mod_eq_zero_of_dvd ⟨S / program, by rw [Nat.mul_comm]; exact h.symm⟩
    · intro h; exact Nat.div_mul_cancel (Nat.dvd_of_mod_eq_zero h)
  have h2 : S / erase * erase = S ↔ S % erase = 0 := by
    constructor
    · intro h; exact Nat.mod_eq_zero_of_dvd ⟨S / erase, by rw [Nat.mul_comm]; exact h.symm⟩
    · intro h; exact Nat.div_mul_cancel (Nat.dvd_of_mod_eq_zero h)
  by_cases hP : S % program = 0 <;> by_cases hE : S % erase = 0 <;>
    simp [construct, hp, he, h1, h2, hP, hE, init, size, BD_ERROR_OK]

/-- The witness of `construct_accepts_iff`: the geometry of the reference scenario. -/
theorem construct_accepts_iff_witness :
    ((∃ d, construct 131072 1 64 512 = .ok d) ↔ (131072 % 64 = 0 ∧ 131072 % 512 = 0)) :=
  (construct_accepts_iff 131072 1 64 512 (by decide) (by decide)).1

end ExhaustibleBlockDevice

namespace ExhaustibleBlockDevice

/-- The `program` loop over a single chunk is one pass. -/
theorem program_loop_one {d d1 : ExhaustibleBlockDevice} {buf : List Byte} {addr : Nat}
    (hP : 0 < d._program_size) (h : program_chunk d buf addr = .ok d1) :
    program_loop d._program_size d buf addr d._program_size = .ok d1 := by
  obtain ⟨k, hk⟩ : ∃ k, d._program_size = k + 1 := ⟨d._program_size - 1, by omega⟩
  rw [hk]
  have hpos : k + 1 > 0 := by omega
  unfold program_loop
  simp only [hpos, if_true, h]
  rw [hk, Nat.sub_self, program_loop_zero]

/-- C3 (as amended). A valid `program` of one chunk whose program counter exceeds the
finite program limit, or whose erase unit's erase counter exceeds the finite erase
limit, returns 0 and leaves every stored byte and every erase counter as it was.  The
program counters are left as they were when the chunk's program counter exceeds the
program limit; when only the erase limit is exceeded, the chunk's own program counter
is incremented by one (as a `uint32_t`) and all others are left as they were. -/
theorem program_exhausted_chunk_effect (d : ExhaustibleBlockDevice) (buf : List Byte)
    (addr : Nat) (hwf : WF d) (hinit : d._blocks.isSome = true)
    (hv : d.is_valid_program addr d._program_size = true)
    (hex : d.prog_exhausted (addr / d._program_size) = true ∨
      d.erase_exhausted (addr / d._erase_size) = true) :
    ∃ d', d.program buf addr d._program_size = .ok (0, d') ∧
      (∀ x, d'.content x = d.content x) ∧
      d'._erase_array = d._erase_array ∧
      d'._program_array =
        (if d.prog_exhausted (addr / d._program_size) then d._program_array
         else d._program_array.set (addr / d._program_size)
           ((d._program_array.getD (addr / d._program_size) 0 + 1) % U32)) := by
  have hP : 0 < d._program_size := hwf.2.1
  obtain ⟨blocks, hb⟩ := Option.isSome_iff_exists.mp hinit
  obtain ⟨hv1, hv2, hv3⟩ := (is_valid_program_iff d addr _).mp hv
  have ha : addr < d._erase_count * d._erase_size := by omega
  obtain ⟨blocks0, hla, hwf0, hl0, hc0, hs0⟩ :=
    lazy_allocate_facts hwf hb addr d._program_size hv3
  have hhi : addr / d._erase_size < blocks0.length := by
    rw [hl0, hwf.blocks_length hb]; exact (hwf.erase_index ha).1
  have hpl : addr / d._program_size < d._program_array.length := by
    rw [hwf.2.2.2.2.2.2.1]; exact (hwf.program_index ha).1
  have hel : addr / d._erase_size < d._erase_array.length := by
    rw [hwf.2.2.2.2.2.2.2.1]; exact (hwf.erase_index ha).1
  have hxx : (d.prog_exhausted (addr / d._program_size) ||
      d.erase_exhausted (addr / d._erase_size)) = true := by
    rcases hex with h | h <;> simp [h]
  obtain ⟨d1, hchunk⟩ : ∃ d1,
      program_chunk { d with _blocks := some blocks0 } buf addr = .ok d1 :=
    ⟨_, program_chunk_eq (d := { d with _blocks := some blocks0 })
      (show _ = some blocks0 from rfl) buf addr (addr / d._program_size)
      (addr / d._erase_size)
      (hwf.program_index ha).2 (hwf.erase_index ha).2
      (List.getElem?_eq_getElem hhi)
      (fun h => by
        have h' : (d.prog_exhausted (addr / d._program_size) ||
            d.erase_exhausted (addr / d._erase_size)) = false := h
        rw [hxx] at h'; cases h')
      hpl hel⟩
  obtain ⟨bs, bs2, arr2, hbs, hd2, _, _, _, _, _, _, g4, g5, _⟩ :=
    program_chunk_facts hwf0 hv3 hchunk
  simp only [Option.some.injEq] at hbs
  subst hbs
  have hbs2 : bs2 = blocks0 := g4 hxx
  subst hbs2
  have hloop := program_loop_one (d := { d with _blocks := some bs2 }) hP hchunk
  refine ⟨d1, ?_, ?_, ?_, ?_⟩
  · unfold program
    simp only [hb, Option.isSome_some, Bool.not_true, Bool.false_eq_true, if_false, hv, hla]
    simp only at hloop
    rw [hloop]
  · intro x
    rw [← hc0 x, hd2]
    exact content_congr (d := { d with _blocks := some bs2 }) rfl rfl rfl x rfl
  · rw [hd2]
  · rw [hd2]; exact g5

/-- The witness of `program_exhausted_chunk_effect`: an erase unit erased beyond
its limit of one cycle. -/
theorem program_exhausted_chunk_effect_witness :
    ∃ d', worn_erase_unit.program [1, 2] 0 2 = .ok (0, d') ∧
      d'._erase_array = worn_erase_unit._erase_array := by
  obtain ⟨d', h1, _, h2, _⟩ := program_exhausted_chunk_effect worn_erase_unit [1, 2] 0
    (by decide) (by decide) (by decide) (Or.inr (by decide))
  exact ⟨d', h1, h2⟩

/-- C4. A valid `erase` on a device with a finite erase limit returns 0; each erase
unit of the range whose erase counter exceeds the limit keeps its stored bytes and its
counter, and each other unit of the range has all its bytes set to 0xFF and its
counter incremented by one (the `uint32_t` increment, which is the successor whenever
that is below `2 ^ 32`). -/
theorem erase_effect_per_unit (d : ExhaustibleBlockDevice) (addr size : Nat)
    (hwf : WF d) (hinit : d._blocks.isSome = true) (hlife : d._erase_life ≠ 0)
    (hv : d.is_valid_erase addr size = true) :
    ∃ d', d.erase addr size = .ok (0, d') ∧
      ∀ i, addr / d._erase_size ≤ i → i < (addr + size) / d._erase_size →
        (d._erase_life < d._erase_array.getD i 0 →
          (∀ x, x / d._erase_size = i → d'.content x = d.content x) ∧
          d'._erase_array.getD i 0 = d._erase_array.getD i 0) ∧
        (d._erase_array.getD i 0 ≤ d._erase_life →
          d'.allocated i = true ∧
          (∀ x, x / d._erase_size = i → d'.content x = 255) ∧
          d'._erase_array.getD i 0 = (d._erase_array.getD i 0 + 1) % U32 ∧
          (d._erase_array.getD i 0 + 1 < U32 →
            d'._erase_array.getD i 0 = d._erase_array.getD i 0 + 1)) := by
  have hE : 0 < d._erase_size := hwf.2.2.1
  obtain ⟨blocks, hb⟩ := Option.isSome_iff_exists.mp hinit
  obtain ⟨blocks', array', he, hl, hal, hch⟩ := erase_spec hwf hb addr size hv
  refine ⟨_, he, ?_⟩
  intro i hi1 hi2
  have hex : d.erase_exhausted i = decide (d._erase_life < d._erase_array.getD i 0) := by
    simp [erase_exhausted, hlife]
  obtain ⟨hbi, hai⟩ := hch i
  rw [if_pos ⟨hi1, hi2⟩] at hbi
  constructor
  · intro hgt
    have hx : d.erase_exhausted i = true := by rw [hex]; exact decide_eq_true hgt
    rw [hx] at hbi hai
    simp only [if_true] at hbi
    have hnot : ¬ (addr / d._erase_size ≤ i ∧ i < (addr + size) / d._erase_size ∧
        true = false) := by simp
    rw [if_neg hnot] at hai
    constructor
    · intro x hxi
      rw [content_of_blocks hb,
        content_of_blocks (d := { d with _blocks := some blocks', _erase_array := array' }) rfl]
      simp only
      rw [hxi, hbi]
      by_cases hn : blocks[i]? = some none
      · rw [if_pos hn, hn]
        simp only [List.getD_eq_getElem?_getD, List.getElem?_replicate]
        split <;> rfl
      · rw [if_neg hn]
    · simp only [List.getD_eq_getElem?_getD, hai]
  · intro hle
    have hx : d.erase_exhausted i = false := by
      rw [hex]; exact decide_eq_false (by omega)
    rw [hx] at hbi hai
    simp only [Bool.false_eq_true, if_false] at hbi
    rw [if_pos ⟨hi1, hi2, rfl⟩] at hai
    have hcnt : List.getD array' i 0 = (d._erase_array.getD i 0 + 1) % U32 := by
      rw [List.getD_eq_getElem?_getD, hai]; rfl
    refine ⟨?_, ?_, hcnt, fun hlt => ?_⟩
    · simp only [allocated, hbi]
    · intro x hxi
      rw [content_of_blocks (d := { d with _blocks := some blocks', _erase_array := array' })
        rfl]
      simp only
      rw [hxi, hbi]
      simp only [List.getD_eq_getElem?_getD, List.getElem?_replicate, Nat.mod_lt x hE, if_true]
      rfl
    · show List.getD array' i 0 = _
      rw [hcnt, Nat.mod_eq_of_lt hlt]

/-- The witness of `erase_effect_per_unit`: the first erase of a fresh unit under an
erase limit of one cycle. -/
theorem erase_effect_per_unit_witness :
    ∃ d', fresh_limited.erase 0 4 = .ok (0, d') ∧ d'._erase_array.getD 0 0 = 1 := by
  obtain ⟨d', h1, h2⟩ := erase_effect_per_unit fresh_limited 0 4
    (by decide) (by decide) (by decide) (by decide)
  exact ⟨d', h1, ((h2 0 (by decide) (by decide)).2 (by decide)).2.2.2 (by decide)⟩

end ExhaustibleBlockDevice


/-! ## Evaluations on concrete devices -/

namespace ExhaustibleBlockDevice

set_option maxRecDepth 1000000 in
/-- C1 (failing input). Right after construction and `init`, on the reference
geometry (131072 bytes, units 1 / 64 / 512) as on a small one, programming the first
program unit stops with a null-pointer access: `_lazy_allocate` computes an empty
range of erase units for a chunk that does not reach the end of its erase unit, so the
unit has no buffer when `program_data` copies into it.  The last program unit of the
same erase unit is programmed and read back. -/
theorem program_fresh_unit_null_access :
    (construct 131072 1 64 512 >>= fun d => d.init.2.program (List.replicate 64 1) 0 64)
      = .error .nullDeref ∧
    (construct 8 1 2 4 >>= fun d => d.init.2.program [1, 2] 0 2) = .error .nullDeref ∧
    (construct 8 1 2 4 >>= fun d => d.init.2.program [1, 2] 2 2 >>= fun r => r.2.read 2 2)
      = .ok (0, [1, 2]) := by
  decide

/-- C2 (failing input). With a program limit of one cycle and no erase limit, on a
program unit with a buffer and program counter 0, the first program (bytes 1, 2) is
read back, and the second program (bytes 3, 4) of the same unit is stored too: the
read after it returns 3, 4.  Only the third program is without effect. -/
theorem second_program_is_stored :
    (construct 8 1 2 4 >>= fun d =>
      run d [.set_program_cycles 1, .init, .erase 0 4, .program [1, 2] 0 2] >>= fun r =>
      r.2.read 0 2) = .ok (0, [1, 2]) ∧
    (construct 8 1 2 4 >>= fun d =>
      run d [.set_program_cycles 1, .init, .erase 0 4, .program [1, 2] 0 2,
        .program [3, 4] 0 2] >>= fun r =>
      r.2.read 0 2) = .ok (0, [3, 4]) ∧
    (construct 8 1 2 4 >>= fun d =>
      run d [.set_program_cycles 1, .init, .erase 0 4, .program [1, 2] 0 2,
        .program [3, 4] 0 2, .program [5, 6] 0 2] >>= fun r =>
      r.2.read 0 2) = .ok (0, [3, 4]) := by
  decide

/-- C3 (counterexample). The device `worn_erase_unit` is reached from construction;
the erase counter of its first erase unit exceeds the finite erase limit; a valid
program of one chunk in that unit stores nothing, yet it changes a program counter
(from 0 to 1). -/
theorem program_on_erase_worn_unit_counts :
    (construct 8 1 2 4 >>= fun d =>
      run d [.set_erase_cycles 1, .init, .erase 0 4, .erase 0 4])
      = .ok ([none, some 0, some 0, some 0], worn_erase_unit) ∧
    worn_erase_unit._erase_life ≠ 0 ∧
    worn_erase_unit._erase_array.getD 0 0 > worn_erase_unit._erase_life ∧
    worn_erase_unit.is_valid_program 0 2 = true ∧
    worn_erase_unit._program_array = [0, 0, 0, 0] ∧
    worn_erase_unit.program [1, 2] 0 2
      = .ok (0, { worn_erase_unit with _program_array := [1, 0, 0, 0] }) := by
  decide

/-- C5 (counterexample). The device `worn_program_unit` is reached from construction;
the program counter of its first program unit exceeds the finite program limit and the
unit reads 3, 4; after a valid erase of the containing erase unit it reads 0xFF, 0xFF. -/
theorem erase_resets_program_worn_unit :
    (construct 8 1 2 4 >>= fun d =>
      run d [.set_program_cycles 1, .init, .erase 0 4, .program [1, 2] 0 2,
        .program [3, 4] 0 2])
      = .ok ([none, some 0, some 0, some 0, some 0], worn_program_unit) ∧
    worn_program_unit._program_life ≠ 0 ∧
    worn_program_unit._program_array.getD 0 0 > worn_program_unit._program_life ∧
    worn_program_unit.read 0 2 = .ok (0, [3, 4]) ∧
    (worn_program_unit.erase 0 4 >>= fun r => r.2.read 0 2) = .ok (0, [255, 255]) := by
  decide

end ExhaustibleBlockDevice

/-! ## Power cycles and configuration -/

namespace ExhaustibleBlockDevice

theorem program_loop_blocks_some :
    ∀ (fuel : Nat) (d : ExhaustibleBlockDevice) (buf : List Byte) (addr size : Nat)
      (d' : ExhaustibleBlockDevice),
      d._blocks.isSome = true → program_loop fuel d buf addr size = .ok d' →
      d'._blocks.isSome = true := by
  intro fuel
  induction fuel with
  | zero =>
    intro d buf addr size d' hd h
    unfold program_loop at h
    split at h
    · cases h
    · cases h; exact hd
  | succ fuel ih =>
    intro d buf addr size d' hd h
    unfold program_loop at h
    split at h
    · cases hc : program_chunk d buf addr with
      | error e => simp [hc] at h
      | ok d1 =>
        simp only [hc] at h
        obtain ⟨_, _, _, _, _, _, _, hd1⟩ := program_chunk_inv hc
        exact ih d1 _ _ _ d' (by rw [hd1]; rfl) h
    · cases h; exact hd

theorem erase_loop_blocks_some :
    ∀ (fuel : Nat) (d : ExhaustibleBlockDevice) (addr size : Nat)
      (d' : ExhaustibleBlockDevice),
      d._blocks.isSome = true → erase_loop fuel d addr size = .ok d' →
      d'._blocks.isSome = true := by
  intro fuel
  induction fuel with
  | zero =>
    intro d addr size d' hd h
    unfold erase_loop at h
    split at h
    · cases h
    · cases h; exact hd
  | succ fuel ih =>
    intro d addr size d' hd h
    unfold erase_loop at h
    split at h
    · cases hc : erase_chunk d addr with
      | error e => simp [hc] at h
      | ok d1 =>
        simp only [hc] at h
        obtain ⟨_, _, _, _, _, _, hd1⟩ := erase_chunk_inv hc
        exact ih d1 _ _ d' (by rw [hd1]; rfl) h
    · cases h; exact hd

theorem lazy_allocate_blocks_some {d d0 : ExhaustibleBlockDevice} {addr size : Nat}
    (hd : d._blocks.isSome = true) (h : d._lazy_allocate addr size = .ok d0) :
    d0._blocks.isSome = true := by
  obtain ⟨blocks, hb⟩ := Option.isSome_iff_exists.mp hd
  unfold _lazy_allocate at h
  simp only [hb] at h
  split at h
  · cases h
  · cases h; rfl

/-- A call that returns leaves the slot array in place, and only `init` creates it. -/
theorem step_blocks_some {d : ExhaustibleBlockDevice} {c : Call}
    {r : Option Int × ExhaustibleBlockDevice} (h : step d c = .ok r) :
    r.2._blocks.isSome = true ↔ (d._blocks.isSome = true ∨ c = Call.init) := by
  cases c with
  | set_program_cycles cycles =>
    simp only [step, set_program_cycles] at h
    cases hs : d._blocks.isSome <;> simp [hs] at h
    subst h; simp [hs]
  | set_erase_cycles cycles =>
    simp only [step, set_erase_cycles] at h
    cases hs : d._blocks.isSome <;> simp [hs] at h
    subst h; simp [hs]
  | init =>
    simp only [step, Except.ok.injEq] at h
    subst h
    simp only [init]
    cases hs : d._blocks.isSome <;> simp [hs]
  | deinit =>
    simp only [step, deinit] at h
    cases hs : d._blocks.isSome <;> simp [hs] at h
    subst h; simp [hs]
  | read addr size =>
    simp only [step] at h
    cases hr : d.read addr size with
    | error e => simp [hr] at h
    | ok out =>
      simp only [hr, Except.ok.injEq] at h
      subst h; simp
  | program buffer addr size =>
    simp only [step] at h
    cases hr : d.program buffer addr size with
    | error e => simp [hr] at h
    | ok out =>
      simp only [hr, Except.ok.injEq] at h
      subst h
      have hpre := (program_ok_pre hr).1
      simp only [hpre, true_or, iff_true]
      unfold program at hr
      simp only [hpre, (program_ok_pre hr).2, Bool.not_true, Bool.false_eq_true, if_false] at hr
      cases hl : d._lazy_allocate addr size with
      | error e => simp [hl] at hr
      | ok d0 =>
        simp only [hl] at hr
        cases hp : program_loop size d0 buffer addr size with
        | error e => simp [hp] at hr
        | ok d1 =>
          simp only [hp, Except.ok.injEq] at hr
          subst hr
          exact program_loop_blocks_some _ _ _ _ _ _ (lazy_allocate_blocks_some hpre hl) hp
  | erase addr size =>
    simp only [step] at h
    cases hr : d.erase addr size with
    | error e => simp [hr] at h
    | ok out =>
      simp only [hr, Except.ok.injEq] at h
      subst h
      have hpre := (erase_ok_pre hr).1
      simp only [hpre, true_or, iff_true]
      unfold erase at hr
      simp only [hpre, (erase_ok_pre hr).2, Bool.not_true, Bool.false_eq_true, if_false] at hr
      cases hl : d._lazy_allocate addr size with
      | error e => simp [hl] at hr
      | ok d0 =>
        simp only [hl] at hr
        cases hp : erase_loop size d0 addr size with
        | error e => simp [hp] at hr
        | ok d1 =>
          simp only [hp, Except.ok.injEq] at hr
          subst hr
          exact erase_loop_blocks_some _ _ _ _ _ (lazy_allocate_blocks_some hpre hl) hp

theorem run_cons_ok {d : ExhaustibleBlockDevice} {c : Call} {cs : List Call}
    {r : List (Option Int) × ExhaustibleBlockDevice} (h : run d (c :: cs) = .ok r) :
    ∃ r1 rs, step d c = .ok r1 ∧ run r1.2 cs = .ok rs ∧ r = (r1.1 :: rs.1, rs.2) := by
  simp only [run] at h
  cases h1 : step d c with
  | error e => simp [h1] at h
  | ok r1 =>
    simp only [h1] at h
    cases h2 : run r1.2 cs with
    | error e => simp [h2] at h
    | ok rs =>
      simp only [h2, Except.ok.injEq] at h
      exact ⟨r1, rs, rfl, h2, h.symm⟩

/-- After a run of calls the slot array exists exactly when it existed before or
`init` is among the calls. -/
theorem run_blocks_some :
    ∀ (calls : List Call) (d : ExhaustibleBlockDevice)
      (r : List (Option Int) × ExhaustibleBlockDevice),
      run d calls = .ok r →
      (r.2._blocks.isSome = true ↔ (d._blocks.isSome = true ∨ Call.init ∈ calls)) := by
  intro calls
  induction calls with
  | nil =>
    intro d r h
    simp only [run, Except.ok.injEq] at h
    subst h; simp
  | cons c cs ih =>
    intro d r h
    obtain ⟨r1, rs, h1, h2, hr⟩ := run_cons_ok h
    subst hr
    rw [ih r1.2 rs h2, step_blocks_some h1]
    simp only [List.mem_cons]
    constructor
    · rintro ((h | h) | h)
      · exact Or.inl h
      · exact Or.inr (Or.inl h.symm)
      · exact Or.inr (Or.inr h)
    · rintro (h | h | h)
      · exact Or.inl (Or.inl h)
      · exact Or.inl (Or.inr h.symm)
      · exact Or.inr h

/-- C7. On a device after `init`, every sequence of `deinit()` and `init()` calls
returns 0 at each call and ends in the very same device: stored bytes, buffer
allocations, program and erase counters and both limits are as before, so every read
afterwards returns what it returned before. -/
theorem power_cycle_preserves (d : ExhaustibleBlockDevice) (calls : List Call)
    (hinit : d._blocks.isSome = true)
    (hcalls : ∀ c ∈ calls, c = Call.init ∨ c = Call.deinit) :
    run d calls = .ok (List.replicate calls.length (some 0), d) ∧
    ∀ r, run d calls = .ok r → ∀ addr size, r.2.read addr size = d.read addr size := by
  have key : run d calls = .ok (List.replicate calls.length (some 0), d) := by
    induction calls with
    | nil => rfl
    | cons c cs ih =>
      have ih' := ih (fun c hc => hcalls c (List.mem_cons_of_mem _ hc))
      rcases hcalls c (List.mem_cons_self _ _) with hc | hc
      · subst hc
        simp [run, step, init, hinit, ih', BD_ERROR_OK, List.replicate_succ]
      · subst hc
        simp [run, step, deinit, hinit, ih', BD_ERROR_OK, List.replicate_succ]
  refine ⟨key, ?_⟩
  intro r hr addr size
  rw [key] at hr
  cases hr
  rfl

/-- The witness of `power_cycle_preserves`: two power cycles of a device. -/
theorem power_cycle_preserves_witness :
    run worn_program_unit [.deinit, .init, .deinit, .init]
      = .ok ([some 0, some 0, some 0, some 0], worn_program_unit) :=
  (power_cycle_preserves worn_program_unit [.deinit, .init, .deinit, .init]
    (by decide) (by decide)).1

/-- C8. On a device obtained from the constructor by any run of calls,
`set_program_cycles(n)` and `set_erase_cycles(n)` stop at their assertion exactly when
`init` is among the calls made so far (a later `deinit` does not matter); when `init`
was not called yet they return the device with the named limit set to `n` and every
other member as it was. -/
theorem set_cycles_fatal_iff (S read program erase : Nat) (d0 : ExhaustibleBlockDevice)
    (calls : List Call) (r : List (Option Int) × ExhaustibleBlockDevice) (n : Nat)
    (h0 : construct S read program erase = .ok d0) (hrun : run d0 calls = .ok r) :
    (r.2.set_program_cycles n = .error .assertion ↔ Call.init ∈ calls) ∧
    (r.2.set_erase_cycles n = .error .assertion ↔ Call.init ∈ calls) ∧
    (Call.init ∉ calls →
      r.2.set_program_cycles n = .ok { r.2 with _program_life := n } ∧
      r.2.set_erase_cycles n = .ok { r.2 with _erase_life := n }) := by
  have hd0 : d0._blocks.isSome = false := by
    unfold construct at h0
    split at h0
    · cases h0
    · simp only at h0
      split at h0
      · cases h0
      · split at h0
        · cases h0
        · cases h0; rfl
  have hiff := run_blocks_some calls d0 r hrun
  simp only [hd0, Bool.false_eq_true, false_or] at hiff
  by_cases hc : Call.init ∈ calls
  · have hs : r.2._blocks.isSome = true := hiff.mpr hc
    simp [set_program_cycles, set_erase_cycles, hs, hc]
  · have hs : r.2._blocks.isSome = false := by
      cases hs : r.2._blocks.isSome
      · rfl
      · exact absurd (hiff.mp hs) hc
    simp [set_program_cycles, set_erase_cycles, hs, hc]

/-- The witness of `set_cycles_fatal_iff`: a limit set once before `init`, then a
power cycle. -/
theorem set_cycles_fatal_iff_witness :
    worn_erase_unit.set_program_cycles 5 = .error .assertion ↔
      Call.init ∈ [Call.set_erase_cycles 1, .init, .erase 0 4, .erase 0 4] :=
  (set_cycles_fatal_iff 8 1 2 4 constructed_small
    [.set_erase_cycles 1, .init, .erase 0 4, .erase 0 4]
    ([none, some 0, some 0, some 0], worn_erase_unit) 5 (by decide) (by decide)).1

end ExhaustibleBlockDevice

/-! ## `read` -/

namespace ExhaustibleBlockDevice

/-- When every pass of the `read` loop returns a chunk of `R` bytes, the loop
finishes with `n * R` bytes. -/
theorem read_loop_ok (d : ExhaustibleBlockDevice) (hR : 0 < d._read_size) :
    ∀ (n addr fuel : Nat), n ≤ fuel →
      (∀ i, i < n → ∃ chunk, read_chunk d (addr + i * d._read_size) = .ok chunk ∧
        chunk.length = d._read_size) →
      ∃ out, read_loop d fuel addr (n * d._read_size) = .ok out ∧
        out.length = n * d._read_size := by
  intro n
  induction n with
  | zero =>
    intro addr fuel _ _
    exact ⟨[], by rw [Nat.zero_mul, read_loop_zero], by simp⟩
  | succ n ih =>
    intro addr fuel hfuel hch
    have hpos : (n + 1) * d._read_size > 0 := Nat.mul_pos (Nat.succ_pos n) hR
    cases fuel with
    | zero => omega
    | succ fuel =>
      obtain ⟨chunk, hc, hcl⟩ := hch 0 (Nat.succ_pos n)
      simp only [Nat.zero_mul, Nat.add_zero] at hc
      have hsz : (n + 1) * d._read_size - d._read_size = n * d._read_size := by
        rw [Nat.succ_mul]; omega
      obtain ⟨rest, hr, hrl⟩ := ih (addr + d._read_size) fuel (by omega) (by
        intro i hi
        have := hch (i + 1) (Nat.succ_lt_succ hi)
        rw [Nat.succ_mul] at this
        have he : addr + (i * d._read_size + d._read_size)
            = addr + d._read_size + i * d._read_size := by omega
        rw [he] at this; exact this)
      refine ⟨chunk ++ rest, ?_, ?_⟩
      · simp only [read_loop, hpos, if_true, hc, hsz, hr]
      · rw [List.length_append, hcl, hrl, Nat.succ_mul]; omega

/-- When every pass of the `read` loop returns `R` copies of the byte `c`, the loop
returns `n * R` copies of `c`. -/
theorem read_loop_const (d : ExhaustibleBlockDevice) (hR : 0 < d._read_size) (c : Byte) :
    ∀ (n addr fuel : Nat), n ≤ fuel →
      (∀ i, i < n →
        read_chunk d (addr + i * d._read_size) = .ok (List.replicate d._read_size c)) →
      read_loop d fuel addr (n * d._read_size) = .ok (List.replicate (n * d._read_size) c) := by
  intro n
  induction n with
  | zero =>
    intro addr fuel _ _
    rw [Nat.zero_mul, read_loop_zero]; rfl
  | succ n ih =>
    intro addr fuel hfuel hch
    have hpos : (n + 1) * d._read_size > 0 := Nat.mul_pos (Nat.succ_pos n) hR
    cases fuel with
    | zero => omega
    | succ fuel =>
      have hc := hch 0 (Nat.succ_pos n)
      simp only [Nat.zero_mul, Nat.add_zero] at hc
      have hsz : (n + 1) * d._read_size - d._read_size = n * d._read_size := by
        rw [Nat.succ_mul]; omega
      have hr := ih (addr + d._read_size) fuel (by omega) (by
        intro i hi
        have := hch (i + 1) (Nat.succ_lt_succ hi)
        rw [Nat.succ_mul] at this
        have he : addr + (i * d._read_size + d._read_size)
            = addr + d._read_size + i * d._read_size := by omega
        rw [he] at this; exact this)
      simp only [read_loop, hpos, if_true, hc, hsz, hr]
      rw [← List.replicate_add, Nat.succ_mul, Nat.add_comm]

/-- One pass of the `read` loop in an erase unit without a buffer yields zeros. -/
theorem read_chunk_none {d : ExhaustibleBlockDevice} {blocks : List (Option (List Byte))}
    (hb : d._blocks = some blocks) {a : Nat} (hs : blocks[a / d._erase_size]? = some none) :
    read_chunk d a = .ok (List.replicate d._read_size 0) := by
  simp only [read_chunk, hb, hs]

/-- One pass of the `read` loop in an erase unit with a buffer copies from it. -/
theorem read_chunk_some {d : ExhaustibleBlockDevice} {blocks : List (Option (List Byte))}
    (hb : d._blocks = some blocks) {a : Nat} {block : List Byte}
    (hs : blocks[a / d._erase_size]? = some (some block))
    (hroom : a % d._erase_size + d._read_size ≤ block.length) :
    read_chunk d a = .ok ((block.drop (a % d._erase_size)).take d._read_size) := by
  have : ¬ block.length < a % d._erase_size + d._read_size := by omega
  simp only [read_chunk, hb, hs, memcpy_from, this, if_false]

/-- A `read` with valid arguments on a device after `init` is its loop over
`size / _read_size` chunks. -/
theorem read_eq_loop {d : ExhaustibleBlockDevice} (hinit : d._blocks.isSome = true)
    {addr size : Nat} (hv : d.is_valid_read addr size = true) :
    d.read addr size =
      match read_loop d size addr size with
      | .error e => .error e
      | .ok out => .ok (0, out) := by
  unfold read
  simp only [hinit, hv, Bool.not_true, Bool.false_eq_true, if_false]

end ExhaustibleBlockDevice

/-! ## Return values -/

namespace ExhaustibleBlockDevice

/-- C9 (as amended). On a device after `init`, whatever the counters and the limits:
an `erase` with valid arguments returns 0; a `read` with valid arguments returns 0
(with `size` bytes) when the erase unit is a multiple of the read unit; a `program`
with valid arguments that touches only erase units with a buffer returns 0 when the
erase unit is a multiple of the program unit; and in every geometry a status returned
by one of the three functions is 0. -/
theorem valid_calls_return_zero (d : ExhaustibleBlockDevice) (hwf : WF d)
    (hinit : d._blocks.isSome = true) :
    (∀ addr size, d.is_valid_read addr size = true → d._read_size ∣ d._erase_size →
      ∃ out, d.read addr size = .ok (0, out) ∧ out.length = size) ∧
    (∀ buf addr size, d.is_valid_program addr size = true →
      d._program_size ∣ d._erase_size → size ≤ buf.length →
      (∀ a, addr ≤ a → a < addr + size → d.allocated (a / d._erase_size) = true) →
      ∃ d', d.program buf addr size = .ok (0, d')) ∧
    (∀ addr size, d.is_valid_erase addr size = true →
      ∃ d', d.erase addr size = .ok (0, d')) ∧
    (∀ addr size r, d.read addr size = .ok r → r.1 = 0) ∧
    (∀ buf addr size r, d.program buf addr size = .ok r → r.1 = 0) ∧
    (∀ addr size r, d.erase addr size = .ok r → r.1 = 0) := by
  have hR : 0 < d._read_size := hwf.1
  have hP : 0 < d._program_size := hwf.2.1
  have hE : 0 < d._erase_size := hwf.2.2.1
  obtain ⟨blocks, hb⟩ := Option.isSome_iff_exists.mp hinit
  have hbl := hwf.blocks_length hb
  refine ⟨?_, ?_, ?_, ?_, ?_, ?_⟩
  · -- read
    intro addr size hv hdvd
    obtain ⟨hv1, hv2, hv3⟩ := (is_valid_read_iff d addr size).mp hv
    obtain ⟨n, hn⟩ : ∃ n, size = n * d._read_size :=
      ⟨size / d._read_size, (Nat.div_mul_cancel (Nat.dvd_of_mod_eq_zero hv2)).symm⟩
    have hchunks : ∀ i, i < n →
        ∃ chunk, read_chunk d (addr + i * d._read_size) = .ok chunk ∧
          chunk.length = d._read_size := by
      intro i hi
      have hin : addr + i * d._read_size + d._read_size ≤ addr + n * d._read_size := by
        have : (i + 1) * d._read_size ≤ n * d._read_size := Nat.mul_le_mul_right _ (by omega)
        rw [Nat.succ_mul] at this
        omega
      have ha : addr + i * d._read_size < d._erase_count * d._erase_size := by omega
      have hhi : (addr + i * d._read_size) / d._erase_size < blocks.length := by
        rw [hbl]; exact (hwf.erase_index ha).1
      have hal : (addr + i * d._read_size) % d._read_size = 0 := by
        rw [Nat.add_mul_mod_self_right]; exact hv1
      cases hs : blocks[(addr + i * d._read_size) / d._erase_size]? with
      | none => rw [List.getElem?_eq_getElem hhi] at hs; cases hs
      | some slot =>
        cases slot with
        | none => exact ⟨_, read_chunk_none hb hs, by simp⟩
        | some block =>
          have hlen := hwf.block_length hb hs
          have hroom := aligned_room hE hdvd hal
          refine ⟨_, read_chunk_some hb hs (by omega), ?_⟩
          rw [List.length_take, List.length_drop]; omega
    obtain ⟨out, ho, hol⟩ := read_loop_ok d hR n addr size
      (by rw [hn]; exact Nat.le_mul_of_pos_right n hR) hchunks
    rw [← hn] at ho hol
    exact ⟨out, by rw [read_eq_loop hinit hv, ho], hol⟩
  · -- program
    intro buf addr size hv hdvd hbuf halloc
    obtain ⟨hv1, hv2, hv3⟩ := (is_valid_program_iff d addr size).mp hv
    obtain ⟨n, hn⟩ : ∃ n, size = n * d._program_size :=
      ⟨size / d._program_size, (Nat.div_mul_cancel (Nat.dvd_of_mod_eq_zero hv2)).symm⟩
    obtain ⟨blocks0, hla, hwf0, hl0, hc0, hs0⟩ := lazy_allocate_facts hwf hb addr size hv3
    let I : Nat → ExhaustibleBlockDevice → Prop := fun _ d1 =>
      WF d1 ∧ ∃ bs1 arr1, d1 = { d with _blocks := some bs1, _program_array := arr1 } ∧
        ∀ a, addr ≤ a → a < addr + size → ∃ b, bs1[a / d._erase_size]? = some (some b)
    have hI0 : I 0 { d with _blocks := some blocks0 } := by
      refine ⟨hwf0, blocks0, d._program_array, rfl, ?_⟩
      intro a ha1 ha2
      have := halloc a ha1 ha2
      simp only [allocated, hb] at this
      rw [hs0]
      cases hs : blocks[a / d._erase_size]? with
      | none => simp [hs] at this
      | some slot =>
        cases slot with
        | none => simp [hs] at this
        | some b => exact ⟨b, by simp⟩
    have hIP : ∀ i d1, I i d1 → d1._program_size = d._program_size := by
      rintro i d1 ⟨_, bs, arr, rfl, _⟩; rfl
    have hstep : ∀ d1 buf1 i, I i d1 → i < n → d._program_size ≤ buf1.length →
        ∃ d2, program_chunk d1 buf1 (addr + i * d._program_size) = .ok d2 ∧ I (i + 1) d2 := by
      rintro d1 buf1 i ⟨hwf1, bs1, arr1, rfl, hal1⟩ hi hb1
      have hin : addr + i * d._program_size + d._program_size ≤ addr + size := by
        have : (i + 1) * d._program_size ≤ n * d._program_size :=
          Nat.mul_le_mul_right _ (by omega)
        rw [Nat.succ_mul] at this
        omega
      have ha : addr + i * d._program_size < d._erase_count * d._erase_size := by omega
      have hal : (addr + i * d._program_size) % d._program_size = 0 := by
        rw [Nat.add_mul_mod_self_right]; exact hv1
      obtain ⟨b, hbs⟩ := hal1 (addr + i * d._program_size) (by omega) (by omega)
      have hblen : b.length = d._erase_size :=
        hwf1.block_length (d := { d with _blocks := some bs1, _program_array := arr1 }) rfl hbs
      have hroom := aligned_room hE hdvd hal
      have hpi := hwf1.program_index (a := addr + i * d._program_size) ha
      have hei := hwf1.erase_index (a := addr + i * d._program_size) ha
      have hpl : (addr + i * d._program_size) / d._program_size < arr1.length := by
        have := hwf1.2.2.2.2.2.2.1
        simp only at this
        rw [this]; exact hpi.1
      have hel : (addr + i * d._program_size) / d._erase_size < d._erase_array.length := by
        rw [hwf.2.2.2.2.2.2.2.1]; exact hei.1
      obtain ⟨d2, hchunk⟩ : ∃ d2, program_chunk
          { d with _blocks := some bs1, _program_array := arr1 } buf1
          (addr + i * d._program_size) = .ok d2 :=
        ⟨_, program_chunk_eq (d := { d with _blocks := some bs1, _program_array := arr1 })
          (show _ = some bs1 from rfl) buf1 (addr + i * d._program_size) _ _ hpi.2 hei.2 hbs
          (fun _ => ⟨b, rfl, by simp only; omega, hb1⟩) hpl hel⟩
      refine ⟨d2, hchunk, ?_⟩
      obtain ⟨bs, bs2, arr2, hbs', hd2, hwf2, hl2, _, _, g2, _⟩ :=
        program_chunk_facts hwf1 (by simp only; omega) hchunk
      simp only [Option.some.injEq] at hbs'
      subst hbs'
      refine ⟨hwf2, bs2, arr2, hd2, ?_⟩
      intro a ha1 ha2
      obtain ⟨b', hb'⟩ := hal1 a ha1 ha2
      have hlt : a / d._erase_size < bs2.length := by
        rw [hl2]
        by_contra hcon
        rw [List.getElem?_eq_none (by omega)] at hb'
        cases hb'
      cases hs : bs2[a / d._erase_size]? with
      | none => rw [List.getElem?_eq_getElem hlt] at hs; cases hs
      | some slot =>
        cases slot with
        | none =>
          have := (g2 (a / d._erase_size)).mp hs
          rw [hb'] at this; cases this
        | some b2 => exact ⟨b2, rfl⟩
    obtain ⟨d', hloop, _⟩ := program_loop_ok d._program_size hP n I addr hIP hstep size
      { d with _blocks := some blocks0 } buf
      (by rw [hn]; exact Nat.le_mul_of_pos_right n hP) (by rw [← hn]; exact hbuf) hI0
    refine ⟨d', ?_⟩
    rw [← hn] at hloop
    unfold program
    simp only [hb, Option.isSome_some, Bool.not_true, Bool.false_eq_true, if_false, hv, hla,
      hloop]
  · -- erase
    intro addr size hv
    obtain ⟨blocks', array', he, _⟩ := erase_spec hwf hb addr size hv
    exact ⟨_, he⟩
  · intro addr size r h
    unfold read at h
    split at h
    · cases h
    · split at h
      · cases h
      · split at h
        · cases h
        · cases h; rfl
  · intro buf addr size r h
    exact (program_facts hwf hb h).1
  · intro addr size r h
    obtain ⟨blocks', array', he, _⟩ := erase_spec hwf hb addr size (erase_ok_pre h).2
    rw [he] at h
    cases h; rfl

/-- The witness of `valid_calls_return_zero`: a read, a program inside a unit that has
a buffer, and an erase, on a device one of whose erase units is worn. -/
theorem valid_calls_return_zero_witness :
    (∃ out, worn_erase_unit.read 0 4 = .ok (0, out) ∧ out.length = 4) ∧
    (∃ d', worn_erase_unit.program [7, 8] 0 2 = .ok (0, d')) ∧
    (∃ d', worn_erase_unit.erase 0 8 = .ok (0, d')) :=
  ⟨(valid_calls_return_zero worn_erase_unit (by decide) (by decide)).1 0 4
      (by decide) (by decide),
    (valid_calls_return_zero worn_erase_unit (by decide) (by decide)).2.1 [7, 8] 0 2
      (by decide) (by decide) (by decide) (by
        intro a _ h2
        have : a = 0 ∨ a = 1 := by omega
        rcases this with h | h <;> subst h <;> decide),
    (valid_calls_return_zero worn_erase_unit (by decide) (by decide)).2.2.1 0 8
      (by decide)⟩

end ExhaustibleBlockDevice

/-! ## Runs of calls -/

namespace ExhaustibleBlockDevice

/-- What an `erase` call that returned did: the status is 0; only the slots and the
erase counters can differ; an erase unit of the range that is not exhausted reads 0xFF
everywhere, every other byte reads as before. -/
theorem erase_facts {d : ExhaustibleBlockDevice} (hwf : WF d)
    {blocks : List (Option (List Byte))} (hb : d._blocks = some blocks)
    {addr size : Nat} {r : Int × ExhaustibleBlockDevice} (h : d.erase addr size = .ok r) :
    r.1 = 0 ∧
    ∃ blocks' array', r.2 = { d with _blocks := some blocks', _erase_array := array' } ∧
      WF r.2 ∧ blocks'.length = blocks.length ∧ array'.length = d._erase_array.length ∧
      (∀ j : Nat, ¬ (addr / d._erase_size ≤ j ∧ j < (addr + size) / d._erase_size) →
        blocks'[j]? = blocks[j]? ∧ array'[j]? = d._erase_array[j]?) ∧
      (∀ j : Nat, addr / d._erase_size ≤ j → j < (addr + size) / d._erase_size →
        d.erase_exhausted j = false →
        blocks'[j]? = some (some (List.replicate d._erase_size 255))) ∧
      (∀ x, r.2.content x =
        if addr / d._erase_size ≤ x / d._erase_size ∧
            x / d._erase_size < (addr + size) / d._erase_size ∧
            d.erase_exhausted (x / d._erase_size) = false
        then 255 else d.content x) := by
  have hE : 0 < d._erase_size := hwf.2.2.1
  obtain ⟨blocks', array', he, hl, hal, hch⟩ := erase_spec hwf hb addr size (erase_ok_pre h).2
  rw [he] at h
  simp only [Except.ok.injEq] at h
  subst h
  refine ⟨rfl, blocks', array', rfl, ?_, hl, hal, ?_, ?_, ?_⟩
  · refine hwf.update hb blocks' d._program_array array' hl ?_ rfl hal
    intro j block hj
    rw [(hch j).1] at hj
    split at hj
    · split at hj
      · split at hj
        · simp only [Option.some.injEq] at hj; rw [← hj]; simp
        · exact hwf.block_length hb hj
      · simp only [Option.some.injEq] at hj; rw [← hj]; simp
    · exact hwf.block_length hb hj
  · intro j hj
    obtain ⟨h1, h2⟩ := hch j
    rw [if_neg hj] at h1
    rw [if_neg (fun hc => hj ⟨hc.1, hc.2.1⟩)] at h2
    exact ⟨h1, h2⟩
  · intro j hj1 hj2 hx
    rw [(hch j).1, if_pos ⟨hj1, hj2⟩, hx]
    simp
  · intro x
    show content { d with _blocks := some blocks', _erase_array := array' } x = _
    rw [content_of_blocks hb,
      content_of_blocks (d := { d with _blocks := some blocks', _erase_array := array' }) rfl]
    simp only
    rw [(hch (x / d._erase_size)).1]
    by_cases hr : addr / d._erase_size ≤ x / d._erase_size ∧
        x / d._erase_size < (addr + size) / d._erase_size
    · by_cases hx : d.erase_exhausted (x / d._erase_size) = true
      · have hnot : ¬ (addr / d._erase_size ≤ x / d._erase_size ∧
            x / d._erase_size < (addr + size) / d._erase_size ∧
            d.erase_exhausted (x / d._erase_size) = false) := by simp [hx]
        rw [if_pos hr, if_pos hx, if_neg hnot]
        by_cases hn : blocks[x / d._erase_size]? = some none
        · rw [if_pos hn, hn]
          simp only [List.getD_eq_getElem?_getD, List.getElem?_replicate]
          split <;> rfl
        · rw [if_neg hn]
      · have hx' : d.erase_exhausted (x / d._erase_size) = false := by simpa using hx
        rw [if_pos hr, if_neg hx, if_pos ⟨hr.1, hr.2, hx'⟩]
        simp only [List.getD_eq_getElem?_getD, List.getElem?_replicate, Nat.mod_lt x hE,
          if_true]
        rfl
    · rw [if_neg hr, if_neg (fun hc => hr ⟨hc.1, hc.2.1⟩)]

/-- A property kept by every returning call of a given kind holds after every
returning run of such calls. -/
theorem run_inv (I : ExhaustibleBlockDevice → Prop) (A : Call → Prop)
    (hstep : ∀ d c r, I d → A c → step d c = .ok r → I r.2) :
    ∀ (calls : List Call) (d : ExhaustibleBlockDevice)
      (r : List (Option Int) × ExhaustibleBlockDevice),
      (∀ c ∈ calls, A c) → I d → run d calls = .ok r → I r.2 := by
  intro calls
  induction calls with
  | nil =>
    intro d r _ hd h
    simp only [run, Except.ok.injEq] at h
    subst h; exact hd
  | cons c cs ih =>
    intro d r hA hd h
    obtain ⟨r1, rs, h1, h2, hr⟩ := run_cons_ok h
    subst hr
    exact ih r1.2 rs (fun c' hc' => hA c' (List.mem_cons_of_mem _ hc'))
      (hstep d c r1 hd (hA c (List.mem_cons_self _ _)) h1) h2

/-- The representation invariant does not depend on the limits. -/
theorem WF.set_life {d : ExhaustibleBlockDevice} (hwf : WF d) (p e : Nat) :
    WF { d with _program_life := p, _erase_life := e } := hwf

/-- After `init` the representation invariant still holds. -/
theorem WF.init {d : ExhaustibleBlockDevice} (hwf : WF d) : WF d.init.2 := by
  unfold ExhaustibleBlockDevice.init
  cases hs : d._blocks.isSome
  · simp only [Bool.false_eq_true, if_false]
    obtain ⟨h1, h2, h3, h4, h5, h6, h7, h8, _⟩ := hwf
    refine ⟨h1, h2, h3, h4, h5, h6, h7, h8, ?_⟩
    intro bs hbs
    simp only [Option.mem_def, Option.some.injEq] at hbs
    subst hbs
    refine ⟨by simp, ?_⟩
    intro slot hslot block hblock
    rw [List.eq_of_mem_replicate hslot] at hblock
    cases hblock
  · simp only [if_true]; exact hwf

/-- An accepted construction with a positive read unit and unit counts below `2 ^ 32`
yields a device with the representation invariant. -/
theorem WF.construct {S read program erase : Nat} {d0 : ExhaustibleBlockDevice}
    (h0 : construct S read program erase = .ok d0) (hr : 0 < read)
    (hp : S / program < U32) (he : S / erase < U32) :
    WF d0 ∧ d0._blocks = none ∧ d0._erase_size = erase ∧ d0._read_size = read ∧
      d0._program_size = program := by
  unfold ExhaustibleBlockDevice.construct at h0
  split at h0
  · cases h0
  · rename_i hne
    simp only at h0
    split at h0
    · cases h0
    · rename_i h1
      split at h0
      · cases h0
      · rename_i h2
        simp only [Except.ok.injEq] at h0
        subst h0
        simp only [not_or] at hne
        simp only [ne_eq, Decidable.not_not] at h1 h2
        refine ⟨⟨hr, Nat.pos_of_ne_zero hne.1, Nat.pos_of_ne_zero hne.2, ?_, hp, he,
          by simp, by simp, ?_⟩, rfl, rfl, rfl, rfl⟩
        · simp only [h1, h2]
        · intro bs hbs
          cases hbs

/-- Every returning call keeps the representation invariant and the unit sizes. -/
theorem step_wf {d : ExhaustibleBlockDevice} {c : Call}
    {r : Option Int × ExhaustibleBlockDevice} (hwf : WF d) (h : step d c = .ok r) :
    WF r.2 ∧ r.2._erase_size = d._erase_size ∧ r.2._read_size = d._read_size ∧
      r.2._program_size = d._program_size ∧ r.2._erase_count = d._erase_count := by
  cases c with
  | set_program_cycles cycles =>
    simp only [step, set_program_cycles] at h
    cases hs : d._blocks.isSome <;> simp [hs] at h
    subst h
    exact ⟨hwf, rfl, rfl, rfl, rfl⟩
  | set_erase_cycles cycles =>
    simp only [step, set_erase_cycles] at h
    cases hs : d._blocks.isSome <;> simp [hs] at h
    subst h
    exact ⟨hwf, rfl, rfl, rfl, rfl⟩
  | init =>
    simp only [step, Except.ok.injEq] at h
    subst h
    refine ⟨hwf.init, ?_⟩
    simp only [ExhaustibleBlockDevice.init]
    cases hs : d._blocks.isSome <;> simp
  | deinit =>
    simp only [step, deinit] at h
    cases hs : d._blocks.isSome <;> simp [hs] at h
    subst h
    exact ⟨hwf, rfl, rfl, rfl, rfl⟩
  | read addr size =>
    simp only [step] at h
    cases hr : d.read addr size with
    | error e => simp [hr] at h
    | ok out =>
      simp only [hr, Except.ok.injEq] at h
      subst h
      exact ⟨hwf, rfl, rfl, rfl, rfl⟩
  | program buffer addr size =>
    simp only [step] at h
    cases hr : d.program buffer addr size with
    | error e => simp [hr] at h
    | ok out =>
      simp only [hr, Except.ok.injEq] at h
      subst h
      obtain ⟨blocks, hb⟩ := Option.isSome_iff_exists.mp (program_ok_pre hr).1
      obtain ⟨_, bs', arr', hd', hwf', _⟩ := program_facts hwf hb hr
      refine ⟨hwf', ?_⟩
      simp only [hd', and_self]
  | erase addr size =>
    simp only [step] at h
    cases hr : d.erase addr size with
    | error e => simp [hr] at h
    | ok out =>
      simp only [hr, Except.ok.injEq] at h
      subst h
      obtain ⟨blocks, hb⟩ := Option.isSome_iff_exists.mp (erase_ok_pre hr).1
      obtain ⟨_, bs', arr', hd', hwf', _⟩ := erase_facts hwf hb hr
      refine ⟨hwf', ?_⟩
      simp only [hd', and_self]

/-- A call that does not touch erase unit `j` leaves its allocation status as it was,
except that `init` on a device without slot array creates an empty slot. -/
theorem step_untouched {d : ExhaustibleBlockDevice} {c : Call}
    {r : Option Int × ExhaustibleBlockDevice} (hwf : WF d) (h : step d c = .ok r)
    (j : Nat) (ht : Call.touches d._erase_size c j = false)
    (hj : d.allocated j = false) : r.2.allocated j = false := by
  have hE : 0 < d._erase_size := hwf.2.2.1
  cases c with
  | set_program_cycles cycles =>
    simp only [step, set_program_cycles] at h
    cases hs : d._blocks.isSome <;> simp [hs] at h
    subst h; exact hj
  | set_erase_cycles cycles =>
    simp only [step, set_erase_cycles] at h
    cases hs : d._blocks.isSome <;> simp [hs] at h
    subst h; exact hj
  | init =>
    simp only [step, Except.ok.injEq] at h
    subst h
    simp only [ExhaustibleBlockDevice.init]
    cases hs : d._blocks.isSome
    · simp only [Bool.false_eq_true, if_false, allocated, List.getElem?_replicate]
      by_cases hlt : j < d._erase_count <;> simp [hlt]
    · simp only [if_true]; exact hj
  | deinit =>
    simp only [step, deinit] at h
    cases hs : d._blocks.isSome <;> simp [hs] at h
    subst h; exact hj
  | read addr size =>
    simp only [step] at h
    cases hr : d.read addr size with
    | error e => simp [hr] at h
    | ok out =>
      simp only [hr, Except.ok.injEq] at h
      subst h; exact hj
  | program buffer addr size =>
    simp only [step] at h
    cases hr : d.program buffer addr size with
    | error e => simp [hr] at h
    | ok out =>
      simp only [hr, Except.ok.injEq] at h
      subst h
      obtain ⟨blocks, hb⟩ := Option.isSome_iff_exists.mp (program_ok_pre hr).1
      obtain ⟨_, bs', arr', hd', _, _, _, f1, _⟩ := program_facts hwf hb hr
      simp only [Call.touches, decide_eq_false_iff_not] at ht
      have hfr : bs'[j]? = blocks[j]? := by
        refine f1 j ?_
        intro a ha1 ha2 haj
        apply ht
        refine ⟨by omega, ?_, ?_⟩
        · rw [← haj]; exact Nat.div_le_div_right ha1
        · rw [← haj]; exact Nat.div_le_div_right (by omega)
      simp only [allocated, hb] at hj
      simp only [hd', allocated, hfr]
      exact hj
  | erase addr size =>
    simp only [step] at h
    cases hr : d.erase addr size with
    | error e => simp [hr] at h
    | ok out =>
      simp only [hr, Except.ok.injEq] at h
      subst h
      obtain ⟨blocks, hb⟩ := Option.isSome_iff_exists.mp (erase_ok_pre hr).1
      obtain ⟨_, bs', arr', hd', _, _, _, f1, _⟩ := erase_facts hwf hb hr
      simp only [Call.touches, decide_eq_false_iff_not] at ht
      have hfr : bs'[j]? = blocks[j]? := by
        refine (f1 j ?_).1
        rintro ⟨h1, h2⟩
        obtain ⟨a, ha1, ha2, ha3⟩ := unit_in_range hE h1 h2
        apply ht
        refine ⟨by omega, h1, ?_⟩
        rw [← ha3]; exact Nat.div_le_div_right (by omega)
      simp only [allocated, hb] at hj
      simp only [hd', allocated, hfr]
      exact hj

end ExhaustibleBlockDevice

/-! ## Fill patterns -/

namespace ExhaustibleBlockDevice

/-- C6. (1) On a device obtained from the constructor by any run of calls, `init`
among them, a valid read of a range whose erase units were touched by no `program`
and no `erase` of the run returns 0x00 bytes only.  (2) Right after a valid `erase`,
a valid read of a range inside an erase unit of the erased range whose erase counter
did not exceed the limit returns 0xFF bytes only. -/
theorem read_fill_patterns :
    (∀ (S read program erase : Nat) (d0 : ExhaustibleBlockDevice) (calls : List Call)
      (r : List (Option Int) × ExhaustibleBlockDevice) (addr size : Nat),
      construct S read program erase = .ok d0 → 0 < read →
      S / program < U32 → S / erase < U32 →
      run d0 calls = .ok r → r.2._blocks.isSome = true →
      r.2.is_valid_read addr size = true →
      (∀ c ∈ calls, ∀ a, addr ≤ a → a < addr + size →
        Call.touches erase c (a / erase) = false) →
      r.2.read addr size = .ok (0, List.replicate size 0)) ∧
    (∀ (d : ExhaustibleBlockDevice) (addr size : Nat) (r : Int × ExhaustibleBlockDevice)
      (i raddr rsize : Nat),
      WF d → d.erase addr size = .ok r →
      addr / d._erase_size ≤ i → i < (addr + size) / d._erase_size →
      d.erase_exhausted i = false →
      r.2.is_valid_read raddr rsize = true →
      i * d._erase_size ≤ raddr → raddr + rsize ≤ (i + 1) * d._erase_size →
      r.2.read raddr rsize = .ok (0, List.replicate rsize 255)) := by
  constructor
  · intro S read program erase d0 calls r addr size h0 hread hp he hrun hinit hv hunt
    obtain ⟨hwf0, hb0, hE0, hR0, _⟩ := WF.construct h0 hread hp he
    -- along the run: the invariant, the erase unit size, no buffer in the range
    let I : ExhaustibleBlockDevice → Prop := fun d =>
      WF d ∧ d._erase_size = erase ∧
        ∀ a, addr ≤ a → a < addr + size → d.allocated (a / erase) = false
    have hI0 : I d0 := ⟨hwf0, hE0, fun a _ _ => by simp only [allocated, hb0]⟩
    have hI : I r.2 := by
      refine run_inv I
        (fun c => ∀ a, addr ≤ a → a < addr + size → Call.touches erase c (a / erase) = false)
        ?_ calls d0 r hunt hI0 hrun
      rintro d c r1 ⟨hwf, hE, hal⟩ hc hs
      obtain ⟨hwf1, hE1, _⟩ := step_wf hwf hs
      refine ⟨hwf1, by rw [hE1, hE], ?_⟩
      intro a ha1 ha2
      exact step_untouched hwf hs (a / erase) (by rw [hE]; exact hc a ha1 ha2) (hal a ha1 ha2)
    obtain ⟨hwf, hE, hal⟩ := hI
    have hR : 0 < r.2._read_size := hwf.1
    obtain ⟨blocks, hb⟩ := Option.isSome_iff_exists.mp hinit
    obtain ⟨hv1, hv2, hv3⟩ := (is_valid_read_iff r.2 addr size).mp hv
    obtain ⟨n, hn⟩ : ∃ n, size = n * r.2._read_size :=
      ⟨size / r.2._read_size, (Nat.div_mul_cancel (Nat.dvd_of_mod_eq_zero hv2)).symm⟩
    have hloop := read_loop_const r.2 hR 0 n addr size
      (by rw [hn]; exact Nat.le_mul_of_pos_right n hR) (by
        intro i hi
        have hin : addr + i * r.2._read_size + r.2._read_size ≤ addr + n * r.2._read_size := by
          have : (i + 1) * r.2._read_size ≤ n * r.2._read_size :=
            Nat.mul_le_mul_right _ (by omega)
          rw [Nat.succ_mul] at this
          omega
        have ha : addr + i * r.2._read_size < r.2._erase_count * r.2._erase_size := by omega
        have hhi : (addr + i * r.2._read_size) / r.2._erase_size < blocks.length := by
          rw [hwf.blocks_length hb]; exact (hwf.erase_index ha).1
        have hna := hal (addr + i * r.2._read_size) (by omega) (by omega)
        rw [← hE] at hna
        simp only [allocated, hb] at hna
        cases hs : blocks[(addr + i * r.2._read_size) / r.2._erase_size]? with
        | none => rw [List.getElem?_eq_getElem hhi] at hs; cases hs
        | some slot =>
          cases slot with
          | none => exact read_chunk_none hb hs
          | some block => simp [hs] at hna)
    rw [read_eq_loop hinit hv]
    rw [← hn] at hloop
    rw [hloop]
  · intro d addr size r i raddr rsize hwf he hi1 hi2 hx hv hr1 hr2
    have hE : 0 < d._erase_size := hwf.2.2.1
    obtain ⟨blocks, hb⟩ := Option.isSome_iff_exists.mp (erase_ok_pre he).1
    obtain ⟨_, bs', arr', hd', hwf', _, _, _, f2, _⟩ := erase_facts hwf hb he
    have hones := f2 i hi1 hi2 hx
    have hb' : r.2._blocks = some bs' := by rw [hd']
    have hE' : r.2._erase_size = d._erase_size := by rw [hd']
    have hinit' : r.2._blocks.isSome = true := by rw [hb']; rfl
    have hR : 0 < r.2._read_size := hwf'.1
    obtain ⟨hv1, hv2, hv3⟩ := (is_valid_read_iff r.2 raddr rsize).mp hv
    obtain ⟨n, hn⟩ : ∃ n, rsize = n * r.2._read_size :=
      ⟨rsize / r.2._read_size, (Nat.div_mul_cancel (Nat.dvd_of_mod_eq_zero hv2)).symm⟩
    have hloop := read_loop_const r.2 hR 255 n raddr rsize
      (by rw [hn]; exact Nat.le_mul_of_pos_right n hR) (by
        intro k hk
        have hin : raddr + k * r.2._read_size + r.2._read_size
            ≤ raddr + n * r.2._read_size := by
          have : (k + 1) * r.2._read_size ≤ n * r.2._read_size :=
            Nat.mul_le_mul_right _ (by omega)
          rw [Nat.succ_mul] at this
          omega
        rw [Nat.add_mul, Nat.one_mul] at hr2
        have hdiv : (raddr + k * r.2._read_size) / r.2._erase_size = i := by
          rw [hE']
          have h1 : i ≤ (raddr + k * r.2._read_size) / d._erase_size :=
            (Nat.le_div_iff_mul_le hE).mpr (by omega)
          have h2 : (raddr + k * r.2._read_size) / d._erase_size < i + 1 :=
            (Nat.div_lt_iff_lt_mul hE).mpr (by rw [Nat.add_mul, Nat.one_mul]; omega)
          omega
        have hdm := Nat.div_add_mod (raddr + k * r.2._read_size) r.2._erase_size
        rw [hdiv, hE', Nat.mul_comm] at hdm
        have hroom : (raddr + k * r.2._read_size) % r.2._erase_size + r.2._read_size
            ≤ d._erase_size := by rw [hE']; omega
        rw [read_chunk_some hb' (by rw [hdiv]; exact hones) (by simpa using hroom)]
        rw [List.drop_replicate, List.take_replicate]
        congr 2
        rw [hE'] at hroom ⊢
        omega)
    rw [read_eq_loop hinit' hv]
    rw [← hn] at hloop
    rw [hloop]

/-- The witness of `read_fill_patterns`: after an erase of the first erase unit the
second unit, never touched, reads zeros, and the first reads 0xFF. -/
theorem read_fill_patterns_witness :
    erased_first_unit.read 4 4 = .ok (0, List.replicate 4 0) ∧
      erased_first_unit.read 0 4 = .ok (0, List.replicate 4 255) :=
  ⟨read_fill_patterns.1 8 1 2 4 constructed_small [.init, .erase 0 4]
      ([some 0, some 0], erased_first_unit) 4 4
      (by decide) (by decide) (by decide) (by decide) (by decide) (by decide) (by decide)
      (by
        intro c hc a ha1 ha2
        have ha : a / 4 = 1 := by omega
        rw [ha]
        simp only [List.mem_cons, List.mem_singleton, List.not_mem_nil, or_false] at hc
        rcases hc with h | h <;> subst h <;> decide),
    read_fill_patterns.2 fresh_small 0 4 (0, erased_first_unit) 0 0 4
      (by decide) (by decide) (by decide) (by decide) (by decide) (by decide)
      (by decide) (by decide)⟩

end ExhaustibleBlockDevice

/-! ## A program unit beyond its program limit -/

namespace ExhaustibleBlockDevice

/-- C5 (as amended). On a device after `init` with a finite program limit, once the
program counter of a program unit exceeds the limit, every run of calls other than
`erase` (reads, programs of any range and bytes, `deinit`, `init`) leaves the stored
bytes of that unit and its program counter as they were, so the unit stays worn and
reads of it keep returning the same content.  An `erase` is not blocked by the program
counter: it leaves the program counters as they were, and the bytes of the unit read
0xFF after it when the containing erase unit lies in the erased range and its erase
counter does not exceed the erase limit; otherwise they read as before. -/
theorem program_worn_unit_frozen (d : ExhaustibleBlockDevice) (u : Nat) (hwf : WF d)
    (hinit : d._blocks.isSome = true) (hlife : d._program_life ≠ 0)
    (hworn : d._program_life < d._program_array.getD u 0) :
    (∀ (calls : List Call) (r : List (Option Int) × ExhaustibleBlockDevice),
      (∀ c ∈ calls, ∀ addr size, c ≠ Call.erase addr size) → run d calls = .ok r →
      (∀ x, x / d._program_size = u → r.2.content x = d.content x) ∧
      r.2._program_array.getD u 0 = d._program_array.getD u 0 ∧
      r.2._program_life = d._program_life) ∧
    (∀ (addr size : Nat) (r : Int × ExhaustibleBlockDevice), d.erase addr size = .ok r →
      r.2._program_array = d._program_array ∧ r.2._program_life = d._program_life ∧
      ∀ x, x / d._program_size = u →
        r.2.content x =
          if addr / d._erase_size ≤ x / d._erase_size ∧
              x / d._erase_size < (addr + size) / d._erase_size ∧
              d.erase_exhausted (x / d._erase_size) = false
          then 255 else d.content x) := by
  constructor
  · intro calls r hne hrun
    let I : ExhaustibleBlockDevice → Prop := fun d1 =>
      WF d1 ∧ d1._blocks.isSome = true ∧ d1._program_size = d._program_size ∧
        d1._program_life = d._program_life ∧
        d1._program_array[u]? = d._program_array[u]? ∧
        ∀ x, x / d._program_size = u → d1.content x = d.content x
    have hI0 : I d := ⟨hwf, hinit, rfl, rfl, rfl, fun _ _ => rfl⟩
    have hI : I r.2 := by
      refine run_inv I (fun c => ∀ addr size, c ≠ Call.erase addr size) ?_ calls d r hne hI0 hrun
      rintro d1 c r1 ⟨hwf1, hs1, hP1, hL1, ha1, hc1⟩ hc hs
      cases c with
      | set_program_cycles cycles =>
        simp [step, set_program_cycles, hs1] at hs
      | set_erase_cycles cycles =>
        simp [step, set_erase_cycles, hs1] at hs
      | init =>
        simp only [step, ExhaustibleBlockDevice.init, hs1, if_true, Except.ok.injEq] at hs
        subst hs
        exact ⟨hwf1, hs1, hP1, hL1, ha1, hc1⟩
      | deinit =>
        simp only [step, deinit, hs1, if_true, Except.ok.injEq] at hs
        subst hs
        exact ⟨hwf1, hs1, hP1, hL1, ha1, hc1⟩
      | read addr size =>
        simp only [step] at hs
        cases hr : d1.read addr size with
        | error e => simp [hr] at hs
        | ok out =>
          simp only [hr, Except.ok.injEq] at hs
          subst hs
          exact ⟨hwf1, hs1, hP1, hL1, ha1, hc1⟩
      | program buffer addr size =>
        simp only [step] at hs
        cases hr : d1.program buffer addr size with
        | error e => simp [hr] at hs
        | ok out =>
          simp only [hr, Except.ok.injEq] at hs
          subst hs
          obtain ⟨blocks, hb⟩ := Option.isSome_iff_exists.mp hs1
          obtain ⟨_, bs', arr', hd', hwf', _, _, _, _, _, f4, _⟩ := program_facts hwf1 hb hr
          have hex : d1.prog_exhausted u = true := by
            simp only [prog_exhausted, List.getD_eq_getElem?_getD, ha1, hL1]
            simp only [List.getD_eq_getElem?_getD] at hworn
            simp [hlife, hworn]
          obtain ⟨g1, g2⟩ := f4 u hex
          refine ⟨hwf', by rw [hd']; rfl, by rw [hd']; exact hP1, by rw [hd']; exact hL1, ?_, ?_⟩
          · rw [hd']; simp only; rw [g1, ha1]
          · intro x hx
            rw [g2 x (by rw [hP1]; exact hx)]
            exact hc1 x hx
      | erase addr size => exact absurd rfl (hc addr size)
    obtain ⟨_, _, _, hL, ha, hc⟩ := hI
    exact ⟨hc, by simp only [List.getD_eq_getElem?_getD, ha], hL⟩
  · intro addr size r he
    obtain ⟨blocks, hb⟩ := Option.isSome_iff_exists.mp hinit
    obtain ⟨_, bs', arr', hd', _, _, _, _, _, f3⟩ := erase_facts hwf hb he
    refine ⟨by rw [hd'], by rw [hd'], fun x _ => f3 x⟩

/-- The witness of `program_worn_unit_frozen`: a program over the worn unit and its
neighbour changes the neighbour only. -/
theorem program_worn_unit_frozen_witness :
    (∀ x, x / worn_program_unit._program_size = 0 →
      worn_program_unit_next.content x = worn_program_unit.content x) ∧
    worn_program_unit_next._program_array.getD 0 0 = worn_program_unit._program_array.getD 0 0 ∧
    worn_program_unit_next._program_life = worn_program_unit._program_life :=
  (program_worn_unit_frozen worn_program_unit 0 (by decide) (by decide) (by decide)
    (by decide)).1 [.program [7, 7, 7, 7] 0 4] ([some 0], worn_program_unit_next)
    (by
      intro c hc addr size
      simp only [List.mem_singleton] at hc
      subst hc
      exact fun h => by cases h)
    (by decide)

end ExhaustibleBlockDevice

/-! ## The whole of `program` on units that have a buffer -/

namespace ExhaustibleBlockDevice

/-- When pass `i` of the `program` loop, run on the caller's bytes from position
`i * P` on, succeeds on a device with the property `I i` and establishes `I (i + 1)`,
the loop finishes and `I n` holds. -/
theorem program_loop_ok_buf (P : Nat) (hP : 0 < P) :
    ∀ (n : Nat) (I : Nat → ExhaustibleBlockDevice → Prop) (addr : Nat) (buf : List Byte),
      (∀ i d, I i d → d._program_size = P) →
      (∀ d i, I i d → i < n →
        ∃ d1, program_chunk d (buf.drop (i * P)) (addr + i * P) = .ok d1 ∧ I (i + 1) d1) →
      ∀ (fuel : Nat) (d : ExhaustibleBlockDevice),
        n ≤ fuel → I 0 d →
        ∃ d', program_loop fuel d buf addr (n * P) = .ok d' ∧ I n d' := by
  intro n
  induction n with
  | zero =>
    intro I addr buf _ _ fuel d _ hd
    exact ⟨d, by rw [Nat.zero_mul, program_loop_zero], hd⟩
  | succ n ih =>
    intro I addr buf hI hstep fuel d hfuel hd
    have hpos : (n + 1) * P > 0 := Nat.mul_pos (Nat.succ_pos n) hP
    have hPn : (n + 1) * P = n * P + P := Nat.succ_mul n P
    cases fuel with
    | zero => omega
    | succ fuel =>
      obtain ⟨d1, hc, hd1⟩ := hstep d 0 hd (Nat.succ_pos n)
      simp only [Nat.zero_mul, Nat.add_zero, List.drop_zero] at hc
      have hsz : (n + 1) * P - d._program_size = n * P := by
        rw [hI 0 d hd]; omega
      have hstep1 : ∀ d2 i, I (i + 1) d2 → i < n →
          ∃ d3, program_chunk d2 ((buf.drop P).drop (i * P)) (addr + P + i * P) = .ok d3 ∧
            I (i + 1 + 1) d3 := by
        intro d2 i h2 hi
        have := hstep d2 (i + 1) h2 (Nat.succ_lt_succ hi)
        rw [Nat.succ_mul] at this
        have he : addr + (i * P + P) = addr + P + i * P := by omega
        rw [he] at this
        rw [List.drop_drop]
        have he2 : P + i * P = i * P + P := by omega
        rw [he2]; exact this
      obtain ⟨d', hl, hd'⟩ := ih (fun i => I (i + 1)) (addr + P) (buf.drop P)
        (fun i d2 h2 => hI (i + 1) d2 h2) hstep1 fuel d1 (by omega) hd1
      refine ⟨d', ?_, hd'⟩
      simp only [program_loop, hpos, if_true, hc]
      rw [hsz, hI 0 d hd]; exact hl

end ExhaustibleBlockDevice

namespace ExhaustibleBlockDevice

/-- The whole of `program` on a valid range whose erase units all have a buffer, for
an erase unit that is a multiple of the program unit: it returns 0; a byte of the
range is replaced by the caller's byte unless the program counter of its program unit
or the erase counter of its erase unit exceeds the limit; the program counter of every
program unit of the range whose counter does not exceed the program limit is
incremented; nothing else changes. -/
theorem program_spec {d : ExhaustibleBlockDevice} (hwf : WF d)
    {blocks : List (Option (List Byte))} (hb : d._blocks = some blocks)
    (buf : List Byte) (addr size : Nat) (hv : d.is_valid_program addr size = true)
    (hdvd : d._program_size ∣ d._erase_size) (hbuf : size ≤ buf.length)
    (halloc : ∀ a, addr ≤ a → a < addr + size → d.allocated (a / d._erase_size) = true) :
    ∃ blocks' array', d.program buf addr size =
        .ok (0, { d with _blocks := some blocks', _program_array := array' }) ∧
      WF { d with _blocks := some blocks', _program_array := array' } ∧
      (∀ x, content { d with _blocks := some blocks', _program_array := array' } x =
        if addr ≤ x ∧ x < addr + size ∧
            (d.prog_exhausted (x / d._program_size) ||
              d.erase_exhausted (x / d._erase_size)) = false
        then buf.getD (x - addr) 0 else d.content x) ∧
      (∀ u : Nat, array'[u]? =
        if addr / d._program_size ≤ u ∧ u < (addr + size) / d._program_size ∧
            d.prog_exhausted u = false
        then some ((d._program_array.getD u 0 + 1) % U32) else d._program_array[u]?) := by
  have hP : 0 < d._program_size := hwf.2.1
  have hE : 0 < d._erase_size := hwf.2.2.1
  obtain ⟨hv1, hv2, hv3⟩ := (is_valid_program_iff d addr size).mp hv
  obtain ⟨n, hn⟩ : ∃ n, size = n * d._program_size :=
    ⟨size / d._program_size, (Nat.div_mul_cancel (Nat.dvd_of_mod_eq_zero hv2)).symm⟩
  obtain ⟨blocks0, hla, hwf0, hl0, hc0, hs0⟩ := lazy_allocate_facts hwf hb addr size hv3
  let I : Nat → ExhaustibleBlockDevice → Prop := fun i d1 =>
    WF d1 ∧ ∃ bs1 arr1, d1 = { d with _blocks := some bs1, _program_array := arr1 } ∧
      (∀ a, addr ≤ a → a < addr + size → ∃ b, bs1[a / d._erase_size]? = some (some b)) ∧
      (∀ x, d1.content x =
        if addr ≤ x ∧ x < addr + i * d._program_size ∧
            (d.prog_exhausted (x / d._program_size) ||
              d.erase_exhausted (x / d._erase_size)) = false
        then buf.getD (x - addr) 0 else d.content x) ∧
      (∀ u : Nat, arr1[u]? =
        if addr / d._program_size ≤ u ∧ u < addr / d._program_size + i ∧
            d.prog_exhausted u = false
        then some ((d._program_array.getD u 0 + 1) % U32) else d._program_array[u]?)
  have hI0 : I 0 { d with _blocks := some blocks0 } := by
    refine ⟨hwf0, blocks0, d._program_array, rfl, ?_, ?_, ?_⟩
    · intro a ha1 ha2
      have := halloc a ha1 ha2
      simp only [allocated, hb] at this
      rw [hs0]
      cases hs : blocks[a / d._erase_size]? with
      | none => simp [hs] at this
      | some slot =>
        cases slot with
        | none => simp [hs] at this
        | some b => exact ⟨b, by simp⟩
    · intro x
      rw [hc0 x, if_neg (by omega)]
    · intro u
      rw [if_neg (by omega)]
  have hIP : ∀ i d1, I i d1 → d1._program_size = d._program_size := by
    rintro i d1 ⟨_, bs, arr, rfl, _⟩; rfl
  have hstep : ∀ d1 i, I i d1 → i < n →
      ∃ d2, program_chunk d1 (buf.drop (i * d._program_size))
          (addr + i * d._program_size) = .ok d2 ∧ I (i + 1) d2 := by
    rintro d1 i ⟨hwf1, bs1, arr1, rfl, hal1, hcon1, hcnt1⟩ hi
    have hin : addr + i * d._program_size + d._program_size ≤ addr + size := by
      have : (i + 1) * d._program_size ≤ n * d._program_size :=
        Nat.mul_le_mul_right _ (by omega)
      rw [Nat.succ_mul] at this
      omega
    have hsucc : (i + 1) * d._program_size = i * d._program_size + d._program_size :=
      Nat.succ_mul _ _
    have ha : addr + i * d._program_size < d._erase_count * d._erase_size := by omega
    have hmodP : (addr + i * d._program_size) % d._program_size = 0 := by
      rw [Nat.add_mul_mod_self_right]; exact hv1
    have hdivP : (addr + i * d._program_size) / d._program_size
        = addr / d._program_size + i := Nat.add_mul_div_right _ _ hP
    have haP : (addr / d._program_size + i) * d._program_size
        = addr + i * d._program_size := by
      rw [← hdivP]; exact Nat.div_mul_cancel (Nat.dvd_of_mod_eq_zero hmodP)
    obtain ⟨b, hbs⟩ := hal1 (addr + i * d._program_size) (by omega) (by omega)
    have hblen : b.length = d._erase_size :=
      hwf1.block_length (d := { d with _blocks := some bs1, _program_array := arr1 }) rfl hbs
    have hroom := aligned_room hE hdvd hmodP
    have hpi := hwf1.program_index (a := addr + i * d._program_size) ha
    have hei := hwf1.erase_index (a := addr + i * d._program_size) ha
    simp only at hpi hei
    have hpl : (addr + i * d._program_size) / d._program_size < arr1.length := by
      have := hwf1.2.2.2.2.2.2.1
      simp only at this
      rw [this]; exact hpi.1
    have hel : (addr + i * d._program_size) / d._erase_size < d._erase_array.length := by
      rw [hwf.2.2.2.2.2.2.2.1]; exact hei.1
    have hdl : d._program_size ≤ (buf.drop (i * d._program_size)).length := by
      rw [List.length_drop]; omega
    -- the counter of this chunk has not been touched yet
    have harr : arr1[addr / d._program_size + i]? = d._program_array[addr / d._program_size + i]? := by
      rw [hcnt1, if_neg (by omega)]
    have hgd : arr1.getD (addr / d._program_size + i) 0
        = d._program_array.getD (addr / d._program_size + i) 0 := by
      simp only [List.getD_eq_getElem?_getD, harr]
    have hpe : prog_exhausted { d with _blocks := some bs1, _program_array := arr1 }
        (addr / d._program_size + i) = d.prog_exhausted (addr / d._program_size + i) := by
      simp only [prog_exhausted, hgd]
    obtain ⟨d2, hchunk⟩ : ∃ d2, program_chunk
        { d with _blocks := some bs1, _program_array := arr1 }
        (buf.drop (i * d._program_size)) (addr + i * d._program_size) = .ok d2 :=
      ⟨_, program_chunk_eq (d := { d with _blocks := some bs1, _program_array := arr1 })
        (show _ = some bs1 from rfl) (buf.drop (i * d._program_size))
        (addr + i * d._program_size) _ _ hpi.2 hei.2 hbs
        (fun _ => ⟨b, rfl, by simp only; omega, hdl⟩) hpl hel⟩
    refine ⟨d2, hchunk, ?_⟩
    obtain ⟨bs, bs2, arr2, hbs', hd2, hwf2, hl2, hla2, _, g2, g3, g4, g5, g6⟩ :=
      program_chunk_facts hwf1 (by simp only; omega) hchunk
    simp only [Option.some.injEq] at hbs'
    subst hbs'
    simp only at hd2 hl2 hla2 g3 g4 g5 g6
    rw [hdivP, hpe] at g4 g5 g6
    have hee : erase_exhausted { d with _blocks := some bs1, _program_array := arr1 }
        ((addr + i * d._program_size) / d._erase_size)
        = d.erase_exhausted ((addr + i * d._program_size) / d._erase_size) := rfl
    rw [hee] at g4 g6
    rw [hgd] at g5
    refine ⟨hwf2, bs2, arr2, hd2, ?_, ?_, ?_⟩
    · intro a ha1 ha2
      obtain ⟨b', hb'⟩ := hal1 a ha1 ha2
      have hlt : a / d._erase_size < bs2.length := by
        rw [hl2]
        by_contra hcon
        rw [List.getElem?_eq_none (by omega)] at hb'
        cases hb'
      cases hs : bs2[a / d._erase_size]? with
      | none => rw [List.getElem?_eq_getElem hlt] at hs; cases hs
      | some slot =>
        cases slot with
        | none =>
          have := (g2 (a / d._erase_size)).mp hs
          rw [hb'] at this; cases this
        | some b2 => exact ⟨b2, rfl⟩
    · intro x
      by_cases hx : addr + i * d._program_size ≤ x ∧
          x < addr + i * d._program_size + d._program_size
      · -- a byte of this chunk
        have hxP : x / d._program_size = addr / d._program_size + i := by
          have h1 : addr / d._program_size + i ≤ x / d._program_size :=
            (Nat.le_div_iff_mul_le hP).mpr (by rw [haP]; exact hx.1)
          have h2 : x / d._program_size < addr / d._program_size + i + 1 :=
            (Nat.div_lt_iff_lt_mul hP).mpr (by rw [Nat.add_mul, Nat.one_mul, haP]; exact hx.2)
          omega
        have hxE : x / d._erase_size = (addr + i * d._program_size) / d._erase_size := by
          have hdm := Nat.div_add_mod (addr + i * d._program_size) d._erase_size
          have h1 : (addr + i * d._program_size) / d._erase_size ≤ x / d._erase_size :=
            Nat.div_le_div_right hx.1
          have h2 : x / d._erase_size < (addr + i * d._program_size) / d._erase_size + 1 := by
            rw [Nat.div_lt_iff_lt_mul hE, Nat.add_mul, Nat.one_mul, Nat.mul_comm]
            omega
          omega
        rw [hxP, hxE]
        cases hex : (d.prog_exhausted (addr / d._program_size + i) ||
            d.erase_exhausted ((addr + i * d._program_size) / d._erase_size)) with
        | true =>
          have hsame : bs2 = bs1 := g4 hex
          rw [hsame] at hd2
          have hnot : ¬ (addr ≤ x ∧ x < addr + (i + 1) * d._program_size ∧ true = false) := by
            simp
          rw [if_neg hnot]
          have h1 := hcon1 x
          rw [if_neg (by omega)] at h1
          rw [← h1, hd2]
          exact content_congr (d := { d with _blocks := some bs1, _program_array := arr1 })
            rfl rfl rfl x rfl
        | false =>
          rw [if_pos ⟨by omega, by omega, rfl⟩, g6 hex x hx.1 hx.2]
          simp only [List.getD_eq_getElem?_getD, List.getElem?_drop]
          congr 2
          omega
      · -- a byte outside this chunk
        rw [g3 x (by omega), hcon1 x]
        have hiff : (addr ≤ x ∧ x < addr + (i + 1) * d._program_size ∧
            (d.prog_exhausted (x / d._program_size) ||
              d.erase_exhausted (x / d._erase_size)) = false) ↔
            (addr ≤ x ∧ x < addr + i * d._program_size ∧
            (d.prog_exhausted (x / d._program_size) ||
              d.erase_exhausted (x / d._erase_size)) = false) := by
          constructor
          · rintro ⟨a1, a2, a3⟩; exact ⟨a1, by omega, a3⟩
          · rintro ⟨a1, a2, a3⟩; exact ⟨a1, by omega, a3⟩
        simp only [hiff]
    · intro u
      rw [g5]
      by_cases hu : u = addr / d._program_size + i
      · subst hu
        by_cases hq : d.prog_exhausted (addr / d._program_size + i) = true
        · have hnot : ¬ (addr / d._program_size ≤ addr / d._program_size + i ∧
              addr / d._program_size + i < addr / d._program_size + (i + 1) ∧
              d.prog_exhausted (addr / d._program_size + i) = false) := by simp [hq]
          rw [if_neg hnot, if_pos hq]
          exact harr
        · have hq' : d.prog_exhausted (addr / d._program_size + i) = false := by
            simpa using hq
          have hcond : addr / d._program_size ≤ addr / d._program_size + i ∧
              addr / d._program_size + i < addr / d._program_size + (i + 1) ∧
              d.prog_exhausted (addr / d._program_size + i) = false :=
            ⟨by omega, by omega, hq'⟩
          rw [if_pos hcond, if_neg hq]
          rw [hdivP] at hpl
          exact List.getElem?_set_self hpl
      · have hne : addr / d._program_size + i ≠ u := fun h => hu h.symm
        have hiff : (addr / d._program_size ≤ u ∧ u < addr / d._program_size + (i + 1) ∧
            d.prog_exhausted u = false) ↔
            (addr / d._program_size ≤ u ∧ u < addr / d._program_size + i ∧
            d.prog_exhausted u = false) := by
          constructor
          · rintro ⟨a1, a2, a3⟩; exact ⟨a1, by omega, a3⟩
          · rintro ⟨a1, a2, a3⟩; exact ⟨a1, by omega, a3⟩
        simp only [hiff]
        split
        · exact hcnt1 u
        · rw [List.getElem?_set_ne hne]; exact hcnt1 u
  obtain ⟨d', hloop, hwf', bs', arr', hd', _, hcon', hcnt'⟩ :=
    program_loop_ok_buf d._program_size hP n I addr buf hIP hstep size
      { d with _blocks := some blocks0 }
      (by rw [hn]; exact Nat.le_mul_of_pos_right n hP) hI0
  subst hd'
  rw [← hn] at hloop hcon'
  refine ⟨bs', arr', ?_, hwf', hcon', ?_⟩
  · unfold program
    simp only [hb, Option.isSome_some, Bool.not_true, Bool.false_eq_true, if_false, hv, hla,
      hloop]
  · intro u
    rw [hcnt' u, hn, Nat.add_mul_div_right _ _ hP]

end ExhaustibleBlockDevice

/-! ## The whole of `read` -/

namespace ExhaustibleBlockDevice

/-- One pass of the `read` loop that stays inside its erase unit returns the observed
bytes at the addresses of the chunk. -/
theorem read_chunk_content {d : ExhaustibleBlockDevice} (hwf : WF d)
    {blocks : List (Option (List Byte))} (hb : d._blocks = some blocks) {a : Nat}
    (ha : a < d._erase_count * d._erase_size)
    (hroom : a % d._erase_size + d._read_size ≤ d._erase_size) :
    read_chunk d a = .ok ((List.range d._read_size).map (fun k => d.content (a + k))) := by
  have hE : 0 < d._erase_size := hwf.2.2.1
  have hhi : a / d._erase_size < blocks.length := by
    rw [hwf.blocks_length hb]; exact (hwf.erase_index ha).1
  have hdm := Nat.div_add_mod a d._erase_size
  have hunit : ∀ k, k < d._read_size →
      (a + k) / d._erase_size = a / d._erase_size ∧
      (a + k) % d._erase_size = a % d._erase_size + k := by
    intro k hk
    have h1 : (a + k) / d._erase_size = a / d._erase_size := by
      have hlo : a / d._erase_size ≤ (a + k) / d._erase_size :=
        Nat.div_le_div_right (Nat.le_add_right _ _)
      have hup : (a + k) / d._erase_size < a / d._erase_size + 1 := by
        rw [Nat.div_lt_iff_lt_mul hE, Nat.add_mul, Nat.one_mul, Nat.mul_comm]
        omega
      omega
    have hdm2 := Nat.div_add_mod (a + k) d._erase_size
    rw [h1] at hdm2
    exact ⟨h1, by omega⟩
  cases hs : blocks[a / d._erase_size]? with
  | none => rw [List.getElem?_eq_getElem hhi] at hs; cases hs
  | some slot =>
    cases slot with
    | none =>
      rw [read_chunk_none hb hs]
      congr 1
      apply List.ext_getElem?
      intro k
      rw [List.getElem?_replicate, List.getElem?_map]
      by_cases hk : k < d._read_size
      · rw [if_pos hk, List.getElem?_range hk]
        simp only [Option.map_some', content_of_blocks hb, (hunit k hk).1, hs]
      · rw [if_neg hk, List.getElem?_eq_none (by simp; omega)]
        rfl
    | some block =>
      have hlen := hwf.block_length hb hs
      rw [read_chunk_some hb hs (by omega)]
      congr 1
      apply List.ext_getElem?
      intro k
      rw [List.getElem?_take, List.getElem?_map]
      by_cases hk : k < d._read_size
      · rw [if_pos hk, List.getElem?_range hk, List.getElem?_drop]
        simp only [Option.map_some', content_of_blocks hb, (hunit k hk).1, (hunit k hk).2, hs,
          List.getD_eq_getElem?_getD]
        rw [List.getElem?_eq_getElem (by omega)]
        rfl
      · rw [if_neg hk, List.getElem?_eq_none (by simp; omega)]
        rfl

/-- When every pass of the `read` loop returns the observed bytes of its chunk, the
loop returns the observed bytes of the whole range. -/
theorem read_loop_content (d : ExhaustibleBlockDevice) (hR : 0 < d._read_size) :
    ∀ (n addr fuel : Nat), n ≤ fuel →
      (∀ i, i < n → read_chunk d (addr + i * d._read_size)
        = .ok ((List.range d._read_size).map
            (fun k => d.content (addr + i * d._read_size + k)))) →
      read_loop d fuel addr (n * d._read_size)
        = .ok ((List.range (n * d._read_size)).map (fun k => d.content (addr + k))) := by
  intro n
  induction n with
  | zero =>
    intro addr fuel _ _
    rw [Nat.zero_mul, read_loop_zero]; rfl
  | succ n ih =>
    intro addr fuel hfuel hch
    have hpos : (n + 1) * d._read_size > 0 := Nat.mul_pos (Nat.succ_pos n) hR
    cases fuel with
    | zero => omega
    | succ fuel =>
      have hc := hch 0 (Nat.succ_pos n)
      simp only [Nat.zero_mul, Nat.add_zero] at hc
      have hsz : (n + 1) * d._read_size - d._read_size = n * d._read_size := by
        rw [Nat.succ_mul]; omega
      have hr := ih (addr + d._read_size) fuel (by omega) (by
        intro i hi
        have := hch (i + 1) (Nat.succ_lt_succ hi)
        rw [Nat.succ_mul] at this
        have he : addr + (i * d._read_size + d._read_size)
            = addr + d._read_size + i * d._read_size := by omega
        rw [he] at this; exact this)
      simp only [read_loop, hpos, if_true, hc, hsz, hr]
      have hsplit : (n + 1) * d._read_size = d._read_size + n * d._read_size := by
        rw [Nat.succ_mul]; omega
      rw [hsplit, List.range_add, List.map_append, List.map_map]
      congr 2
      apply List.map_congr_left
      intro k _
      simp only [Function.comp, Nat.add_assoc]

/-- The whole of `read` on a valid range, for an erase unit that is a multiple of the
read unit: it returns 0 and the observed bytes of the range. -/
theorem read_spec {d : ExhaustibleBlockDevice} (hwf : WF d)
    (hinit : d._blocks.isSome = true) {addr size : Nat}
    (hv : d.is_valid_read addr size = true) (hdvd : d._read_size ∣ d._erase_size) :
    d.read addr size = .ok (0, (List.range size).map (fun k => d.content (addr + k))) := by
  have hR : 0 < d._read_size := hwf.1
  have hE : 0 < d._erase_size := hwf.2.2.1
  obtain ⟨blocks, hb⟩ := Option.isSome_iff_exists.mp hinit
  obtain ⟨hv1, hv2, hv3⟩ := (is_valid_read_iff d addr size).mp hv
  obtain ⟨n, hn⟩ : ∃ n, size = n * d._read_size :=
    ⟨size / d._read_size, (Nat.div_mul_cancel (Nat.dvd_of_mod_eq_zero hv2)).symm⟩
  have hloop := read_loop_content d hR n addr size
    (by rw [hn]; exact Nat.le_mul_of_pos_right n hR) (by
      intro i hi
      have hin : addr + i * d._read_size + d._read_size ≤ addr + n * d._read_size := by
        have : (i + 1) * d._read_size ≤ n * d._read_size := Nat.mul_le_mul_right _ (by omega)
        rw [Nat.succ_mul] at this
        omega
      have hal : (addr + i * d._read_size) % d._read_size = 0 := by
        rw [Nat.add_mul_mod_self_right]; exact hv1
      exact read_chunk_content hwf hb (by omega) (aligned_room hE hdvd hal))
  rw [read_eq_loop hinit hv]
  rw [← hn] at hloop
  rw [hloop]

/-- A valid `program` of bytes to program units that have a buffer and whose counters
do not exceed the limits, followed by a `read` of the same range, returns the bytes,
for a geometry in which the read unit divides the program unit and the program unit
divides the erase unit. -/
theorem program_then_read {d : ExhaustibleBlockDevice} (hwf : WF d)
    (hinit : d._blocks.isSome = true) (buf : List Byte) (addr : Nat)
    (hv : d.is_valid_program addr buf.length = true)
    (hRP : d._read_size ∣ d._program_size) (hPE : d._program_size ∣ d._erase_size)
    (halloc : ∀ a, addr ≤ a → a < addr + buf.length →
      d.allocated (a / d._erase_size) = true)
    (hfresh : ∀ a, addr ≤ a → a < addr + buf.length →
      d.prog_exhausted (a / d._program_size) = false ∧
      d.erase_exhausted (a / d._erase_size) = false) :
    ∃ d', d.program buf addr buf.length = .ok (0, d') ∧
      d'.read addr buf.length = .ok (0, buf) := by
  obtain ⟨blocks, hb⟩ := Option.isSome_iff_exists.mp hinit
  obtain ⟨bs', arr', hp, hwf', hcon, _⟩ :=
    program_spec hwf hb buf addr buf.length hv hPE (Nat.le_refl _) halloc
  refine ⟨_, hp, ?_⟩
  obtain ⟨hv1, hv2, hv3⟩ := (is_valid_program_iff d addr buf.length).mp hv
  have hvr : is_valid_read { d with _blocks := some bs', _program_array := arr' }
      addr buf.length = true := by
    rw [is_valid_read_iff]
    refine ⟨?_, ?_, hv3⟩
    · exact Nat.mod_eq_zero_of_dvd (Nat.dvd_trans hRP (Nat.dvd_of_mod_eq_zero hv1))
    · exact Nat.mod_eq_zero_of_dvd (Nat.dvd_trans hRP (Nat.dvd_of_mod_eq_zero hv2))
  rw [read_spec hwf' rfl hvr (Nat.dvd_trans hRP hPE)]
  congr 2
  apply List.ext_getElem?
  intro k
  rw [List.getElem?_map]
  by_cases hk : k < buf.length
  · rw [List.getElem?_range hk]
    simp only [Option.map_some']
    rw [hcon (addr + k)]
    obtain ⟨h1, h2⟩ := hfresh (addr + k) (by omega) (by omega)
    rw [if_pos ⟨by omega, by omega, by rw [h1, h2]; rfl⟩]
    simp only [Nat.add_sub_cancel_left, List.getD_eq_getElem?_getD,
      List.getElem?_eq_getElem hk, Option.getD_some]
  · rw [List.getElem?_eq_none (by simp; omega), List.getElem?_eq_none (by omega)]
    rfl

end ExhaustibleBlockDevice

/-! ## No limit, allocation, geometry -/

namespace ExhaustibleBlockDevice

/-- C11 (as amended). On a device after `init` whose program limit and erase limit are
both 0, whatever the counters hold (no hypothesis bounds them, so a counter that has
wrapped modulo `2 ^ 32` is included): every valid `erase` returns 0 and leaves every
erase unit of its range with a buffer that reads 0xFF throughout; and, when the erase
unit is a multiple of the program unit, every valid `program` to erase units that have
a buffer returns 0 and stores exactly the given bytes (every byte of the range reads
as given, every other byte as before). -/
theorem zero_limit_is_no_limit (d : ExhaustibleBlockDevice) (hwf : WF d)
    (hinit : d._blocks.isSome = true)
    (hp : d._program_life = 0) (he : d._erase_life = 0) :
    (∀ addr size, d.is_valid_erase addr size = true →
      ∃ d', d.erase addr size = .ok (0, d') ∧
        ∀ i, addr / d._erase_size ≤ i → i < (addr + size) / d._erase_size →
          d'.allocated i = true ∧ ∀ x, x / d._erase_size = i → d'.content x = 255) ∧
    (∀ buf addr, d.is_valid_program addr buf.length = true →
      d._program_size ∣ d._erase_size →
      (∀ a, addr ≤ a → a < addr + buf.length → d.allocated (a / d._erase_size) = true) →
      ∃ d', d.program buf addr buf.length = .ok (0, d') ∧
        ∀ x, d'.content x =
          if addr ≤ x ∧ x < addr + buf.length then buf.getD (x - addr) 0
          else d.content x) := by
  obtain ⟨blocks, hb⟩ := Option.isSome_iff_exists.mp hinit
  have hne : ∀ j, d.erase_exhausted j = false := by
    intro j; simp [erase_exhausted, he]
  have hnp : ∀ j, d.prog_exhausted j = false := by
    intro j; simp [prog_exhausted, hp]
  constructor
  · intro addr size hv
    obtain ⟨bs', arr', hres, _⟩ := erase_spec hwf hb addr size hv
    obtain ⟨_, bs2, arr2, hd2, _, _, _, _, f2, f3⟩ := erase_facts hwf hb hres
    refine ⟨_, hres, ?_⟩
    intro i hi1 hi2
    constructor
    · simp only at hd2
      rw [hd2]
      simp only [allocated, f2 i hi1 hi2 (hne i)]
    · intro x hx
      rw [f3 x, if_pos ⟨by rw [hx]; exact hi1, by rw [hx]; exact hi2, hne _⟩]
  · intro buf addr hv hdvd halloc
    obtain ⟨bs', arr', hres, _, hcon, _⟩ :=
      program_spec hwf hb buf addr buf.length hv hdvd (Nat.le_refl _) halloc
    refine ⟨_, hres, ?_⟩
    intro x
    rw [hcon x]
    have hiff : (addr ≤ x ∧ x < addr + buf.length ∧
        (d.prog_exhausted (x / d._program_size) ||
          d.erase_exhausted (x / d._erase_size)) = false) ↔
        (addr ≤ x ∧ x < addr + buf.length) := by
      rw [hnp, hne]; simp
    simp only [hiff]

/-- The witness of `zero_limit_is_no_limit`: an erase of a unit whose erase counter
is `2 ^ 32 - 1`, and a program of a program unit whose program counter is
`2 ^ 32 - 1`. -/
theorem zero_limit_is_no_limit_witness :
    (∃ d', wrapping_counters.erase 0 4 = .ok (0, d') ∧ d'.content 0 = 255) ∧
    (∃ d', wrapping_counters.program [1, 2] 0 2 = .ok (0, d') ∧
      d'.content 0 = 1 ∧ d'.content 1 = 2 ∧ d'.content 2 = 9) := by
  have h := zero_limit_is_no_limit wrapping_counters (by decide) (by decide)
    (by decide) (by decide)
  constructor
  · obtain ⟨d', h1, h2⟩ := h.1 0 4 (by decide)
    exact ⟨d', h1, (h2 0 (by decide) (by decide)).2 0 (by decide)⟩
  · obtain ⟨d', h1, h2⟩ := h.2 [1, 2] 0 (by decide) (by decide) (by
      intro a _ h2
      have h3 : a < 2 := by simpa using h2
      have : a = 0 ∨ a = 1 := by omega
      rcases this with h | h <;> subst h <;> decide)
    refine ⟨d', h1, ?_, ?_, ?_⟩
    · rw [h2 0]; decide
    · rw [h2 1]; decide
    · rw [h2 2]; decide

set_option maxRecDepth 1000000 in
/-- C17 (failing input). Right after construction and `init`, for the valid program
arguments `addr = 0`, `size = 64` on the reference geometry (and `addr = 0`, `size = 2`
on the small one), `_lazy_allocate` returns the device as it was: the erase unit
`0 / erase_size = 0`, which contains the touched program unit, still has no buffer. -/
theorem lazy_allocate_skips_partial_unit :
    (construct 8 1 2 4 >>= fun d => d.init.2._lazy_allocate 0 2) = .ok fresh_small ∧
    fresh_small.is_valid_program 0 2 = true ∧
    fresh_small.allocated (0 / 4) = false ∧
    (construct 131072 1 64 512 >>= fun d =>
      (d.init.2._lazy_allocate 0 64).map
        (fun d0 => (d0.is_valid_program 0 64, d0.allocated (0 / 512)))) = .ok (true, false) := by
  decide

/-- C18 (counterexample). The constructor accepts the total size 6 with program unit
2 and erase unit 3; 3 is not a multiple of 2; the program-unit-aligned in-range
address 2 has `2 % 3 + 2 > 3`, and a program of that chunk on allocated units stops
with an access outside the buffer of erase unit 0. -/
theorem constructor_accepts_unnested_units :
    construct 6 1 2 3 = .ok constructed_unnested ∧
    ¬ (constructed_unnested._program_size ∣ constructed_unnested._erase_size) ∧
    constructed_unnested.init.2.is_valid_program 2 2 = true ∧
    ¬ (2 % constructed_unnested._erase_size + constructed_unnested._program_size
        ≤ constructed_unnested._erase_size) ∧
    run constructed_unnested [.init, .erase 0 6, .program [1, 2] 2 2]
      = .error .outOfBounds := by
  decide

/-- C18 (as amended). The constructor checks only that the program unit and the erase
unit each divide the total size.  For an accepted geometry in which the erase unit is
a multiple of the program unit, the chunk at every program-unit-aligned address lies
inside one erase unit's buffer: `addr % erase_size + program_size <= erase_size`. -/
theorem chunk_inside_erase_unit (S read program erase : Nat) (d : ExhaustibleBlockDevice)
    (h0 : construct S read program erase = .ok d)
    (hnest : d._program_size ∣ d._erase_size) :
    d._program_size = program ∧ d._erase_size = erase ∧
    S % program = 0 ∧ S % erase = 0 ∧
    ∀ addr, addr % d._program_size = 0 →
      addr % d._erase_size + d._program_size ≤ d._erase_size := by
  unfold construct at h0
  split at h0
  · cases h0
  · rename_i hne
    simp only at h0
    split at h0
    · cases h0
    · rename_i h1
      split at h0
      · cases h0
      · rename_i h2
        simp only [Except.ok.injEq] at h0
        subst h0
        simp only [not_or] at hne
        simp only [ne_eq, Decidable.not_not] at h1 h2
        refine ⟨rfl, rfl, ?_, ?_, ?_⟩
        · exact Nat.mod_eq_zero_of_dvd ⟨S / program, by rw [Nat.mul_comm]; exact h1.symm⟩
        · exact Nat.mod_eq_zero_of_dvd ⟨S / erase, by rw [Nat.mul_comm]; exact h2.symm⟩
        · intro addr ha
          exact aligned_room (Nat.pos_of_ne_zero hne.2) hnest ha

/-- The witness of `chunk_inside_erase_unit`: the small geometry 8 / 2 / 4. -/
theorem chunk_inside_erase_unit_witness :
    2 % constructed_small._erase_size + constructed_small._program_size
      ≤ constructed_small._erase_size :=
  (chunk_inside_erase_unit 8 1 2 4 constructed_small (by decide) (by decide)).2.2.2.2 2
    (by decide)

end ExhaustibleBlockDevice

/-! ## The read-only guard -/

/-- C12. For every wrapped device, every state of it and all arguments: `program` and
`erase` through the guard end in the fatal error, whatever the wrapped device's own
`program` and `erase` are (they are not consulted and no state is returned), while
`read` and the four geometry accessors return exactly what the wrapped device
returns for the same arguments. -/
theorem read_only_guard {σ : Type} (bd : BlockDevice σ) (s : σ) :
    (∀ buf addr size, ReadOnlyBlockDevice.program ⟨bd⟩ s buf addr size = .error .fatal) ∧
    (∀ addr size, ReadOnlyBlockDevice.erase ⟨bd⟩ s addr size = .error .fatal) ∧
    (∀ addr size, ReadOnlyBlockDevice.read ⟨bd⟩ s addr size = bd.read s addr size) ∧
    ReadOnlyBlockDevice.get_read_size ⟨bd⟩ s = bd.get_read_size s ∧
    ReadOnlyBlockDevice.get_program_size ⟨bd⟩ s = bd.get_program_size s ∧
    ReadOnlyBlockDevice.get_erase_size ⟨bd⟩ s = bd.get_erase_size s ∧
    ReadOnlyBlockDevice.size ⟨bd⟩ s = bd.size s :=
  ⟨fun _ _ _ => rfl, fun _ _ => rfl, fun _ _ => rfl, rfl, rfl, rfl, rfl⟩

/-! ## The driver in the recording world -/

theorem setup_entries_trace (exhausted : Nat → Nat → Bool) :
    ∀ (idxs : List Nat) (log : List Event),
      setup_entries (idxs.map (trace_entry exhausted)) log
        = .ok (log ++ idxs.map Event.setup) := by
  intro idxs
  induction idxs with
  | nil => intro log; simp [setup_entries]
  | cons i is ih =>
    intro log
    simp only [List.map_cons, setup_entries, trace_entry]
    have := ih (log ++ [Event.setup i])
    simp only [trace_entry] at this
    rw [this]
    simp

theorem check_entries_trace (exhausted : Nat → Nat → Bool) :
    ∀ (idxs : List Nat) (log : List Event),
      check_entries (idxs.map (trace_entry exhausted)) log
        = .ok (log ++ idxs.map Event.check) := by
  intro idxs
  induction idxs with
  | nil => intro log; simp [check_entries]
  | cons i is ih =>
    intro log
    simp only [List.map_cons, check_entries, trace_entry]
    have := ih (log ++ [Event.check i])
    simp only [trace_entry] at this
    rw [this]
    simp

/-- The perform loop runs the perform action of every scenario of the registry, in
order, whatever the flags returned so far, and returns the disjunction of the flags. -/
theorem perform_entries_trace (exhausted : Nat → Nat → Bool) :
    ∀ (idxs : List Nat) (out : Bool) (log : List Event),
      perform_entries (idxs.map (trace_entry exhausted)) out log
        = .ok (out || idxs.any (exhausted (log.count Event.mount - 1)),
            log ++ idxs.map Event.perform) := by
  intro idxs
  induction idxs with
  | nil => intro out log; simp [perform_entries]
  | cons i is ih =>
    intro out log
    simp only [List.map_cons, perform_entries, trace_entry]
    have := ih (out || exhausted (log.count Event.mount - 1) i) (log ++ [Event.perform i])
    simp only [trace_entry] at this
    rw [this]
    have hc : List.count Event.mount (log ++ [Event.perform i]) = List.count Event.mount log := by
      rw [List.count_append]
      simp [List.count_cons]
    rw [hc]
    simp [Bool.or_assoc]

theorem count_mount_map_perform (idxs : List Nat) :
    List.count Event.mount (idxs.map Event.perform) = 0 := by
  rw [List.count_eq_zero]
  intro h
  obtain ⟨i, _, hi⟩ := List.mem_map.mp h
  cases hi

theorem count_mount_iteration_log (n : Nat) : List.count Event.mount (iteration_log n) = 1 := by
  simp [iteration_log, List.count_append, List.count_cons, count_mount_map_perform]

/-- One perform iteration in the recording world. -/
theorem perform_atomic_operations_trace (exhausted : Nat → Nat → Bool) (n : Nat)
    (log : List Event) :
    perform_atomic_operations trace_fs (trace_entries exhausted n) log
      = .ok (iteration_exhausted exhausted n (log.count Event.mount),
          log ++ iteration_log n) := by
  simp only [perform_atomic_operations, trace_entries, trace_fs, perform_entries_trace]
  have hc : List.count Event.mount (log ++ [Event.mount]) - 1 = List.count Event.mount log := by
    rw [List.count_append]
    simp [List.count_cons]
  rw [hc]
  simp [iteration_exhausted, iteration_log]

/-- The loop of `main` in the recording world. -/
theorem main_loop_trace (exhausted : Nat → Nat → Bool) (n : Nat) :
    ∀ (m : Nat) (log : List Event),
      main_loop trace_fs (trace_entries exhausted n) m log
        = .ok (log ++ (List.replicate
            (iterations_run (iteration_exhausted exhausted n) m (log.count Event.mount))
            (iteration_log n)).flatten) := by
  intro m
  induction m with
  | zero => intro log; simp [main_loop, iterations_run]
  | succ m ih =>
    intro log
    simp only [main_loop, perform_atomic_operations_trace, iterations_run]
    by_cases hp : iteration_exhausted exhausted n (List.count Event.mount log) = true
    · simp [hp]
    · simp only [hp, Bool.false_eq_true, if_false]
      rw [ih (log ++ iteration_log n), List.count_append, count_mount_iteration_log]
      rw [Nat.add_comm 1, List.replicate_succ, List.flatten_cons, List.append_assoc]

theorem iterations_run_le (p : Nat → Bool) :
    ∀ (m j : Nat), iterations_run p m j ≤ m ∧ (0 < m → 1 ≤ iterations_run p m j) := by
  intro m
  induction m with
  | zero => intro j; simp [iterations_run]
  | succ m ih =>
    intro j
    simp only [iterations_run]
    split
    · omega
    · have := (ih (j + 1)).1; omega

/-- No iteration before the last one run signals exhaustion. -/
theorem iterations_run_before (p : Nat → Bool) :
    ∀ (m j i : Nat), i + 1 < iterations_run p m j → p (j + i) = false := by
  intro m
  induction m with
  | zero => intro j i h; simp [iterations_run] at h
  | succ m ih =>
    intro j i h
    simp only [iterations_run] at h
    by_cases hp : p j = true
    · simp [hp] at h
    · simp only [hp, Bool.false_eq_true, if_false] at h
      cases i with
      | zero => simpa using hp
      | succ i =>
        have := ih (j + 1) i (by omega)
        rw [Nat.add_assoc, Nat.add_comm 1 i] at this
        exact this

/-- When the loop stops before its bound, the last iteration run signalled
exhaustion. -/
theorem iterations_run_stop (p : Nat → Bool) :
    ∀ (m j : Nat), iterations_run p m j < m → p (j + iterations_run p m j - 1) = true := by
  intro m
  induction m with
  | zero => intro j h; simp at h
  | succ m ih =>
    intro j h
    simp only [iterations_run] at h ⊢
    by_cases hp : p j = true
    · simp [hp]
    · simp only [hp, Bool.false_eq_true, if_false] at h ⊢
      have := ih (j + 1) (by omega)
      have h1 := (iterations_run_le p m (j + 1)).2 (by omega)
      have he : j + (1 + iterations_run p m (j + 1)) - 1
          = j + 1 + iterations_run p m (j + 1) - 1 := by omega
      rw [he]; exact this

theorem main_device_ok : ∃ ebd, main_device = .ok ebd ∧
    ebd._erase_count * ebd._erase_size = 131072 ∧ ebd._read_size = 1 ∧
    ebd._program_size = 64 ∧ ebd._erase_size = 512 ∧ ebd._erase_life = 100 ∧
    ebd._program_life = 0 ∧ ebd._blocks.isSome = true := by
  exact ⟨_, rfl, rfl, rfl, rfl, rfl, rfl, rfl, rfl⟩

/-- The whole of `main` in the recording world: the setup phase, then as many perform
iterations as the loop makes, then one check phase. -/
theorem main_trace (exhausted : Nat → Nat → Bool) (n : Nat) :
    main trace_fs (trace_entries exhausted n) (fun _ => [])
      = .ok (0, setup_log n ++ (List.replicate
          (iterations_run (iteration_exhausted exhausted n) 100 1)
          (iteration_log n)).flatten ++ check_log n) := by
  obtain ⟨ebd, hd, _⟩ := main_device_ok
  have hsetup : setup_atomic_operations trace_fs (trace_entries exhausted n) [] true
      = .ok (setup_log n) := by
    simp [setup_atomic_operations, trace_fs, trace_entries, setup_entries_trace, setup_log]
  have hcount : List.count Event.mount (setup_log n) = 1 := by
    have : List.count Event.mount (List.map Event.setup (List.range n)) = 0 := by
      rw [List.count_eq_zero]
      intro h
      obtain ⟨i, _, hi⟩ := List.mem_map.mp h
      cases hi
    simp [setup_log, List.count_append, List.count_cons, this]
  simp only [main, hd, hsetup, main_loop_trace, hcount]
  simp only [check_atomic_operations, trace_fs, trace_entries, check_entries_trace]
  simp [check_log]

/-- C13. In the run of the harness, observed in the world that records the calls,
for every number `n` of registered scenarios and every way `exhausted j i` in which
scenario `i` signals exhaustion in iteration `j`: every perform iteration makes the
calls `mount`, the perform action of every scenario once and in registry order,
`unmount`, whatever the scenarios signal, and signals exhaustion exactly when some
scenario did; and the whole run is the setup phase, `k` perform iterations and one
check phase, where `1 <= k <= 100`, no iteration before the `k`-th signals exhaustion,
and the `k`-th does when `k < 100`. -/
theorem harness_run_order (exhausted : Nat → Nat → Bool) (n : Nat) :
    (∀ log, perform_atomic_operations trace_fs (trace_entries exhausted n) log
      = .ok (iteration_exhausted exhausted n (log.count Event.mount),
          log ++ [Event.mount] ++ (List.range n).map Event.perform ++ [Event.unmount])) ∧
    (∀ j, iteration_exhausted exhausted n j = true ↔ ∃ i, i < n ∧ exhausted j i = true) ∧
    ∃ k, main trace_fs (trace_entries exhausted n) (fun _ => [])
        = .ok (0, setup_log n ++ (List.replicate k (iteration_log n)).flatten ++ check_log n) ∧
      1 ≤ k ∧ k ≤ 100 ∧
      (∀ j, 1 ≤ j → j < k → iteration_exhausted exhausted n j = false) ∧
      (k < 100 → iteration_exhausted exhausted n k = true) := by
  refine ⟨?_, ?_, iterations_run (iteration_exhausted exhausted n) 100 1,
    main_trace exhausted n, ?_, ?_, ?_, ?_⟩
  · intro log
    rw [perform_atomic_operations_trace]
    simp [iteration_log]
  · intro j
    simp [iteration_exhausted, List.any_eq_true]
  · exact (iterations_run_le _ 100 1).2 (by decide)
  · exact (iterations_run_le _ 100 1).1
  · intro j hj1 hj2
    have := iterations_run_before (iteration_exhausted exhausted n) 100 1 (j - 1) (by omega)
    have he : 1 + (j - 1) = j := by omega
    rw [he] at this; exact this
  · intro hk
    have := iterations_run_stop (iteration_exhausted exhausted n) 100 1 hk
    have he : 1 + iterations_run (iteration_exhausted exhausted n) 100 1 - 1
        = iterations_run (iteration_exhausted exhausted n) 100 1 := by omega
    rw [he] at this; exact this

/-- An event other than the ones a list of calls is made of does not occur in it. -/
theorem count_map_event_zero (f : Nat → Event) (e : Event) (n : Nat) (h : ∀ i, f i ≠ e) :
    List.count e ((List.range n).map f) = 0 := by
  rw [List.count_eq_zero]
  intro hm
  obtain ⟨i, _, hi⟩ := List.mem_map.mp hm
  exact h i hi

/-- Each call of a list of calls over the registry occurs in it once. -/
theorem count_map_event_one (f : Nat → Event) (hf : Function.Injective f) (n i : Nat)
    (hi : i < n) : List.count (f i) ((List.range n).map f) = 1 := by
  rw [List.count_map_of_injective _ f hf]
  exact List.count_eq_one_of_mem (List.nodup_range n) (List.mem_range.mpr hi)

/-- Repeating a log in which an event does not occur gives a log in which it does not
occur. -/
theorem count_flatten_replicate_zero (e : Event) (l : List Event) (h : List.count e l = 0)
    (k : Nat) : List.count e (List.replicate k l).flatten = 0 := by
  induction k with
  | zero => simp
  | succ k ih => simp [List.replicate_succ, List.count_append, h, ih]

/-- C16 (as the code has it). A run of `main` with two scenarios of which the second
iteration signals exhaustion: the setup phase, two perform iterations, and the check
actions once, after the last iteration only; no check action stands between the two
perform iterations. -/
theorem check_runs_only_after_last_iteration :
    main trace_fs (trace_entries (fun j _ => j == 2) 2) (fun _ => [])
      = .ok (0,
          [Event.format, Event.mount, Event.setup 0, Event.setup 1, Event.unmount,
           Event.mount, Event.perform 0, Event.perform 1, Event.unmount,
           Event.mount, Event.perform 0, Event.perform 1, Event.unmount,
           Event.mount, Event.check 0, Event.check 1, Event.unmount]) := by
  decide

/-- C16 (amended). The device of the concrete run has 131072 bytes, read unit 1,
program unit 64, erase unit 512, erase-cycle limit 100 and program-cycle limit 0 (no
limit), and is initialised; and in the run of the harness, observed in the world that
records the calls, for every number `n` of scenarios and every way in which they signal
exhaustion, the log is the setup phase, then `k` perform iterations with
`1 <= k <= 100`, then the check phase at the very end: the setup action and the check
action of every scenario are run exactly once in the whole run. -/
theorem concrete_run_checks_once :
    (∃ ebd, main_device = .ok ebd ∧
      ebd._erase_count * ebd._erase_size = 131072 ∧ ebd._read_size = 1 ∧
      ebd._program_size = 64 ∧ ebd._erase_size = 512 ∧ ebd._erase_life = 100 ∧
      ebd._program_life = 0 ∧ ebd._blocks.isSome = true) ∧
    ∀ (exhausted : Nat → Nat → Bool) (n : Nat), ∃ k log,
      main trace_fs (trace_entries exhausted n) (fun _ => []) = .ok (0, log) ∧
      log = setup_log n ++ (List.replicate k (iteration_log n)).flatten ++ check_log n ∧
      1 ≤ k ∧ k ≤ 100 ∧
      ∀ i, i < n → log.count (Event.setup i) = 1 ∧ log.count (Event.check i) = 1 := by
  refine ⟨main_device_ok, fun exhausted n =>
    ⟨iterations_run (iteration_exhausted exhausted n) 100 1, _, main_trace exhausted n, rfl,
      (iterations_run_le _ 100 1).2 (by decide), (iterations_run_le _ 100 1).1, ?_⟩⟩
  intro i hi
  have hs1 := count_map_event_one Event.setup (fun a b h => by cases h; rfl) n i hi
  have hc1 := count_map_event_one Event.check (fun a b h => by cases h; rfl) n i hi
  have hs2 := count_map_event_zero Event.check (Event.setup i) n (fun j h => by cases h)
  have hs3 := count_map_event_zero Event.perform (Event.setup i) n (fun j h => by cases h)
  have hc2 := count_map_event_zero Event.setup (Event.check i) n (fun j h => by cases h)
  have hc3 := count_map_event_zero Event.perform (Event.check i) n (fun j h => by cases h)
  have hs4 : List.count (Event.setup i) (iteration_log n) = 0 := by
    simp [iteration_log, List.count_append, List.count_cons, hs3]
  have hc4 : List.count (Event.check i) (iteration_log n) = 0 := by
    simp [iteration_log, List.count_append, List.count_cons, hc3]
  constructor
  · simp [setup_log, check_log, List.count_append, List.count_cons, hs1, hs2,
      count_flatten_replicate_zero _ _ hs4]
  · simp [setup_log, check_log, List.count_append, List.count_cons, hc1, hc2,
      count_flatten_replicate_zero _ _ hc4]


/-! ## The swap-rename scenario -/

theorem FILE_RENAME_LEN_eq : FILE_RENAME_LEN = 40 := by decide

theorem FILE_RENAME_names : FILE_RENAME_A ≠ FILE_RENAME_B := by decide

set_option maxRecDepth 1000000 in
/-- C19 (as the code has it). `FILE_RENAME_A` holds the payload followed by one more
byte and `FILE_RENAME_B` does not exist: the check passes, although the content of the
one file is not the payload. -/
theorem check_file_rename_accepts_longer_file :
    check_file_rename payload_with_tail = .ok payload_with_tail ∧
    payload_with_tail FILE_RENAME_A = some (FILE_RENAME_CONTENTS ++ [33]) ∧
    payload_with_tail FILE_RENAME_A ≠ some FILE_RENAME_CONTENTS ∧
    payload_with_tail FILE_RENAME_B = none := by
  refine ⟨?_, by decide, by decide, by decide⟩
  unfold check_file_rename
  have : check_file_rename_loop payload_with_tail [FILE_RENAME_A, FILE_RENAME_B] 0 0 = (1, 1) := by
    decide
  rw [this]
  rfl

/-- One pass of the loop of `check_file_rename`: a name that does not exist is passed
over; a file whose first `FILE_RENAME_LEN` bytes are the payload counts as a file and as
valid; any other file counts as a file and ends the loop. -/
theorem check_file_rename_loop_cons (files : Files) (name : String) (rest : List String)
    (files_seen valids : Nat) :
    check_file_rename_loop files (name :: rest) files_seen valids =
      match files name with
      | none => check_file_rename_loop files rest files_seen valids
      | some content =>
        if content.take FILE_RENAME_LEN = FILE_RENAME_CONTENTS then
          check_file_rename_loop files rest (files_seen + 1) (valids + 1)
        else (files_seen + 1, valids) := by
  cases h : files name with
  | none => simp [check_file_rename_loop, open_rdonly, h, ENOENT]
  | some content =>
    have hlen : FILE_RENAME_CONTENTS.length = FILE_RENAME_LEN := rfl
    have ht : ∀ data : List Byte, data.length = FILE_RENAME_LEN →
        List.take FILE_RENAME_LEN (data ++ List.replicate (1024 - data.length) (0 : Byte))
          = data := fun data hd => List.take_left' hd
    by_cases hl : (content.take FILE_RENAME_LEN).length = FILE_RENAME_LEN
    · have ht1 := ht _ hl
      by_cases hc : content.take FILE_RENAME_LEN = FILE_RENAME_CONTENTS
      · dsimp only
        rw [if_pos hc]
        simp only [check_file_rename_loop, open_rdonly, h, file_read, Option.isSome_some,
          if_true, Option.getD_some]
        rw [if_neg (not_not.mpr hl), ht1, if_neg (not_not.mpr hc)]
      · dsimp only
        rw [if_neg hc]
        simp only [check_file_rename_loop, open_rdonly, h, file_read, Option.isSome_some,
          if_true, Option.getD_some]
        rw [if_neg (not_not.mpr hl), ht1, if_pos hc]
    · have hc : ¬ content.take FILE_RENAME_LEN = FILE_RENAME_CONTENTS := by
        intro hc; rw [hc] at hl; exact hl hlen
      dsimp only
      rw [if_neg hc]
      simp only [check_file_rename_loop, open_rdonly, h, file_read, Option.isSome_some,
        if_true, Option.getD_some]
      rw [if_pos hl]

/-- The loop of `check_file_rename` with no name left. -/
theorem check_file_rename_loop_nil (files : Files) (files_seen valids : Nat) :
    check_file_rename_loop files [] files_seen valids = (files_seen, valids) := rfl

/-- C19 (amended). For every filesystem state, `check_file_rename` either passes or
fails an assertion, and it passes if and only if exactly one of the two names exists and
the first `FILE_RENAME_LEN` bytes of that file are the payload: the file is at least as
long as the payload and begins with it; what follows the payload is not looked at.  In
particular it passes when exactly one of the names exists and holds exactly the
payload. -/
theorem check_file_rename_iff (files : Files) :
    (check_file_rename files = .ok files ∨ check_file_rename files = .error .assertion) ∧
    (check_file_rename files = .ok files ↔
      (∃ content, files FILE_RENAME_A = some content ∧ files FILE_RENAME_B = none ∧
        content.take FILE_RENAME_LEN = FILE_RENAME_CONTENTS) ∨
      (∃ content, files FILE_RENAME_A = none ∧ files FILE_RENAME_B = some content ∧
        content.take FILE_RENAME_LEN = FILE_RENAME_CONTENTS)) ∧
    (rename_holder files ≠ none → check_file_rename files = .ok files) := by
  have key : (check_file_rename files = .ok files ∨
        check_file_rename files = .error .assertion) ∧
      (check_file_rename files = .ok files ↔
      (∃ content, files FILE_RENAME_A = some content ∧ files FILE_RENAME_B = none ∧
        content.take FILE_RENAME_LEN = FILE_RENAME_CONTENTS) ∨
      (∃ content, files FILE_RENAME_A = none ∧ files FILE_RENAME_B = some content ∧
        content.take FILE_RENAME_LEN = FILE_RENAME_CONTENTS)) := by
    unfold check_file_rename
    simp only [check_file_rename_loop_cons, check_file_rename_loop_nil]
    cases hA : files FILE_RENAME_A with
    | none =>
      cases hB : files FILE_RENAME_B with
      | none => simp
      | some cb =>
        by_cases hc : cb.take FILE_RENAME_LEN = FILE_RENAME_CONTENTS
        · simp [hc]
        · simp [hc]
    | some ca =>
      by_cases hc : ca.take FILE_RENAME_LEN = FILE_RENAME_CONTENTS
      · cases hB : files FILE_RENAME_B with
        | none => simp [hc]
        | some cb =>
          by_cases hc2 : cb.take FILE_RENAME_LEN = FILE_RENAME_CONTENTS
          · simp [hc, hc2]
          · simp [hc, hc2]
      · simp [hc]
  refine ⟨key.1, key.2, ?_⟩
  intro h
  rw [key.2]
  have htake : FILE_RENAME_CONTENTS.take FILE_RENAME_LEN = FILE_RENAME_CONTENTS :=
    List.take_length _
  unfold rename_holder at h
  cases hA : files FILE_RENAME_A with
  | none =>
    cases hB : files FILE_RENAME_B with
    | none => simp [hA, hB] at h
    | some cb =>
      by_cases hc : cb = FILE_RENAME_CONTENTS
      · right; exact ⟨cb, rfl, rfl, by rw [hc]; exact htake⟩
      · simp [hA, hB, hc] at h
  | some ca =>
    cases hB : files FILE_RENAME_B with
    | none =>
      by_cases hc : ca = FILE_RENAME_CONTENTS
      · left; exact ⟨ca, rfl, rfl, by rw [hc]; exact htake⟩
      · simp [hA, hB, hc] at h
    | some cb => simp [hA, hB] at h

/-- What `rename_holder` says: which of the two names exists alone with the payload as
its content. -/
theorem rename_holder_iff (files : Files) :
    (rename_holder files = some true ↔
      files FILE_RENAME_A = some FILE_RENAME_CONTENTS ∧ files FILE_RENAME_B = none) ∧
    (rename_holder files = some false ↔
      files FILE_RENAME_A = none ∧ files FILE_RENAME_B = some FILE_RENAME_CONTENTS) := by
  unfold rename_holder
  cases hA : files FILE_RENAME_A with
  | none =>
    cases hB : files FILE_RENAME_B with
    | none => simp
    | some cb =>
      by_cases hc : cb = FILE_RENAME_CONTENTS
      · simp [hc]
      · simp [hc]
  | some ca =>
    cases hB : files FILE_RENAME_B with
    | none =>
      by_cases hc : ca = FILE_RENAME_CONTENTS
      · simp [hc]
      · simp [hc]
    | some cb => simp

/-- One call of `perform_file_rename` in a state in which one of the two names holds
the payload: it returns the outcome of the rename; aborted, it leaves the filesystem as
it is; not aborted, it moves the payload to the other name. -/
theorem perform_file_rename_step (no_space : Bool) (files : Files) (holder : Bool)
    (h : rename_holder files = some holder) :
    ∃ files1, perform_file_rename no_space files = .ok (no_space, files1) ∧
      rename_holder files1 = some (if no_space then holder else !holder) ∧
      (no_space = true → files1 = files) ∧
      (∀ name, name ≠ FILE_RENAME_A → name ≠ FILE_RENAME_B → files1 name = files name) := by
  have hne : FILE_RENAME_A ≠ FILE_RENAME_B := by decide
  cases no_space with
  | true =>
    refine ⟨files, ?_, by simpa using h, fun _ => rfl, fun _ _ _ => rfl⟩
    cases holder with
    | true =>
      obtain ⟨hA, hB⟩ := (rename_holder_iff files).1.mp h
      simp [perform_file_rename, fs_stat, hA, fs_rename, ENOSPC]
    | false =>
      obtain ⟨hA, hB⟩ := (rename_holder_iff files).2.mp h
      simp [perform_file_rename, fs_stat, hA, fs_rename, ENOSPC, ENOENT]
  | false =>
    cases holder with
    | true =>
      obtain ⟨hA, hB⟩ := (rename_holder_iff files).1.mp h
      refine ⟨(files.set FILE_RENAME_B (some FILE_RENAME_CONTENTS)).set FILE_RENAME_A none,
        ?_, ?_, by simp, ?_⟩
      · simp [perform_file_rename, fs_stat, hA, fs_rename, ENOSPC, hne]
      · apply (rename_holder_iff _).2.mpr
        simp [Files.set, hne.symm]
      · intro name h1 h2
        simp [Files.set, h1, h2]
    | false =>
      obtain ⟨hA, hB⟩ := (rename_holder_iff files).2.mp h
      refine ⟨(files.set FILE_RENAME_A (some FILE_RENAME_CONTENTS)).set FILE_RENAME_B none,
        ?_, ?_, by simp, ?_⟩
      · simp [perform_file_rename, fs_stat, hA, hB, fs_rename, ENOSPC, ENOENT, hne.symm]
      · apply (rename_holder_iff _).1.mpr
        simp [Files.set, hne]
      · intro name h1 h2
        simp [Files.set, h1, h2]

/-- A sequence of calls of `perform_file_rename` from a state in which one of the two
names holds the payload. -/
theorem perform_file_rename_run_ok (outcomes : List Bool) :
    ∀ (files : Files) (holder : Bool), rename_holder files = some holder →
      ∃ files1, perform_file_rename_run outcomes files = .ok (outcomes, files1) ∧
        rename_holder files1 = some (holder_after outcomes holder) := by
  induction outcomes with
  | nil => intro files holder h; exact ⟨files, rfl, h⟩
  | cons o rest ih =>
    intro files holder h
    obtain ⟨files1, h1, h2, _⟩ := perform_file_rename_step o files holder h
    obtain ⟨files2, h3, h4⟩ := ih files1 _ h2
    refine ⟨files2, ?_, h4⟩
    simp [perform_file_rename_run, h1, h3]

/-- The state left by `setup_file_rename` on a filesystem without the two names. -/
theorem setup_file_rename_ok (no_space : Bool) (stored : Option Nat) (files0 files1 : Files)
    (hA : files0 FILE_RENAME_A = none) (hB : files0 FILE_RENAME_B = none)
    (hsetup : setup_file_rename no_space stored files0 = .ok files1) :
    rename_holder files1 = some true := by
  have hne : FILE_RENAME_A ≠ FILE_RENAME_B := by decide
  cases no_space with
  | true => simp [setup_file_rename, open_create, ENOSPC] at hsetup
  | false =>
    cases stored with
    | some k =>
      simp [setup_file_rename, open_create, hA, file_write, ENOSPC, FILE_RENAME_LEN_eq]
        at hsetup
    | none =>
      simp [setup_file_rename, open_create, hA, file_write, FILE_RENAME_LEN] at hsetup
      subst hsetup
      apply (rename_holder_iff _).1.mpr
      simp [Files.set, hne.symm, hB]

/-- C14. Over the filesystem model in which `rename` either moves the file in one step
or fails with `ENOSPC` and changes nothing: from the state `setup_file_rename` leaves on
a filesystem without the two names, a sequence of calls of `perform_file_rename` with
any outcomes of the renames (none, one or more calls) runs through without a failed
assertion, each call returning whether its rename was aborted, and afterwards exactly
one of the two names exists and its content is the payload; and in any such state a call
that is not aborted moves the payload to the other name, while an aborted call leaves
the filesystem as it is. -/
theorem swap_rename_invariant (no_space : Bool) (stored : Option Nat) (files0 files1 : Files)
    (outcomes : List Bool)
    (hA : files0 FILE_RENAME_A = none) (hB : files0 FILE_RENAME_B = none)
    (hsetup : setup_file_rename no_space stored files0 = .ok files1) :
    (files1 FILE_RENAME_A = some FILE_RENAME_CONTENTS ∧ files1 FILE_RENAME_B = none) ∧
    (∃ files2, perform_file_rename_run outcomes files1 = .ok (outcomes, files2) ∧
      ((files2 FILE_RENAME_A = some FILE_RENAME_CONTENTS ∧ files2 FILE_RENAME_B = none) ∨
       (files2 FILE_RENAME_A = none ∧ files2 FILE_RENAME_B = some FILE_RENAME_CONTENTS)) ∧
      rename_holder files2 = some (holder_after outcomes true)) ∧
    (∀ (files : Files) (holder : Bool), rename_holder files = some holder →
      (∃ files3, perform_file_rename false files = .ok (false, files3) ∧
        rename_holder files3 = some (!holder)) ∧
      perform_file_rename true files = .ok (true, files)) ∧
    (∀ files : Files,
      (rename_holder files = some true ↔
        files FILE_RENAME_A = some FILE_RENAME_CONTENTS ∧ files FILE_RENAME_B = none) ∧
      (rename_holder files = some false ↔
        files FILE_RENAME_A = none ∧ files FILE_RENAME_B = some FILE_RENAME_CONTENTS)) := by
  have h1 := setup_file_rename_ok no_space stored files0 files1 hA hB hsetup
  refine ⟨(rename_holder_iff files1).1.mp h1, ?_, ?_, rename_holder_iff⟩
  · obtain ⟨files2, h2, h3⟩ := perform_file_rename_run_ok outcomes files1 true h1
    refine ⟨files2, h2, ?_, h3⟩
    cases hh : holder_after outcomes true with
    | true => left; rw [hh] at h3; exact (rename_holder_iff files2).1.mp h3
    | false => right; rw [hh] at h3; exact (rename_holder_iff files2).2.mp h3
  · intro files holder h
    constructor
    · obtain ⟨files3, h2, h3, _⟩ := perform_file_rename_step false files holder h
      exact ⟨files3, h2, by simpa using h3⟩
    · obtain ⟨files3, h2, _, h4, _⟩ := perform_file_rename_step true files holder h
      rw [h4 rfl] at h2
      exact h2

/-- The swap-rename invariant on the empty filesystem, with a successful setup and the
outcomes: renamed, aborted, renamed, renamed; `FILE_RENAME_B` holds the payload at the
end. -/
theorem swap_rename_invariant_witness :
    ∃ files1 files2, setup_file_rename false none (fun _ => none) = .ok files1 ∧
      perform_file_rename_run [false, true, false, false] files1
        = .ok ([false, true, false, false], files2) ∧
      files2 FILE_RENAME_A = none ∧ files2 FILE_RENAME_B = some FILE_RENAME_CONTENTS := by
  have h := swap_rename_invariant false none (fun _ => none) _ [false, true, false, false]
    rfl rfl rfl
  obtain ⟨files2, h2, _, h4⟩ := h.2.1
  exact ⟨_, files2, rfl, h2, (rename_holder_iff files2).2.mp h4⟩


/-! ## The counter scenario -/

theorem directives_FILE_RENAME_REPLACE_FMT :
    directives FILE_RENAME_REPLACE_FMT
      = (bytes "file").map Directive.char ++ (Directive.char 32 ::
        ((bytes "replace").map Directive.char ++ (Directive.char 32 ::
        ((bytes "count:").map Directive.char ++ (Directive.char 32 ::
        [Directive.lu, Directive.char 13, Directive.char 10]))))) := by
  decide

/-- Input white space before other input is skipped. -/
theorem skip_space_append (w r : List Byte) (hw : ∀ c ∈ w, isspace c = true) :
    skip_space (w ++ r) = skip_space r := by
  induction w with
  | nil => rfl
  | cons c w ih =>
    have hc := hw c (List.mem_cons_self _ _)
    simp only [List.cons_append, skip_space, hc, if_true]
    exact ih (fun c hc => hw c (List.mem_cons_of_mem _ hc))

/-- What `skip_space` leaves: the input without its leading white space. -/
theorem skip_space_spec (input : List Byte) :
    ∃ w, (∀ c ∈ w, isspace c = true) ∧ input = w ++ skip_space input ∧
      ∀ c t, skip_space input = c :: t → isspace c = false := by
  induction input with
  | nil => exact ⟨[], by simp, rfl, by simp [skip_space]⟩
  | cons x rest ih =>
    by_cases hx : isspace x = true
    · obtain ⟨w, hw, h1, h2⟩ := ih
      refine ⟨x :: w, ?_, ?_, ?_⟩
      · intro c hc
        rcases List.mem_cons.mp hc with h | h
        · rw [h]; exact hx
        · exact hw c h
      · simp only [skip_space, hx, if_true, List.cons_append]
        rw [← h1]
      · simp only [skip_space, hx, if_true]
        exact h2
    · refine ⟨[], by simp, ?_, ?_⟩
      · simp [skip_space, hx]
      · intro c t h
        simp only [skip_space, hx] at h
        simp only [Bool.false_eq_true, if_false, List.cons.injEq] at h
        rw [← h.1]
        simpa using hx

/-- A word of the format that holds no white space is matched by the same word of the
input and by nothing else, before the first value is stored. -/
theorem sscanf_loop_word (word : List Byte) (hw : ∀ c ∈ word, isspace c = false)
    (ds : List Directive) :
    ∀ input, (sscanf_loop (word.map Directive.char ++ ds) input []).1 = 1 ↔
      ∃ rest, input = word ++ rest ∧ (sscanf_loop ds rest []).1 = 1 := by
  induction word with
  | nil => intro input; simp
  | cons c word ih =>
    intro input
    have hc := hw c (List.mem_cons_self _ _)
    have ih1 := ih (fun c hc => hw c (List.mem_cons_of_mem _ hc))
    cases input with
    | nil => simp [sscanf_loop, hc, EOF]
    | cons x rest =>
      by_cases hx : x = c
      · subst hx
        simp only [List.map_cons, List.cons_append, sscanf_loop, hc, Bool.false_eq_true,
          if_false, if_true, List.cons.injEq, true_and]
        exact ih1 rest
      · simp only [List.map_cons, List.cons_append, sscanf_loop, hc, Bool.false_eq_true,
          if_false, hx, List.cons.injEq, false_and, exists_false, iff_false]
        simp

/-- A white-space directive skips the white space of the input. -/
theorem sscanf_loop_space (c : Byte) (hc : isspace c = true) (ds : List Directive)
    (input : List Byte) (assigned : List Nat) :
    sscanf_loop (Directive.char c :: ds) input assigned
      = sscanf_loop ds (skip_space input) assigned := by
  simp [sscanf_loop, hc]

/-- The end of the format, `%lu\r\n`: the result is 1 exactly when the conversion finds
its item; what follows the item in the input has no part in it. -/
theorem sscanf_loop_lu (input : List Byte) :
    (sscanf_loop [Directive.lu, Directive.char 13, Directive.char 10] input []).1 = 1 ↔
      ∃ n rest, scan_lu input = .value n rest := by
  have h13 : isspace 13 = true := by decide
  have h10 : isspace 10 = true := by decide
  cases h : scan_lu input with
  | input_failure => simp [sscanf_loop, h, EOF]
  | matching_failure => simp [sscanf_loop, h]
  | value n rest => simp [sscanf_loop, h, h13, h10]

/-- The conversion `%lu` finds its item exactly in an input that is white space, an
optional sign, a digit, and anything after it. -/
theorem scan_lu_value_iff (input : List Byte) :
    (∃ n rest, scan_lu input = .value n rest) ↔
      ∃ w sign d rest, (∀ c ∈ w, isspace c = true) ∧
        (sign = [] ∨ sign = [43] ∨ sign = [45]) ∧ isdigit d = true ∧
        input = w ++ (sign ++ d :: rest) := by
  constructor
  · rintro ⟨n, rest, h⟩
    obtain ⟨w, hw, h1, h2⟩ := skip_space_spec input
    unfold scan_lu at h
    cases hs : skip_space input with
    | nil => simp [hs] at h
    | cons c t =>
      rw [hs] at h h1
      by_cases hsign : c = 43 ∨ c = 45
      · simp only [hsign, if_true] at h
        cases t with
        | nil => simp at h
        | cons d t1 =>
          by_cases hd : isdigit d = true
          · refine ⟨w, [c], d, t1, hw, ?_, hd, ?_⟩
            · rcases hsign with h43 | h45
              · right; left; rw [h43]
              · right; right; rw [h45]
            · simpa using h1
          · simp [hd] at h
      · simp only [hsign, if_false] at h
        by_cases hd : isdigit c = true
        · exact ⟨w, [], c, t, hw, Or.inl rfl, hd, by simpa using h1⟩
        · simp [hd] at h
  · rintro ⟨w, sign, d, rest, hw, hsign, hd, rfl⟩
    have hdv : 48 ≤ d.val ∧ d.val ≤ 57 := by simpa [isdigit] using hd
    have hd1 : isspace d = false := by
      simp only [isspace, decide_eq_false_iff_not]; omega
    have hd2 : ¬ (d = 43 ∨ d = 45) := by
      rintro (h | h) <;> · rw [h] at hdv; exact absurd hdv (by decide)
    unfold scan_lu
    rw [skip_space_append w _ hw]
    rcases hsign with h | h | h
    · subst h
      simp [skip_space, hd1, hd2, hd]
    · subst h
      have : isspace 43 = false := by decide
      simp [skip_space, this, hd]
    · subst h
      have : isspace 45 = false := by decide
      simp [skip_space, this, hd]

/-- Skipping white space twice is skipping it once. -/
theorem skip_space_idem (input : List Byte) : skip_space (skip_space input) = skip_space input := by
  induction input with
  | nil => rfl
  | cons c rest ih =>
    by_cases hc : isspace c = true
    · simp only [skip_space, hc, if_true]; exact ih
    · simp only [skip_space, hc, Bool.false_eq_true, if_false]

/-- The conversion `%lu` after skipped white space. -/
theorem scan_lu_skip_space (input : List Byte) : scan_lu (skip_space input) = scan_lu input := by
  unfold scan_lu
  rw [skip_space_idem]

set_option maxRecDepth 1000000 in
/-- The inputs from which `sscanf` with `FILE_RENAME_REPLACE_FMT` stores a count: the
words `file`, `replace` and `count:`, separated by any white space or none, then any
white space or none, an optional sign and a digit; what follows the digit is free. -/
theorem sscanf_record_iff (str : List Byte) :
    (sscanf str FILE_RENAME_REPLACE_FMT).1 = 1 ↔
      ∃ w1 w2 w3 sign d rest,
        (∀ c ∈ w1, isspace c = true) ∧ (∀ c ∈ w2, isspace c = true) ∧
        (∀ c ∈ w3, isspace c = true) ∧
        (sign = [] ∨ sign = [43] ∨ sign = [45]) ∧ isdigit d = true ∧
        str = bytes "file" ++ (w1 ++ (bytes "replace" ++ (w2 ++ (bytes "count:" ++
          (w3 ++ (sign ++ d :: rest)))))) := by
  have hf : ∀ c ∈ bytes "file", isspace c = false := by decide
  have hr : ∀ c ∈ bytes "replace", isspace c = false := by decide
  have hc : ∀ c ∈ bytes "count:", isspace c = false := by decide
  have h32 : isspace 32 = true := by decide
  have hsr : ∀ r, skip_space (bytes "replace" ++ r) = bytes "replace" ++ r := fun _ => rfl
  have hsc : ∀ r, skip_space (bytes "count:" ++ r) = bytes "count:" ++ r := fun _ => rfl
  unfold sscanf
  rw [directives_FILE_RENAME_REPLACE_FMT, sscanf_loop_word _ hf]
  constructor
  · rintro ⟨r1, rfl, h⟩
    rw [sscanf_loop_space _ h32, sscanf_loop_word _ hr] at h
    obtain ⟨r2, h2, h⟩ := h
    rw [sscanf_loop_space _ h32, sscanf_loop_word _ hc] at h
    obtain ⟨r3, h3, h⟩ := h
    rw [sscanf_loop_space _ h32, sscanf_loop_lu, scan_lu_value_iff] at h
    obtain ⟨w, sign, d, rest, hw, hsign, hd, h4⟩ := h
    obtain ⟨w1, hw1, e1, _⟩ := skip_space_spec r1
    obtain ⟨w2, hw2, e2, _⟩ := skip_space_spec r2
    obtain ⟨w3, hw3, e3, _⟩ := skip_space_spec r3
    refine ⟨w1, w2, w3 ++ w, sign, d, rest, hw1, hw2, ?_, hsign, hd, ?_⟩
    · intro c hc
      rcases List.mem_append.mp hc with h | h
      · exact hw3 c h
      · exact hw c h
    · rw [e1, h2, e2, h3, e3, h4]
      simp only [List.append_assoc]
  · rintro ⟨w1, w2, w3, sign, d, rest, hw1, hw2, hw3, hsign, hd, rfl⟩
    refine ⟨_, rfl, ?_⟩
    rw [sscanf_loop_space _ h32, skip_space_append _ _ hw1, hsr, sscanf_loop_word _ hr]
    refine ⟨_, rfl, ?_⟩
    rw [sscanf_loop_space _ h32, skip_space_append _ _ hw2, hsc, sscanf_loop_word _ hc]
    refine ⟨_, rfl, ?_⟩
    rw [sscanf_loop_space _ h32, sscanf_loop_lu]
    have := (scan_lu_value_iff (w3 ++ (sign ++ d :: rest))).mpr
      ⟨w3, sign, d, rest, hw3, hsign, hd, rfl⟩
    rw [scan_lu_skip_space]
    exact this

/-- The character of a decimal digit. -/
theorem digit_char (k : Nat) (hk : k < 10) :
    ((Fin.ofNat (48 + k) : Byte)).val = 48 + k := by
  show (48 + k) % 256 = 48 + k
  omega

/-- The character of a decimal digit is a digit. -/
theorem digit_isdigit (k : Nat) (hk : k < 10) : isdigit (Fin.ofNat (48 + k) : Byte) = true := by
  simp only [isdigit, digit_char k hk, decide_eq_true_eq]
  omega

/-- The digits `decimal_digits` writes are digits, and there is at least one. -/
theorem decimal_digits_digits (width : Nat) :
    ∀ n, (∀ c ∈ decimal_digits (width + 1) n, isdigit c = true) ∧
      decimal_digits (width + 1) n ≠ [] ∧ (decimal_digits (width + 1) n).length ≤ width + 1 := by
  induction width with
  | zero =>
    intro n
    by_cases hn : n < 10
    · simp [decimal_digits, hn, digit_isdigit n hn]
    · have h10 : n % 10 < 10 := Nat.mod_lt _ (by decide)
      simp [decimal_digits, hn, digit_isdigit _ h10]
  | succ width ih =>
    intro n
    by_cases hn : n < 10
    · have : decimal_digits (width + 1 + 1) n = [Fin.ofNat (48 + n)] := by
        simp [decimal_digits, hn]
      rw [this]
      simp [digit_isdigit n hn]
    · have h10 : n % 10 < 10 := Nat.mod_lt _ (by decide)
      have : decimal_digits (width + 1 + 1) n
          = decimal_digits (width + 1) (n / 10) ++ [Fin.ofNat (48 + n % 10)] := by
        rw [decimal_digits, if_neg hn]
      rw [this]
      obtain ⟨h1, h2, h3⟩ := ih (n / 10)
      refine ⟨?_, by simp, ?_⟩
      · intro c hc
        rcases List.mem_append.mp hc with h | h
        · exact h1 c h
        · simp only [List.mem_singleton] at h
          rw [h]
          exact digit_isdigit _ h10
      · simp only [List.length_append, List.length_singleton]
        omega

/-- Reading the digits `decimal_digits` writes gives the number back. -/
theorem decimal_digits_value (width : Nat) :
    ∀ n, n < 10 ^ width →
      (decimal_digits width n).foldl (fun a (c : Byte) => a * 10 + (c.val - 48)) 0 = n := by
  induction width with
  | zero => intro n hn; simp at hn; subst hn; rfl
  | succ width ih =>
    intro n hn
    by_cases h : n < 10
    · simp [decimal_digits, h, digit_char n h]
    · have h10 : n % 10 < 10 := Nat.mod_lt _ (by decide)
      have hdiv : n / 10 < 10 ^ width := by
        rw [Nat.div_lt_iff_lt_mul (by decide)]
        rw [pow_succ] at hn
        exact hn
      rw [decimal_digits, if_neg h, List.foldl_append, ih _ hdiv]
      simp only [List.foldl_cons, List.foldl_nil, digit_char _ h10]
      omega

/-- A run of digits at the beginning of the input is read to its end. -/
theorem scan_digits_append (ds rest : List Byte) (hds : ∀ c ∈ ds, isdigit c = true) :
    ∀ acc, scan_digits acc (ds ++ rest)
      = scan_digits (ds.foldl (fun a (c : Byte) => a * 10 + (c.val - 48)) acc) rest := by
  induction ds with
  | nil => intro acc; rfl
  | cons d ds ih =>
    intro acc
    have hd := hds d (List.mem_cons_self _ _)
    simp only [List.cons_append, scan_digits, hd, if_true, List.foldl_cons]
    exact ih (fun c hc => hds c (List.mem_cons_of_mem _ hc)) _

/-- The digits of a count below `2^32`: digits, at least one and at most ten, and their
value is the count. -/
theorem decimal_facts (n : Nat) (hn : n < U32) :
    (∀ c ∈ decimal n, isdigit c = true) ∧ decimal n ≠ [] ∧ (decimal n).length ≤ 10 ∧
      (decimal n).foldl (fun a (c : Byte) => a * 10 + (c.val - 48)) 0 = n := by
  have hmod : n % U32 = n := Nat.mod_eq_of_lt hn
  obtain ⟨h1, h2, h3⟩ := decimal_digits_digits 9 n
  have h4 := decimal_digits_value 10 n (lt_trans hn (by decide))
  unfold decimal
  rw [hmod]
  exact ⟨h1, h2, h3, h4⟩

/-- The conversion `%lu` on an input that begins with a digit. -/
theorem scan_lu_digit (d : Byte) (t : List Byte) (hd : isdigit d = true) :
    scan_lu (d :: t)
      = .value ((scan_digits 0 (d :: t)).1 % U32) (scan_digits 0 (d :: t)).2 := by
  have hdv : 48 ≤ d.val ∧ d.val ≤ 57 := by simpa [isdigit] using hd
  have hd1 : isspace d = false := by
    simp only [isspace, decide_eq_false_iff_not]; omega
  have hd2 : ¬ (d = 43 ∨ d = 45) := by
    rintro (h | h) <;> · rw [h] at hdv; exact absurd hdv (by decide)
  have hd3 : ¬ d = 45 := fun h => hd2 (Or.inr h)
  have hs : skip_space (d :: t) = d :: t := by simp [skip_space, hd1]
  unfold scan_lu
  rw [hs]
  dsimp only
  rw [if_neg hd2]
  dsimp only
  rw [if_pos hd, if_neg hd3]

/-- The conversion `%lu` on the digits of a count, followed by the line terminator. -/
theorem scan_lu_decimal (n : Nat) (hn : n < U32) :
    scan_lu (decimal n ++ [13, 10]) = .value n [13, 10] := by
  obtain ⟨h1, h2, _, h4⟩ := decimal_facts n hn
  have hscan := scan_digits_append (decimal n) [13, 10] h1 0
  rw [h4] at hscan
  have h13 : isdigit 13 = false := by decide
  have hscan2 : scan_digits n [13, 10] = (n, [13, 10]) := by
    simp [scan_digits, h13]
  rw [hscan2] at hscan
  cases hd : decimal n with
  | nil => exact absurd hd h2
  | cons d ds =>
    rw [hd] at hscan h1
    have hdig := h1 d (List.mem_cons_self _ _)
    rw [List.cons_append] at hscan ⊢
    rw [scan_lu_digit d _ hdig, hscan]
    simp [Nat.mod_eq_of_lt hn]

/-- A word of the format that holds no white space consumes the same word of the
input. -/
theorem sscanf_loop_word_eq (word : List Byte) (hw : ∀ c ∈ word, isspace c = false)
    (ds : List Directive) (rest : List Byte) (assigned : List Nat) :
    sscanf_loop (word.map Directive.char ++ ds) (word ++ rest) assigned
      = sscanf_loop ds rest assigned := by
  induction word with
  | nil => rfl
  | cons c word ih =>
    have hc := hw c (List.mem_cons_self _ _)
    simp only [List.map_cons, List.cons_append, sscanf_loop, hc, Bool.false_eq_true, if_false,
      if_true]
    exact ih (fun c hc => hw c (List.mem_cons_of_mem _ hc))

set_option maxRecDepth 1000000 in
/-- The record `sprintf` writes for a count is the complete record, and `sscanf` reads
the count back from it. -/
theorem sscanf_count_record (n : Nat) (hn : n < U32) :
    sprintf FILE_RENAME_REPLACE_FMT n = count_record n ∧
    sscanf (count_record n) FILE_RENAME_REPLACE_FMT = (1, [n]) := by
  have hf : ∀ c ∈ bytes "file", isspace c = false := by decide
  have hr : ∀ c ∈ bytes "replace", isspace c = false := by decide
  have hc : ∀ c ∈ bytes "count:", isspace c = false := by decide
  have h32 : isspace 32 = true := by decide
  have h13 : isspace 13 = true := by decide
  have h10 : isspace 10 = true := by decide
  have hb : bytes "file replace count: " = [102, 105, 108, 101, 32, 114, 101, 112, 108, 97,
      99, 101, 32, 99, 111, 117, 110, 116, 58, 32] := by decide
  have h1 : bytes "file" = [102, 105, 108, 101] := by decide
  have h2 : bytes "replace" = [114, 101, 112, 108, 97, 99, 101] := by decide
  have h3 : bytes "count:" = [99, 111, 117, 110, 116, 58] := by decide
  have h4 : bytes "\r\n" = [13, 10] := by decide
  have e : count_record n = bytes "file" ++ (32 :: (bytes "replace" ++ (32 ::
      (bytes "count:" ++ (32 :: (decimal n ++ [13, 10])))))) := by
    unfold count_record
    rw [hb, h1, h2, h3, h4]
    simp only [List.cons_append, List.nil_append, List.append_assoc]
  constructor
  · unfold sprintf
    rw [directives_FILE_RENAME_REPLACE_FMT, e, h1, h2, h3]
    simp only [List.map_cons, List.map_nil, List.cons_append, List.nil_append, sprintf_loop,
      List.append_nil]
  · have hlu := scan_lu_decimal n hn
    rw [← scan_lu_skip_space] at hlu
    have s1 : ∀ X, skip_space (32 :: (bytes "replace" ++ X)) = bytes "replace" ++ X :=
      fun _ => rfl
    have s2 : ∀ X, skip_space (32 :: (bytes "count:" ++ X)) = bytes "count:" ++ X :=
      fun _ => rfl
    have s3 : ∀ X, skip_space (32 :: X) = skip_space X := fun _ => rfl
    unfold sscanf
    rw [directives_FILE_RENAME_REPLACE_FMT, e, sscanf_loop_word_eq _ hf,
      sscanf_loop_space _ h32, s1, sscanf_loop_word_eq _ hr, sscanf_loop_space _ h32, s2,
      sscanf_loop_word_eq _ hc, sscanf_loop_space _ h32, s3]
    simp only [sscanf_loop, hlu, h13, h10, if_true, List.nil_append, List.length_singleton]
    rfl

/-- The C string of a buffer that holds bytes other than NUL and then a NUL. -/
theorem c_string_append_zero (s t : List Byte) (hs : ∀ c ∈ s, c ≠ 0) :
    c_string (s ++ 0 :: t) = some s := by
  induction s with
  | nil => simp [c_string]
  | cons c s ih =>
    have hc := hs c (List.mem_cons_self _ _)
    have ih1 := ih (fun c hc => hs c (List.mem_cons_of_mem _ hc))
    rw [List.cons_append, c_string, if_neg hc, ih1]
    rfl

/-- The bytes of the C string of a buffer are bytes of the buffer, and none is NUL. -/
theorem c_string_mem : ∀ (b s : List Byte), c_string b = some s → ∀ c ∈ s, c ∈ b ∧ c ≠ 0 := by
  intro b
  induction b with
  | nil => intro s h; simp [c_string] at h
  | cons x b ih =>
    intro s h c hc
    by_cases hx : x = 0
    · simp [c_string, hx] at h
      subst h
      simp at hc
    · simp only [c_string, hx, if_false] at h
      cases hb : c_string b with
      | none => simp [hb] at h
      | some s1 =>
        simp only [hb, Option.map_some', Option.some.injEq] at h
        subst h
        rcases List.mem_cons.mp hc with h1 | h1
        · rw [h1]; exact ⟨List.mem_cons_self _ _, hx⟩
        · exact ⟨List.mem_cons_of_mem _ (ih s1 hb c h1).1, (ih s1 hb c h1).2⟩

/-- The buffer after a `read` of fewer than 1024 bytes, none of them NUL, holds these
bytes as its C string. -/
theorem c_string_buffer_with (data : List Byte) (hd : ∀ c ∈ data, c ≠ 0)
    (hlen : data.length < 1024) : c_string (buffer_with data) = some data := by
  unfold buffer_with
  have : 1024 - data.length = (1023 - data.length) + 1 := by omega
  rw [this, List.replicate_succ]
  exact c_string_append_zero data _ hd

/-- The bytes of the C string of the buffer after a `read` are bytes that were read. -/
theorem c_string_buffer_with_mem (data s : List Byte) (h : c_string (buffer_with data) = some s) :
    ∀ c ∈ s, c ∈ data := by
  intro c hc
  obtain ⟨h1, h2⟩ := c_string_mem _ _ h c hc
  unfold buffer_with at h1
  rcases List.mem_append.mp h1 with h3 | h3
  · exact h3
  · exact absurd (List.eq_of_mem_replicate h3) h2

/-- When `check_file_rename_replace` passes: the stable file exists, and `sscanf` stores
a count from the C string its first 1024 bytes leave in the buffer. -/
theorem check_file_rename_replace_ok_iff (files : Files) :
    check_file_rename_replace files = .ok files ↔
      ∃ content str, files FILE_RENAME_REPLACE = some content ∧
        c_string (buffer_with (content.take 1024)) = some str ∧
        (sscanf str FILE_RENAME_REPLACE_FMT).1 = 1 := by
  cases hS : files FILE_RENAME_REPLACE with
  | none => simp [check_file_rename_replace, open_rdonly, hS, ENOENT]
  | some content =>
    have hopen : open_rdonly files FILE_RENAME_REPLACE = 0 := by simp [open_rdonly, hS]
    have hread : file_read files FILE_RENAME_REPLACE 1024 = content.take 1024 := by
      simp [file_read, hS]
    have hempty : c_string (buffer_with []) = some [] := rfl
    have hnone : (sscanf [] FILE_RENAME_REPLACE_FMT).1 ≠ 1 := by decide
    constructor
    · intro h
      unfold check_file_rename_replace at h
      simp only [hopen, hread, ne_eq, not_true_eq_false, if_false] at h
      by_cases hlen : ((content.take 1024).length : Int) > 0
      · rw [if_neg (not_not.mpr hlen)] at h
        cases hc : c_string (buffer_with (content.take 1024)) with
        | none => rw [hc] at h; cases h
        | some str =>
          rw [hc] at h
          by_cases hs : (sscanf str FILE_RENAME_REPLACE_FMT).1 = 1
          · exact ⟨content, str, rfl, hc, hs⟩
          · dsimp only at h
            rw [if_pos hs] at h
            cases h
      · rw [if_pos hlen] at h
        cases h
    · rintro ⟨content1, str, h1, h2, h3⟩
      cases h1
      have hlen : ((content.take 1024).length : Int) > 0 := by
        by_contra hlen
        have hnil : content.take 1024 = [] := by
          have : (content.take 1024).length = 0 := by omega
          exact List.length_eq_zero.mp this
        rw [hnil, hempty] at h2
        cases h2
        exact hnone h3
      unfold check_file_rename_replace
      simp only [hopen, hread, ne_eq, not_true_eq_false, if_false]
      rw [if_neg (not_not.mpr hlen), h2]
      dsimp only
      rw [if_neg (not_not.mpr h3)]

set_option maxRecDepth 1000000 in
/-- The complete record of a count below `2^32`: at most 32 bytes, none of them NUL, so
that the buffer holds it whole as its C string. -/
theorem count_record_facts (n : Nat) (hn : n < U32) :
    (∀ c ∈ count_record n, c ≠ 0) ∧ 22 < (count_record n).length ∧
      (count_record n).length ≤ 32 ∧
      c_string (buffer_with ((count_record n).take 1024)) = some (count_record n) := by
  obtain ⟨h1, h2, h3, _⟩ := decimal_facts n hn
  have hlit : ∀ c ∈ bytes "file replace count: ", c ≠ 0 := by decide
  have hend : ∀ c ∈ bytes "\r\n", c ≠ 0 := by decide
  have hl1 : (bytes "file replace count: ").length = 20 := by decide
  have hl2 : (bytes "\r\n").length = 2 := by decide
  have hpos : 0 < (decimal n).length := List.length_pos.mpr h2
  have hlen : (count_record n).length = 22 + (decimal n).length := by
    simp only [count_record, List.length_append, hl1, hl2]
    omega
  have hz : ∀ c ∈ count_record n, c ≠ 0 := by
    intro c hc
    simp only [count_record, List.mem_append] at hc
    rcases hc with (h | h) | h
    · exact hlit c h
    · intro h0
      have := h1 c h
      rw [h0] at this
      exact absurd this (by decide)
    · exact hend c h
  refine ⟨hz, by omega, by omega, ?_⟩
  rw [List.take_of_length_le (by omega)]
  exact c_string_buffer_with _ hz (by omega)

set_option maxRecDepth 1000000 in
/-- C20 (as the code has it). The stable file holds `file replace count: 1`, which is
the record of the count 1 without its line terminator and also the record of the count
12 cut off after 21 bytes, or it holds the record of the count 7 without its line
terminator and with other bytes after it: the check passes each time, although neither
content is the complete record of any count. -/
theorem check_file_rename_replace_accepts_cut_record :
    check_file_rename_replace (stable_file (bytes "file replace count: 1"))
      = .ok (stable_file (bytes "file replace count: 1")) ∧
    check_file_rename_replace (stable_file (bytes "file replace count: 7 and more"))
      = .ok (stable_file (bytes "file replace count: 7 and more")) ∧
    (count_record 12).take 21 = bytes "file replace count: 1" ∧
    (count_record 1).take 21 = bytes "file replace count: 1" ∧
    (∀ n, count_record n ≠ bytes "file replace count: 1") ∧
    (∀ n, count_record n ≠ bytes "file replace count: 7 and more") := by
  have hlast : ∀ n, (count_record n).getLast? = some 10 := by
    intro n
    simp [count_record, show bytes "\r\n" = [13, 10] from by decide]
  refine ⟨?_, ?_, by decide, by decide, ?_, ?_⟩
  · exact (check_file_rename_replace_ok_iff _).mpr
      ⟨bytes "file replace count: 1", bytes "file replace count: 1", by decide, by decide,
        by decide⟩
  · exact (check_file_rename_replace_ok_iff _).mpr
      ⟨bytes "file replace count: 7 and more", bytes "file replace count: 7 and more",
        by decide, by decide, by decide⟩
  · intro n h
    have h1 := hlast n
    rw [h] at h1
    exact absurd h1 (by decide)
  · intro n h
    have h1 := hlast n
    rw [h] at h1
    exact absurd h1 (by decide)

set_option maxRecDepth 1000000 in
/-- C20 (amended). For every filesystem state, `check_file_rename_replace` passes if
and only if the stable file exists and the C string that its first 1024 bytes leave in
the zeroed buffer (the bytes before the first NUL; all of a content of fewer than 1024
bytes without a NUL) consists of the words `file`, `replace` and `count:`, each followed
by any white space or none, then an optional sign and a decimal digit, then anything.
So it passes for the complete record of every count below `2^32`; it rejects a missing
file, and every content without a digit, among them the empty one and every truncation
of a record before its first digit. -/
theorem check_file_rename_replace_iff (files : Files) :
    (check_file_rename_replace files = .ok files ↔
      ∃ content str w1 w2 w3 sign d rest,
        files FILE_RENAME_REPLACE = some content ∧
        c_string (buffer_with (content.take 1024)) = some str ∧
        (∀ c ∈ w1, isspace c = true) ∧ (∀ c ∈ w2, isspace c = true) ∧
        (∀ c ∈ w3, isspace c = true) ∧
        (sign = [] ∨ sign = [43] ∨ sign = [45]) ∧ isdigit d = true ∧
        str = bytes "file" ++ (w1 ++ (bytes "replace" ++ (w2 ++ (bytes "count:" ++
          (w3 ++ (sign ++ d :: rest))))))) ∧
    (∀ content : List Byte, (∀ c ∈ content, c ≠ 0) → content.length < 1024 →
      c_string (buffer_with (content.take 1024)) = some content) ∧
    (∀ n, n < U32 → files FILE_RENAME_REPLACE = some (count_record n) →
      check_file_rename_replace files = .ok files) ∧
    (files FILE_RENAME_REPLACE = none →
      check_file_rename_replace files = .error .assertion) ∧
    (∀ content, files FILE_RENAME_REPLACE = some content →
      (∀ c ∈ content, isdigit c = false) → check_file_rename_replace files ≠ .ok files) ∧
    (∀ n k, k ≤ 20 → files FILE_RENAME_REPLACE = some ((count_record n).take k) →
      check_file_rename_replace files ≠ .ok files) := by
  have hiff : check_file_rename_replace files = .ok files ↔
      ∃ content str w1 w2 w3 sign d rest,
        files FILE_RENAME_REPLACE = some content ∧
        c_string (buffer_with (content.take 1024)) = some str ∧
        (∀ c ∈ w1, isspace c = true) ∧ (∀ c ∈ w2, isspace c = true) ∧
        (∀ c ∈ w3, isspace c = true) ∧
        (sign = [] ∨ sign = [43] ∨ sign = [45]) ∧ isdigit d = true ∧
        str = bytes "file" ++ (w1 ++ (bytes "replace" ++ (w2 ++ (bytes "count:" ++
          (w3 ++ (sign ++ d :: rest)))))) := by
    rw [check_file_rename_replace_ok_iff]
    constructor
    · rintro ⟨content, str, h1, h2, h3⟩
      obtain ⟨w1, w2, w3, sign, d, rest, h4⟩ := (sscanf_record_iff str).mp h3
      exact ⟨content, str, w1, w2, w3, sign, d, rest, h1, h2, h4⟩
    · rintro ⟨content, str, w1, w2, w3, sign, d, rest, h1, h2, h4⟩
      exact ⟨content, str, h1, h2, (sscanf_record_iff str).mpr ⟨w1, w2, w3, sign, d, rest, h4⟩⟩
  have hnodigit : ∀ content, files FILE_RENAME_REPLACE = some content →
      (∀ c ∈ content, isdigit c = false) → check_file_rename_replace files ≠ .ok files := by
    intro content hS hno hok
    obtain ⟨content1, str, w1, w2, w3, sign, d, rest, h1, h2, _, _, _, _, hd, hstr⟩ :=
      hiff.mp hok
    rw [hS] at h1
    cases h1
    have hmem : d ∈ str := by
      rw [hstr]
      simp
    have h3 := c_string_buffer_with_mem _ _ h2 d hmem
    have h4 := hno d (List.mem_of_mem_take h3)
    rw [hd] at h4
    cases h4
  refine ⟨hiff, ?_, ?_, ?_, hnodigit, ?_⟩
  · intro content hz hlen
    rw [List.take_of_length_le (by omega)]
    exact c_string_buffer_with content hz hlen
  · intro n hn hS
    exact (check_file_rename_replace_ok_iff files).mpr
      ⟨count_record n, count_record n, hS, (count_record_facts n hn).2.2.2,
        by rw [(sscanf_count_record n hn).2]⟩
  · intro hS
    simp [check_file_rename_replace, open_rdonly, hS, ENOENT]
  · intro n k hk hS
    apply hnodigit _ hS
    have hl1 : (bytes "file replace count: ").length = 20 := by decide
    have hlit : ∀ c ∈ bytes "file replace count: ", isdigit c = false := by decide
    intro c hc
    unfold count_record at hc
    rw [List.append_assoc, List.take_append_of_le_length (by omega)] at hc
    exact hlit c (List.mem_of_mem_take hc)

/-- A successful `open` for writing: the file exists afterwards, with the content it
had, or empty; the other files are as before. -/
theorem open_create_ok (files : Files) (path : String) :
    ∃ files1, open_create false files path = (0, files1) ∧
      files1 path = some ((files path).getD []) ∧ ∀ q, q ≠ path → files1 q = files q := by
  cases h : files path with
  | none =>
    refine ⟨files.set path (some []), by simp [open_create, h], by simp [Files.set], ?_⟩
    intro q hq
    simp [Files.set, hq]
  | some c =>
    exact ⟨files, by simp [open_create, h], by simp [h], fun _ _ => rfl⟩

set_option maxRecDepth 1000000 in
/-- One call of `perform_file_rename_replace` in a state of the counter scenario: it
returns whether one of its three calls ran out of space; if so the stable file is as
before, if not the stable file holds the record of the next count; and the state is
again a state of the scenario. -/
theorem perform_file_rename_replace_step (o : Outcomes) (files : Files) (n : Nat)
    (h : counter_state files n) :
    ∃ files1, perform_file_rename_replace o files = .ok (o.aborted, files1) ∧
      counter_state files1 (if o.aborted then n else (n + 1) % U32) ∧
      (o.aborted = true → files1 FILE_RENAME_REPLACE = files FILE_RENAME_REPLACE) ∧
      (o.aborted = false →
        files1 FILE_RENAME_REPLACE = some (count_record ((n + 1) % U32)) ∧
        files1 FILE_RENAME_REPLACE_NEW = none) ∧
      ∀ q, q ≠ FILE_RENAME_REPLACE → q ≠ FILE_RENAME_REPLACE_NEW → files1 q = files q := by
  obtain ⟨hn, hS, hN⟩ := h
  have hne : FILE_RENAME_REPLACE_NEW ≠ FILE_RENAME_REPLACE := by decide
  have hnext : (n + 1) % U32 < U32 := Nat.mod_lt _ (by decide)
  obtain ⟨_, hlen1, hlen2, hcs⟩ := count_record_facts n hn
  obtain ⟨_, hlen3, hlen4, _⟩ := count_record_facts ((n + 1) % U32) hnext
  obtain ⟨hsprintf, _⟩ := sscanf_count_record ((n + 1) % U32) hnext
  obtain ⟨_, hscan⟩ := sscanf_count_record n hn
  have hopen : open_rdonly files FILE_RENAME_REPLACE = 0 := by simp [open_rdonly, hS]
  have hread : file_read files FILE_RENAME_REPLACE 1024 = (count_record n).take 1024 := by
    simp [file_read, hS]
  have htake : (count_record n).take 1024 = count_record n :=
    List.take_of_length_le (by omega)
  have hpos : (((count_record n).take 1024).length : Int) > 0 := by
    rw [htake]; omega
  have hpos2 : (((count_record ((n + 1) % U32)).length : Nat) : Int) > 0 := by omega
  have hcount : ([n].headD 0 % U32 + 1) % U32 = (n + 1) % U32 := by
    simp [Nat.mod_eq_of_lt hn]
  have hspace : ∀ m : Nat, ¬ (-ENOSPC = (m : Int)) := by
    intro m; simp only [ENOSPC]; omega
  unfold perform_file_rename_replace
  simp only [hopen, hread, ne_eq, not_true_eq_false, if_false]
  rw [if_neg (not_not.mpr hpos), hcs]
  simp only [hscan, not_true_eq_false, if_false, hcount, hsprintf]
  rw [if_neg (not_not.mpr hpos2)]
  obtain ⟨ons, ws, rns⟩ := o
  cases ons with
  | true =>
    refine ⟨files, by simp [open_create, Outcomes.aborted],
      by simpa [Outcomes.aborted] using ⟨hn, hS, hN⟩, fun _ => rfl,
      by simp [Outcomes.aborted], fun _ _ _ => rfl⟩
  | false =>
    obtain ⟨files1, ho, hp, hfr⟩ := open_create_ok files FILE_RENAME_REPLACE_NEW
    have hS1 : files1 FILE_RENAME_REPLACE = some (count_record n) := by
      rw [hfr _ hne.symm, hS]
    have hold : ((files1 FILE_RENAME_REPLACE_NEW).getD []).length
        ≤ (count_record ((n + 1) % U32)).length := by
      rw [hp]
      cases hc : files FILE_RENAME_REPLACE_NEW with
      | none => simp
      | some c => simpa using hN c hc
    simp only [ho]
    cases ws with
    | some k =>
      refine ⟨files1.set FILE_RENAME_REPLACE_NEW
          (some (List.take k (count_record ((n + 1) % U32)) ++
            List.drop (List.take k (count_record ((n + 1) % U32))).length
              ((files1 FILE_RENAME_REPLACE_NEW).getD []))),
        by simp [file_write, ENOSPC, Outcomes.aborted], ?_, ?_,
        by simp [Outcomes.aborted], ?_⟩
      · simp only [Outcomes.aborted, Bool.false_or, Option.isSome_some, Bool.true_or, if_true]
        refine ⟨hn, by simp [Files.set, hne.symm, hS1], ?_⟩
        intro content hc
        simp only [Files.set, if_true, Option.some.injEq] at hc
        rw [← hc]
        simp only [List.length_append, List.length_drop, List.length_take]
        omega
      · intro _
        simp [Files.set, hne.symm, hS1, hS]
      · intro q h1 h2
        simp [Files.set, h2, hfr q h2]
    | none =>
      have hdrop : List.drop (count_record ((n + 1) % U32)).length
          ((files1 FILE_RENAME_REPLACE_NEW).getD []) = [] :=
        List.drop_eq_nil_of_le hold
      have hw : file_write none files1 FILE_RENAME_REPLACE_NEW (count_record ((n + 1) % U32))
          = (((count_record ((n + 1) % U32)).length : Int),
              files1.set FILE_RENAME_REPLACE_NEW (some (count_record ((n + 1) % U32)))) := by
        simp [file_write, hdrop]
      simp only [hw, hspace, if_false, not_true_eq_false]
      cases rns with
      | true =>
        refine ⟨files1.set FILE_RENAME_REPLACE_NEW (some (count_record ((n + 1) % U32))),
          by simp [fs_rename, ENOSPC, Outcomes.aborted], ?_, ?_,
          by simp [Outcomes.aborted], ?_⟩
        · simp only [Outcomes.aborted, Bool.false_or, Option.isSome_none, Bool.or_true,
            if_true]
          refine ⟨hn, by simp [Files.set, hne.symm, hS1], ?_⟩
          intro content hc
          simp only [Files.set, if_true, Option.some.injEq] at hc
          rw [← hc]
        · intro _
          simp [Files.set, hne.symm, hS1, hS]
        · intro q h1 h2
          simp [Files.set, h2, hfr q h2]
      | false =>
        refine ⟨((files1.set FILE_RENAME_REPLACE_NEW (some (count_record ((n + 1) % U32)))).set
            FILE_RENAME_REPLACE (some (count_record ((n + 1) % U32)))).set
            FILE_RENAME_REPLACE_NEW none, ?_, ?_, by simp [Outcomes.aborted], ?_, ?_⟩
        · simp [fs_rename, ENOSPC, Outcomes.aborted, Files.set, hne]
        · simp only [Outcomes.aborted, Bool.false_or, Option.isSome_none, Bool.or_false,
            Bool.false_eq_true, if_false]
          refine ⟨hnext, by simp [Files.set, hne.symm], ?_⟩
          intro content hc
          simp [Files.set] at hc
        · intro _
          simp [Files.set, hne.symm]
        · intro q h1 h2
          simp [Files.set, h1, h2, hfr q h2]

/-- A sequence of calls of `perform_file_rename_replace` from a state of the counter
scenario. -/
theorem perform_file_rename_replace_run_ok (outcomes : List Outcomes) :
    ∀ (files : Files) (n : Nat), counter_state files n →
      ∃ files1, perform_file_rename_replace_run outcomes files
          = .ok (outcomes.map Outcomes.aborted, files1) ∧
        counter_state files1 (count_after outcomes n) := by
  induction outcomes with
  | nil => intro files n h; exact ⟨files, rfl, h⟩
  | cons o rest ih =>
    intro files n h
    obtain ⟨files1, h1, h2, _⟩ := perform_file_rename_replace_step o files n h
    obtain ⟨files2, h3, h4⟩ := ih files1 _ h2
    refine ⟨files2, ?_, h4⟩
    simp [perform_file_rename_replace_run, h1, h3]

set_option maxRecDepth 1000000 in
/-- The state left by `setup_file_rename_replace` on a filesystem without the two
names. -/
theorem setup_file_rename_replace_ok (no_space : Bool) (stored : Option Nat)
    (files0 files1 : Files)
    (hS : files0 FILE_RENAME_REPLACE = none) (hN : files0 FILE_RENAME_REPLACE_NEW = none)
    (hsetup : setup_file_rename_replace no_space stored files0 = .ok files1) :
    counter_state files1 0 := by
  have hne : FILE_RENAME_REPLACE_NEW ≠ FILE_RENAME_REPLACE := by decide
  have h0 : (0 : Nat) < U32 := by decide
  obtain ⟨hsprintf, _⟩ := sscanf_count_record 0 h0
  obtain ⟨_, hlen1, _, _⟩ := count_record_facts 0 h0
  have hpos : (((count_record 0).length : Nat) : Int) > 0 := by omega
  unfold setup_file_rename_replace at hsetup
  cases no_space with
  | true => simp [open_create, ENOSPC] at hsetup
  | false =>
    simp only [open_create, hS, ne_eq, not_true_eq_false, if_false, hsprintf] at hsetup
    rw [if_neg (not_not.mpr hpos)] at hsetup
    cases stored with
    | some k =>
      have : ¬ (-ENOSPC = (((count_record 0).length : Nat) : Int)) := by
        simp only [ENOSPC]; omega
      simp [file_write, this] at hsetup
    | none =>
      simp [file_write, Files.set] at hsetup
      subst hsetup
      refine ⟨h0, by simp [Files.set], ?_⟩
      intro content hc
      simp [Files.set, hne, hN] at hc

set_option maxRecDepth 1000000 in
/-- C15. Over the filesystem model in which `rename` replaces the destination in one
step and `open`, `write` and `rename` either succeed or fail with `ENOSPC`: from the
state `setup_file_rename_replace` leaves on a filesystem without the two names (the
stable file holds the record of the count 0), a sequence of calls of
`perform_file_rename_replace` with any outcomes (none, one or more calls) runs through
without a failed assertion, each call returning whether it was aborted, and afterwards
the stable file holds exactly the complete record of a count below `2^32`, which the
check accepts.  In every state of the scenario, a call that is not aborted changes the
record of `n` into the record of `(n + 1) mod 2^32`, the record of `n + 1` while that
is below `2^32`; an aborted call leaves the stable file as it is.  `sprintf` writes the
complete record, and `sscanf` reads the count `n` back from the record of `n`. -/
theorem counter_invariant (no_space : Bool) (stored : Option Nat) (files0 files1 : Files)
    (outcomes : List Outcomes)
    (hS : files0 FILE_RENAME_REPLACE = none) (hN : files0 FILE_RENAME_REPLACE_NEW = none)
    (hsetup : setup_file_rename_replace no_space stored files0 = .ok files1) :
    files1 FILE_RENAME_REPLACE = some (count_record 0) ∧
    (∃ files2, perform_file_rename_replace_run outcomes files1
        = .ok (outcomes.map Outcomes.aborted, files2) ∧
      count_after outcomes 0 < U32 ∧
      files2 FILE_RENAME_REPLACE = some (count_record (count_after outcomes 0)) ∧
      check_file_rename_replace files2 = .ok files2) ∧
    (∀ (files : Files) (n : Nat) (o : Outcomes), counter_state files n →
      ∃ files3, perform_file_rename_replace o files = .ok (o.aborted, files3) ∧
        counter_state files3 (if o.aborted then n else (n + 1) % U32) ∧
        (o.aborted = true → files3 FILE_RENAME_REPLACE = files FILE_RENAME_REPLACE) ∧
        (o.aborted = false →
          files3 FILE_RENAME_REPLACE = some (count_record ((n + 1) % U32)) ∧
          (n + 1 < U32 → files3 FILE_RENAME_REPLACE = some (count_record (n + 1))))) ∧
    (∀ n, n < U32 → sprintf FILE_RENAME_REPLACE_FMT n = count_record n ∧
      sscanf (count_record n) FILE_RENAME_REPLACE_FMT = (1, [n])) := by
  have h1 := setup_file_rename_replace_ok no_space stored files0 files1 hS hN hsetup
  refine ⟨h1.2.1, ?_, ?_, sscanf_count_record⟩
  · obtain ⟨files2, h2, h3⟩ := perform_file_rename_replace_run_ok outcomes files1 0 h1
    refine ⟨files2, h2, h3.1, h3.2.1, ?_⟩
    exact (check_file_rename_replace_ok_iff files2).mpr
      ⟨_, _, h3.2.1, (count_record_facts _ h3.1).2.2.2,
        by rw [(sscanf_count_record _ h3.1).2]⟩
  · intro files n o h
    obtain ⟨files3, h2, h3, h4, h5, _⟩ := perform_file_rename_replace_step o files n h
    refine ⟨files3, h2, h3, h4, fun ha => ⟨(h5 ha).1, fun hlt => ?_⟩⟩
    have := (h5 ha).1
    rw [Nat.mod_eq_of_lt hlt] at this
    exact this

set_option maxRecDepth 1000000 in
/-- The counter invariant on the empty filesystem, with a successful setup and five
calls: completed, aborted at the `open`, aborted at the `write` after 5 bytes,
completed, aborted at the `rename`; the stable file holds the record of the count 2. -/
theorem counter_invariant_witness :
    ∃ files1 files2, setup_file_rename_replace false none (fun _ => none) = .ok files1 ∧
      perform_file_rename_replace_run
        [⟨false, none, false⟩, ⟨true, none, false⟩, ⟨false, some 5, false⟩,
          ⟨false, none, false⟩, ⟨false, none, true⟩] files1
        = .ok ([false, true, true, false, true], files2) ∧
      files2 FILE_RENAME_REPLACE = some (bytes "file replace count: 2\r\n") := by
  have h := counter_invariant false none (fun _ => none) _
    [⟨false, none, false⟩, ⟨true, none, false⟩, ⟨false, some 5, false⟩,
      ⟨false, none, false⟩, ⟨false, none, true⟩] rfl rfl rfl
  obtain ⟨files2, h2, _, h4, _⟩ := h.2.1
  exact ⟨_, files2, rfl, h2, h4⟩


/-! ## The frame of `program` and `erase` -/

namespace ExhaustibleBlockDevice

/-- C21. On a device after `init`: a `program` call that returns (its arguments were
valid) returns 0 and leaves as they were every stored byte outside
`[addr, addr + size)`, the program counter of every program unit outside the range,
every erase counter, both limits and the geometry; a valid `erase` returns 0 and
leaves as they were every stored byte outside the erase units of its range, the erase
counter of every erase unit outside the range, every program counter, both limits and
the geometry.  A valid `program` does return when the erase units of its range have a
buffer, the erase unit is a multiple of the program unit and the caller's buffer holds
`size` bytes. -/
theorem write_frame (d : ExhaustibleBlockDevice) (hwf : WF d)
    (hinit : d._blocks.isSome = true) :
    (∀ buf addr size r, d.program buf addr size = .ok r →
      d.is_valid_program addr size = true ∧ r.1 = 0 ∧
      (∀ x, x < addr ∨ addr + size ≤ x → r.2.content x = d.content x) ∧
      (∀ u, u < addr / d._program_size ∨ (addr + size) / d._program_size ≤ u →
        r.2._program_array[u]? = d._program_array[u]?) ∧
      r.2._erase_array = d._erase_array ∧
      r.2._program_life = d._program_life ∧ r.2._erase_life = d._erase_life ∧
      r.2._read_size = d._read_size ∧ r.2._program_size = d._program_size ∧
      r.2._erase_size = d._erase_size ∧ r.2._program_count = d._program_count ∧
      r.2._erase_count = d._erase_count) ∧
    (∀ addr size, d.is_valid_erase addr size = true →
      ∃ d', d.erase addr size = .ok (0, d') ∧
        (∀ x, ¬ (addr / d._erase_size ≤ x / d._erase_size ∧
            x / d._erase_size < (addr + size) / d._erase_size) →
          d'.content x = d.content x) ∧
        (∀ j, ¬ (addr / d._erase_size ≤ j ∧ j < (addr + size) / d._erase_size) →
          d'._erase_array[j]? = d._erase_array[j]?) ∧
        d'._program_array = d._program_array ∧
        d'._program_life = d._program_life ∧ d'._erase_life = d._erase_life ∧
        d'._read_size = d._read_size ∧ d'._program_size = d._program_size ∧
        d'._erase_size = d._erase_size ∧ d'._program_count = d._program_count ∧
        d'._erase_count = d._erase_count) ∧
    (∀ buf addr size, d.is_valid_program addr size = true →
      d._program_size ∣ d._erase_size → size ≤ buf.length →
      (∀ a, addr ≤ a → a < addr + size → d.allocated (a / d._erase_size) = true) →
      ∃ r, d.program buf addr size = .ok r) := by
  obtain ⟨blocks, hb⟩ := Option.isSome_iff_exists.mp hinit
  refine ⟨?_, ?_, ?_⟩
  · intro buf addr size r h
    obtain ⟨_, hv⟩ := program_ok_pre h
    obtain ⟨h0, bs', arr', hd', _, _, _, _, _, f3, _, f5⟩ := program_facts hwf hb h
    refine ⟨hv, h0, f3, ?_, ?_, ?_, ?_, ?_, ?_, ?_, ?_, ?_⟩
    · intro u hu
      rw [hd']
      exact f5 u hu
    all_goals rw [hd']
  · intro addr size hv
    obtain ⟨bs', arr', hres, _⟩ := erase_spec hwf hb addr size hv
    obtain ⟨_, bs2, arr2, hd2, _, _, _, f1, _, f3⟩ := erase_facts hwf hb hres
    simp only at hd2
    refine ⟨_, hres, ?_, ?_, rfl, rfl, rfl, rfl, rfl, rfl, rfl, rfl⟩
    · intro x hx
      rw [f3 x, if_neg (fun hc => hx ⟨hc.1, hc.2.1⟩)]
    · intro j hj
      have := (f1 j hj).2
      rw [hd2]
      exact this
  · intro buf addr size hv hdvd hbuf halloc
    obtain ⟨bs', arr', hres, _⟩ := program_spec hwf hb buf addr size hv hdvd hbuf halloc
    exact ⟨_, hres⟩

/-- The witness of `write_frame`: a program of the first program unit of
`erased_first_unit` leaves the third byte as it was, and an erase of the second erase
unit of `fresh_small` leaves the first byte as it was. -/
theorem write_frame_witness :
    (∃ r, erased_first_unit.program [1, 2] 0 2 = .ok r ∧
      r.2.content 2 = erased_first_unit.content 2 ∧
      r.2._erase_array = erased_first_unit._erase_array) ∧
    (∃ d', fresh_small.erase 4 4 = .ok (0, d') ∧ d'.content 0 = fresh_small.content 0 ∧
      d'._program_array = fresh_small._program_array) := by
  constructor
  · have h := write_frame erased_first_unit (by decide) (by decide)
    obtain ⟨r, hr⟩ := h.2.2 [1, 2] 0 2 (by decide) (by decide) (by decide)
      (by intro a h1 h2; have : a / 4 = 0 := by omega
          show erased_first_unit.allocated (a / 4) = true
          rw [this]; decide)
    obtain ⟨_, _, f3, _, f5, _⟩ := h.1 [1, 2] 0 2 r hr
    exact ⟨r, hr, f3 2 (Or.inr (by decide)), f5⟩
  · obtain ⟨d', h1, h2, _, h4, _⟩ :=
      (write_frame fresh_small (by decide) (by decide)).2.1 4 4 (by decide)
    exact ⟨d', h1, h2 0 (by decide), h4⟩

end ExhaustibleBlockDevice

/-! ## Counters under finite limits -/

namespace ExhaustibleBlockDevice

/-- The erases of a list of calls, counted call by call. -/
theorem erases_of_cons (E : Nat) (c : Call) (cs : List Call) (j : Nat) :
    erases_of E (c :: cs) j = erases_of E [c] j + erases_of E cs j := by
  cases c <;> simp [erases_of]

/-- A `program` call that returns, on a device with a finite program limit below
`2 ^ 32 - 1` whose program counters are at most the limit plus one, leaves them at
most the limit plus one. -/
theorem program_counters_bounded {d : ExhaustibleBlockDevice} (hwf : WF d)
    {buf : List Byte} {addr size : Nat} {r : Int × ExhaustibleBlockDevice}
    (h : d.program buf addr size = .ok r) (hpl : 0 < d._program_life)
    (hbound : ∀ u, d._program_array.getD u 0 ≤ d._program_life + 1) :
    ∀ u, r.2._program_array.getD u 0 ≤ d._program_life + 1 := by
  have hP : 0 < d._program_size := hwf.2.1
  obtain ⟨hinit, hv⟩ := program_ok_pre h
  obtain ⟨blocks, hb⟩ := Option.isSome_iff_exists.mp hinit
  obtain ⟨hv1, hv2, hv3⟩ := (is_valid_program_iff d addr size).mp hv
  obtain ⟨n, hn⟩ : ∃ n, size = n * d._program_size :=
    ⟨size / d._program_size, (Nat.div_mul_cancel (Nat.dvd_of_mod_eq_zero hv2)).symm⟩
  obtain ⟨blocks0, hla, hwf0, _⟩ := lazy_allocate_facts hwf hb addr size hv3
  unfold program at h
  simp only [hb, Option.isSome_some, Bool.not_true, Bool.false_eq_true, if_false, hv, hla] at h
  cases hloop : program_loop size { d with _blocks := some blocks0 } buf addr size with
  | error e => simp [hloop] at h
  | ok d' =>
    simp only [hloop, Except.ok.injEq] at h
    subst h
    rw [hn] at hloop
    let I : Nat → ExhaustibleBlockDevice → Prop := fun _ d1 =>
      WF d1 ∧ d1._program_size = d._program_size ∧ d1._program_life = d._program_life ∧
        d1._erase_count = d._erase_count ∧ d1._erase_size = d._erase_size ∧
        ∀ u, d1._program_array.getD u 0 ≤ d._program_life + 1
    have hI0 : I 0 { d with _blocks := some blocks0 } := ⟨hwf0, rfl, rfl, rfl, rfl, hbound⟩
    have hI : I n d' := by
      refine program_loop_inv d._program_size hP n I addr (fun i d1 hI => hI.2.1) ?_
        (n * d._program_size) _ buf d' hI0 hloop
      rintro d1 buf1 i d2 ⟨hwf1, hP1, hL1, hC1, hE1, hb1⟩ hi hc
      have hin : addr + i * d._program_size + d._program_size
          ≤ addr + n * d._program_size := by
        have : (i + 1) * d._program_size ≤ n * d._program_size :=
          Nat.mul_le_mul_right _ hi
        rw [Nat.succ_mul] at this
        omega
      rw [← hP1] at hc
      obtain ⟨bs, bs', arr', _, hd2, hwf2, _, _, _, _, _, _, harr, _⟩ :=
        program_chunk_facts hwf1 (by rw [hP1, hC1, hE1, ← hn] at *; omega) hc
      subst hd2
      refine ⟨hwf2, hP1, hL1, hC1, hE1, ?_⟩
      intro u
      show arr'.getD u 0 ≤ _
      rw [harr]
      by_cases hex : d1.prog_exhausted ((addr + i * d1._program_size) / d1._program_size) = true
      · rw [if_pos hex]; exact hb1 u
      · rw [if_neg hex]
        have hle : d1._program_array.getD ((addr + i * d1._program_size) / d1._program_size) 0
            ≤ d._program_life := by
          simp only [prog_exhausted, hL1, Bool.and_eq_true, bne_iff_ne, ne_eq,
            decide_eq_true_eq, not_and, not_lt] at hex
          exact hex (by omega)
        by_cases hu : (addr + i * d1._program_size) / d1._program_size = u
        · rw [List.getD_eq_getElem?_getD, ← hu, List.getElem?_set]
          simp only [if_true]
          split
          · have := Nat.mod_le
              (d1._program_array.getD ((addr + i * d1._program_size) / d1._program_size) 0 + 1)
              U32
            simp only [Option.getD_some]
            omega
          · simp
        · rw [List.getD_eq_getElem?_getD, List.getElem?_set_ne hu,
            ← List.getD_eq_getElem?_getD]
          exact hb1 u
    exact hI.2.2.2.2.2

/-- An `erase` call that returns, on a device with a finite erase limit below
`2 ^ 32 - 1`: the erase counter of a unit that counts the erases of the unit up to the
limit plus one goes on doing so. -/
theorem erase_counters_count {d : ExhaustibleBlockDevice} (hwf : WF d)
    {addr size : Nat} {r : Int × ExhaustibleBlockDevice}
    (h : d.erase addr size = .ok r) (hel : 0 < d._erase_life)
    (hel2 : d._erase_life + 1 < U32) (j base : Nat)
    (hcount : d._erase_array.getD j 0 = min base (d._erase_life + 1)) :
    r.2._erase_array.getD j 0
      = min (base + erases_of d._erase_size [Call.erase addr size] j)
          (d._erase_life + 1) := by
  obtain ⟨hinit, hv⟩ := erase_ok_pre h
  obtain ⟨blocks, hb⟩ := Option.isSome_iff_exists.mp hinit
  obtain ⟨blocks', array', hres, _, _, hch⟩ := erase_spec hwf hb addr size hv
  rw [hres] at h
  cases h
  obtain ⟨_, hai⟩ := hch j
  show array'.getD j 0 = _
  have hex : d.erase_exhausted j = decide (d._erase_life < d._erase_array.getD j 0) := by
    simp [erase_exhausted, Nat.pos_iff_ne_zero.mp hel]
  by_cases hr : addr / d._erase_size ≤ j ∧ j < (addr + size) / d._erase_size
  · simp only [erases_of, hr, and_self, if_true]
    by_cases hle : d._erase_array.getD j 0 ≤ d._erase_life
    · have hx : d.erase_exhausted j = false := by
        rw [hex]; exact decide_eq_false (by omega)
      rw [if_pos ⟨hr.1, hr.2, hx⟩] at hai
      rw [List.getD_eq_getElem?_getD, hai, Option.getD_some]
      have hb1 : base ≤ d._erase_life := by
        rw [hcount] at hle
        rcases Nat.le_total base (d._erase_life + 1) with h1 | h1
        · rw [Nat.min_eq_left h1] at hle; exact hle
        · rw [Nat.min_eq_right h1] at hle; omega
      have hc : d._erase_array.getD j 0 = base := by
        rw [hcount]; exact Nat.min_eq_left (by omega)
      rw [hc, Nat.mod_eq_of_lt (by omega), Nat.min_eq_left (by omega)]
    · have hx : d.erase_exhausted j = true := by
        rw [hex]; exact decide_eq_true (by omega)
      rw [if_neg (by rw [hx]; simp)] at hai
      rw [List.getD_eq_getElem?_getD, hai, ← List.getD_eq_getElem?_getD, hcount]
      have hb1 : d._erase_life + 1 ≤ base := by
        rw [hcount] at hle
        rcases Nat.le_total base (d._erase_life + 1) with h1 | h1
        · rw [Nat.min_eq_left h1] at hle; omega
        · exact h1
      rw [Nat.min_eq_right hb1, Nat.min_eq_right (by omega)]
  · rw [if_neg (fun hc => hr ⟨hc.1, hc.2.1⟩)] at hai
    simp only [erases_of, hr, if_false, Nat.add_zero]
    rw [List.getD_eq_getElem?_getD, hai, ← List.getD_eq_getElem?_getD, hcount]

/-- One returning call other than a setter of a limit keeps the limits, the bound of
the program counters, and the count the erase counters keep. -/
theorem step_counters {d : ExhaustibleBlockDevice} {c : Call}
    {r : Option Int × ExhaustibleBlockDevice} (hwf : WF d) (hc : c.sets_limit = false)
    (h : step d c = .ok r) :
    r.2._program_life = d._program_life ∧ r.2._erase_life = d._erase_life ∧
    (0 < d._program_life → (∀ u, d._program_array.getD u 0 ≤ d._program_life + 1) →
      ∀ u, r.2._program_array.getD u 0 ≤ d._program_life + 1) ∧
    (0 < d._erase_life → d._erase_life + 1 < U32 → ∀ j base,
      d._erase_array.getD j 0 = min base (d._erase_life + 1) →
      r.2._erase_array.getD j 0
        = min (base + erases_of d._erase_size [c] j) (d._erase_life + 1)) := by
  cases c with
  | set_program_cycles n => cases hc
  | set_erase_cycles n => cases hc
  | init =>
    simp only [step, Except.ok.injEq] at h
    subst h
    have hi : d.init.2 = d ∨ ∃ bs, d.init.2 = { d with _blocks := some bs } := by
      unfold ExhaustibleBlockDevice.init
      split
      · exact Or.inl rfl
      · exact Or.inr ⟨_, rfl⟩
    rcases hi with hi | ⟨bs, hi⟩
    · rw [hi]
      exact ⟨rfl, rfl, fun _ hb => hb, fun _ _ j base hb => by simpa [erases_of] using hb⟩
    · rw [hi]
      exact ⟨rfl, rfl, fun _ hb => hb, fun _ _ j base hb => by simpa [erases_of] using hb⟩
  | deinit =>
    simp only [step] at h
    cases hr : d.deinit with
    | error e => simp [hr] at h
    | ok out =>
      simp only [hr, Except.ok.injEq] at h
      subst h
      have hout : out.2 = d := by
        unfold ExhaustibleBlockDevice.deinit at hr
        split at hr
        · cases hr; rfl
        · cases hr
      show out.2._program_life = _ ∧ out.2._erase_life = _ ∧ _ ∧ _
      rw [hout]
      exact ⟨rfl, rfl, fun _ hb => hb, fun _ _ j base hb => by simpa [erases_of] using hb⟩
  | read addr size =>
    simp only [step] at h
    cases hr : d.read addr size with
    | error e => simp [hr] at h
    | ok out =>
      simp only [hr, Except.ok.injEq] at h
      subst h
      exact ⟨rfl, rfl, fun _ hb => hb, fun _ _ j base hb => by simpa [erases_of] using hb⟩
  | program buf addr size =>
    simp only [step] at h
    cases hr : d.program buf addr size with
    | error e => simp [hr] at h
    | ok out =>
      simp only [hr, Except.ok.injEq] at h
      subst h
      obtain ⟨hinit, _⟩ := program_ok_pre hr
      obtain ⟨blocks, hb⟩ := Option.isSome_iff_exists.mp hinit
      obtain ⟨_, bs', arr', hd', _⟩ := program_facts hwf hb hr
      refine ⟨by rw [hd'], by rw [hd'], fun hpl hbound => ?_, fun _ _ j base hb => ?_⟩
      · exact program_counters_bounded hwf hr hpl hbound
      · show out.2._erase_array.getD j 0 = _
        rw [hd']
        simpa [erases_of] using hb
  | erase addr size =>
    simp only [step] at h
    cases hr : d.erase addr size with
    | error e => simp [hr] at h
    | ok out =>
      simp only [hr, Except.ok.injEq] at h
      subst h
      obtain ⟨hinit, _⟩ := erase_ok_pre hr
      obtain ⟨blocks, hb⟩ := Option.isSome_iff_exists.mp hinit
      obtain ⟨_, bs', arr', hd', _⟩ := erase_facts hwf hb hr
      refine ⟨by rw [hd'], by rw [hd'], fun _ hbound => ?_, fun hel hel2 j base hb => ?_⟩
      · show ∀ u, out.2._program_array.getD u 0 ≤ _
        rw [hd']
        exact hbound
      · exact erase_counters_count hwf hr hel hel2 j base hb

/-- A returning run of calls other than the setters of the limits keeps the
representation invariant, the geometry and the limits, the bound of the program
counters, and the count the erase counters keep. -/
theorem run_counters (E pl el : Nat) :
    ∀ (calls : List Call) (d : ExhaustibleBlockDevice)
      (r : List (Option Int) × ExhaustibleBlockDevice) (base : Nat → Nat),
      WF d → d._erase_size = E → d._program_life = pl → d._erase_life = el →
      (∀ c ∈ calls, c.sets_limit = false) → run d calls = .ok r →
      WF r.2 ∧ r.2._erase_size = E ∧ r.2._program_life = pl ∧ r.2._erase_life = el ∧
      r.2._erase_count = d._erase_count ∧
      (0 < pl → (∀ u, d._program_array.getD u 0 ≤ pl + 1) →
        ∀ u, r.2._program_array.getD u 0 ≤ pl + 1) ∧
      (0 < el → el + 1 < U32 →
        (∀ j, d._erase_array.getD j 0 = min (base j) (el + 1)) →
        ∀ j, r.2._erase_array.getD j 0 = min (base j + erases_of E calls j) (el + 1)) := by
  intro calls
  induction calls with
  | nil =>
    intro d r base hwf hE hpl hel _ hrun
    simp only [run, Except.ok.injEq] at hrun
    subst hrun
    exact ⟨hwf, hE, hpl, hel, rfl, fun _ hb => hb, fun _ _ hb j => by
      simpa [erases_of] using hb j⟩
  | cons c cs ih =>
    intro d r base hwf hE hpl hel hA hrun
    obtain ⟨r1, rs, h1, h2, hr⟩ := run_cons_ok hrun
    subst hr
    obtain ⟨hwf1, hE1, _, _, hC1⟩ := step_wf hwf h1
    obtain ⟨g1, g2, g3, g4⟩ := step_counters hwf (hA c (List.mem_cons_self _ _)) h1
    obtain ⟨k1, k2, k3, k4, k5, k6, k7⟩ :=
      ih r1.2 rs (fun j => base j + erases_of E [c] j) hwf1 (by rw [hE1, hE])
        (by rw [g1, hpl]) (by rw [g2, hel])
        (fun c' hc' => hA c' (List.mem_cons_of_mem _ hc')) h2
    refine ⟨k1, k2, k3, k4, by rw [k5, hC1], fun hp hb => ?_, fun he he2 hb j => ?_⟩
    · exact k6 hp (by rw [← hpl] at hp ⊢; exact g3 hp (by rw [hpl]; exact hb))
    · have := k7 he he2 (fun j => by
        rw [← hel] at he he2 ⊢
        rw [← hE]
        exact g4 he he2 j (base j) (by rw [hel]; exact hb j)) j
      rw [this, erases_of_cons E c cs j, Nat.add_assoc]

/-- The device the constructor returns and its two setters configure: the
representation invariant, no slot array, the geometry and the limits as given, every
counter 0. -/
theorem configured_device {S read program erase pl el : Nat}
    {c c1 d0 : ExhaustibleBlockDevice}
    (hc : construct S read program erase = .ok c) (hread : 0 < read)
    (hp : S / program < U32) (he : S / erase < U32)
    (h1 : c.set_program_cycles pl = .ok c1) (h2 : c1.set_erase_cycles el = .ok d0) :
    WF d0 ∧ d0._erase_size = erase ∧ d0._program_life = pl ∧ d0._erase_life = el ∧
      (∀ u, d0._program_array.getD u 0 = 0) ∧ (∀ j, d0._erase_array.getD j 0 = 0) := by
  obtain ⟨hwf, hb, hE, _, _⟩ := WF.construct hc hread hp he
  have harr : (∀ u, c._program_array.getD u 0 = 0) ∧ (∀ j, c._erase_array.getD j 0 = 0) := by
    unfold construct at hc
    split at hc
    · cases hc
    · simp only at hc
      split at hc
      · cases hc
      · split at hc
        · cases hc
        · simp only [Except.ok.injEq] at hc
          subst hc
          constructor
          · intro u
            simp only [List.getD_eq_getElem?_getD, List.getElem?_replicate]
            split <;> rfl
          · intro j
            simp only [List.getD_eq_getElem?_getD, List.getElem?_replicate]
            split <;> rfl
  unfold set_program_cycles at h1
  rw [hb] at h1
  simp only [Option.isSome_none, Bool.false_eq_true, if_false, Except.ok.injEq] at h1
  subst h1
  unfold set_erase_cycles at h2
  simp only [hb, Option.isSome_none, Bool.false_eq_true, if_false, Except.ok.injEq] at h2
  subst h2
  obtain ⟨a1, a2, a3, a4, a5, a6, a7, a8, _⟩ := hwf
  exact ⟨⟨a1, a2, a3, a4, a5, a6, a7, a8, fun bs hbs => by cases hbs⟩, hE, rfl, rfl,
    harr.1, harr.2⟩

/-- C22. A device is constructed, configured with the program limit `pl` and the erase
limit `el`, and then used by any run of `init`, `deinit`, `read`, `program` and `erase`
calls that returns.  The limits are as configured.  If `0 < pl < 2 ^ 32 - 1`, every
program counter is at most `pl + 1`, which is below `2 ^ 32`.  If
`0 < el < 2 ^ 32 - 1`, the erase counter of every erase unit is the number of erases
of the unit in the run, up to `el + 1`: it is at most `el + 1`, which is below
`2 ^ 32`; and a further valid erase returns 0 and takes effect on a unit of its range
(all bytes 0xFF, counter one more) when the run erased the unit at most `el` times,
and leaves the bytes and the counter of the unit as they were when the run erased it
more than `el` times: exactly the first `el + 1` erases of a unit take effect. -/
theorem counters_stay_bounded (S read program erase pl el : Nat)
    (c c1 d0 d : ExhaustibleBlockDevice) (calls : List Call) (rs : List (Option Int))
    (hc : construct S read program erase = .ok c) (hread : 0 < read)
    (hp : S / program < U32) (he : S / erase < U32)
    (h1 : c.set_program_cycles pl = .ok c1) (h2 : c1.set_erase_cycles el = .ok d0)
    (hcalls : ∀ call ∈ calls, call.sets_limit = false)
    (hrun : run d0 calls = .ok (rs, d)) :
    d._program_life = pl ∧ d._erase_life = el ∧
    (0 < pl → pl < U32 - 1 →
      ∀ u, d._program_array.getD u 0 ≤ pl + 1 ∧ pl + 1 < U32) ∧
    (0 < el → el < U32 - 1 →
      (∀ j, d._erase_array.getD j 0 = min (erases_of erase calls j) (el + 1) ∧
        d._erase_array.getD j 0 ≤ el + 1 ∧ el + 1 < U32) ∧
      ∀ addr size, d._blocks.isSome = true → d.is_valid_erase addr size = true →
        ∃ d', d.erase addr size = .ok (0, d') ∧
          ∀ j, addr / erase ≤ j → j < (addr + size) / erase →
            (erases_of erase calls j ≤ el →
              (∀ x, x / erase = j → d'.content x = 255) ∧
              d'._erase_array.getD j 0 = erases_of erase calls j + 1) ∧
            (el < erases_of erase calls j →
              (∀ x, x / erase = j → d'.content x = d.content x) ∧
              d'._erase_array.getD j 0 = el + 1)) := by
  have hU : U32 = 4294967296 := rfl
  obtain ⟨hwf0, hE0, hpl0, hel0, hp0, he0⟩ := configured_device hc hread hp he h1 h2
  obtain ⟨hwf, hE, hpl, hel, _, hprog, herase⟩ :=
    run_counters erase pl el calls d0 (rs, d) (fun _ => 0) hwf0 hE0 hpl0 hel0 hcalls hrun
  simp only at hwf hE hpl hel hprog herase
  refine ⟨hpl, hel, ?_, ?_⟩
  · intro h0 hlt u
    exact ⟨hprog h0 (fun u => by rw [hp0 u]; omega) u, by omega⟩
  · intro h0 hlt
    have hcnt : ∀ j, d._erase_array.getD j 0 = min (erases_of erase calls j) (el + 1) := by
      intro j
      have := herase h0 (by omega) (fun j => by rw [he0 j]; simp) j
      simpa using this
    refine ⟨fun j => ⟨hcnt j, by rw [hcnt j]; exact Nat.min_le_right _ _, by omega⟩, ?_⟩
    intro addr size hinit hv
    obtain ⟨blocks, hb⟩ := Option.isSome_iff_exists.mp hinit
    obtain ⟨bs', arr', hres, _⟩ := erase_spec hwf hb addr size hv
    obtain ⟨_, _, _, _, _, _, _, _, _, f3⟩ := erase_facts hwf hb hres
    refine ⟨_, hres, ?_⟩
    intro j hj1 hj2
    have hnext := erase_counters_count hwf hres (by rw [hel]; exact h0)
      (by rw [hel]; omega) j (erases_of erase calls j) (by rw [hel]; exact hcnt j)
    simp only [hE, hel, erases_of, hj1, hj2, and_self, if_true, Nat.add_zero] at hnext
    have hex : d.erase_exhausted j = decide (el < erases_of erase calls j) := by
      simp only [erase_exhausted, hel, hcnt j]
      have : (el != 0) = true := by simp; omega
      rw [this, Bool.true_and]
      congr 1
      apply propext
      constructor
      · intro h
        rcases Nat.le_total (erases_of erase calls j) (el + 1) with h1 | h1
        · rw [Nat.min_eq_left h1] at h; exact h
        · omega
      · intro h
        rcases Nat.le_total (erases_of erase calls j) (el + 1) with h1 | h1
        · rw [Nat.min_eq_left h1]; exact h
        · rw [Nat.min_eq_right h1]; omega
    constructor
    · intro hle
      refine ⟨fun x hx => ?_, ?_⟩
      · rw [f3 x, hE, hx, if_pos ⟨hj1, hj2, by rw [hex]; exact decide_eq_false (by omega)⟩]
      · rw [hnext, Nat.min_eq_left (by omega)]
    · intro hgt
      refine ⟨fun x hx => ?_, ?_⟩
      · rw [f3 x, hE, hx, if_neg (by rw [hex]; simp; intro _ _; exact hgt)]
      · rw [hnext, Nat.min_eq_right (by omega)]

/-- The witness of `counters_stay_bounded`: construction of the small geometry, an
erase limit of 1, `init` and three erases of the first erase unit give
`worn_erase_unit`, whose first erase counter is 2, and a fourth erase leaves the
counter at 2. -/
theorem counters_stay_bounded_witness :
    run { constructed_small with _erase_life := 1 }
        [.init, .erase 0 4, .erase 0 4, .erase 0 4]
      = .ok ([some 0, some 0, some 0, some 0], worn_erase_unit) ∧
    worn_erase_unit._erase_array.getD 0 0 = 2 ∧
    ∃ d', worn_erase_unit.erase 0 4 = .ok (0, d') ∧ d'._erase_array.getD 0 0 = 2 := by
  have h := counters_stay_bounded 8 1 2 4 0 1 constructed_small constructed_small
    { constructed_small with _erase_life := 1 } worn_erase_unit
    [.init, .erase 0 4, .erase 0 4, .erase 0 4] [some 0, some 0, some 0, some 0]
    (by decide) (by decide) (by decide) (by decide) (by decide) (by decide) (by decide)
    (by decide)
  obtain ⟨h1, h2⟩ := h.2.2.2 (by decide) (by decide)
  obtain ⟨d', h3, h4⟩ := h2 0 4 (by decide) (by decide)
  refine ⟨by decide, by decide, d', h3, ?_⟩
  exact ((h4 0 (by decide) (by decide)).2 (by decide)).2

end ExhaustibleBlockDevice

/-! ## Unit sizes that are not nested -/

namespace ExhaustibleBlockDevice

set_option maxRecDepth 1000000 in
/-- C9 (counterexample). The constructor accepts the total size 12 with read unit 3 and
erase unit 4, and the total size 24 with program unit 8 and erase unit 12.  On the first
device, after `init` and an erase of the first erase unit, the arguments `addr = 3`,
`size = 3` are valid for `read`, and `read` does not return 0: its chunk copy takes
three bytes at offset 3 of a buffer of four bytes.  On the second device, with both
limits 5, after `init` and an erase of both erase units every erase unit has a buffer
and the arguments `addr = 8`, `size = 8` are valid for `program`, and `program` does
not return 0: its chunk copy stores eight bytes at offset 8 of a buffer of twelve
bytes. -/
theorem valid_call_crosses_unit_end :
    (construct 12 3 4 4 >>= fun d => run d [.init, .erase 0 4])
      = .ok ([some 0, some 0], read_unit_unnested) ∧
    WF read_unit_unnested ∧ read_unit_unnested._blocks.isSome = true ∧
    read_unit_unnested.is_valid_read 3 3 = true ∧
    read_unit_unnested.read 3 3 = .error .outOfBounds ∧
    (construct 24 1 8 12 >>= fun d =>
        run d [.set_program_cycles 5, .set_erase_cycles 5, .init, .erase 0 24])
      = .ok ([none, none, some 0, some 0], program_unit_unnested) ∧
    WF program_unit_unnested ∧ program_unit_unnested._blocks.isSome = true ∧
    program_unit_unnested._erase_count = 2 ∧
    program_unit_unnested.allocated 0 = true ∧ program_unit_unnested.allocated 1 = true ∧
    program_unit_unnested.is_valid_program 8 8 = true ∧
    program_unit_unnested.program [1, 2, 3, 4, 5, 6, 7, 8] 8 8 = .error .outOfBounds := by
  decide

/-- C11 (counterexample). The constructor accepts the total size 6 with program unit 2
and erase unit 3.  After `init` and an erase of both erase units, both limits are 0,
every erase unit has a buffer and the arguments `addr = 2`, `size = 2` are valid for
`program`, and `program` does not store the two bytes: its chunk copy stores two bytes
at offset 2 of a buffer of three bytes. -/
theorem zero_limit_program_crosses_unit_end :
    construct 6 1 2 3 = .ok constructed_unnested ∧
    run constructed_unnested [.init, .erase 0 6] = .ok ([some 0, some 0], unnested_erased) ∧
    WF unnested_erased ∧ unnested_erased._blocks.isSome = true ∧
    unnested_erased._program_life = 0 ∧ unnested_erased._erase_life = 0 ∧
    unnested_erased._erase_count = 2 ∧
    unnested_erased.allocated 0 = true ∧ unnested_erased.allocated 1 = true ∧
    unnested_erased.is_valid_program 2 2 = true ∧
    unnested_erased.program [1, 2] 2 2 = .error .outOfBounds := by
  decide

end ExhaustibleBlockDevice

/-! ## `read` as an observation -/

namespace ExhaustibleBlockDevice

/-- With a budget of fewer passes than the chunks of the range, the `read` loop does
not finish. -/
theorem read_loop_diverged (d : ExhaustibleBlockDevice) (hR : 0 < d._read_size) :
    ∀ (fuel n addr : Nat), fuel < n →
      (∀ i, i < n → ∃ chunk, read_chunk d (addr + i * d._read_size) = .ok chunk) →
      read_loop d fuel addr (n * d._read_size) = .error .diverged := by
  intro fuel
  induction fuel with
  | zero =>
    intro n addr hn _
    have hpos : n * d._read_size > 0 := Nat.mul_pos hn hR
    simp only [read_loop, hpos, if_true]
  | succ fuel ih =>
    intro n addr hn hch
    obtain ⟨m, rfl⟩ : ∃ m, n = m + 1 := ⟨n - 1, by omega⟩
    have hpos : (m + 1) * d._read_size > 0 := Nat.mul_pos (Nat.succ_pos m) hR
    obtain ⟨chunk, hc⟩ := hch 0 (Nat.succ_pos m)
    simp only [Nat.zero_mul, Nat.add_zero] at hc
    have hsz : (m + 1) * d._read_size - d._read_size = m * d._read_size := by
      rw [Nat.succ_mul]; omega
    have hr := ih m (addr + d._read_size) (by omega) (by
      intro i hi
      obtain ⟨ch, hch1⟩ := hch (i + 1) (Nat.succ_lt_succ hi)
      rw [Nat.succ_mul] at hch1
      have he : addr + (i * d._read_size + d._read_size)
          = addr + d._read_size + i * d._read_size := by omega
      rw [he] at hch1
      exact ⟨ch, hch1⟩)
    simp only [read_loop, hpos, if_true, hc, hsz, hr]

/-- One pass of the `read` loop leaves the device it was given and stores the bytes
`read_chunk` gives. -/
theorem read_chunk_state_eq (d : ExhaustibleBlockDevice) (addr : Nat) :
    read_chunk_state d addr =
      match read_chunk d addr with
      | .error e => .error e
      | .ok chunk => .ok (chunk, d) := by
  unfold read_chunk_state read_chunk
  cases d._blocks with
  | none => rfl
  | some blocks =>
    simp only
    cases blocks[addr / d._erase_size]? with
    | none => rfl
    | some slot =>
      cases slot with
      | none => rfl
      | some block =>
        rfl

/-- The `read` loop leaves the device it was given, pass after pass, and stores the
bytes `read_loop` gives. -/
theorem read_loop_state_eq :
    ∀ (fuel : Nat) (d : ExhaustibleBlockDevice) (addr size : Nat),
      read_loop_state fuel d addr size =
        match read_loop d fuel addr size with
        | .error e => .error e
        | .ok out => .ok (out, d) := by
  intro fuel
  induction fuel with
  | zero =>
    intro d addr size
    by_cases hs : size > 0
    · simp only [read_loop_state, read_loop, hs, if_true]
    · simp only [read_loop_state, read_loop, hs, if_false]
  | succ fuel ih =>
    intro d addr size
    by_cases hs : size > 0
    · simp only [read_loop_state, read_loop, hs, if_true, read_chunk_state_eq]
      cases hc : read_chunk d addr with
      | error e => rfl
      | ok chunk =>
        simp only [ih]
        cases read_loop d fuel (addr + d._read_size) (size - d._read_size) <;> rfl
    · simp only [read_loop_state, read_loop, hs, if_false]

/-- The member function `read` leaves the device it was given and returns what `read`
returns. -/
theorem read_state_eq (d : ExhaustibleBlockDevice) (addr size : Nat) :
    d.read_state addr size =
      match d.read addr size with
      | .error e => .error e
      | .ok r => .ok (r.1, r.2, d) := by
  unfold read_state read
  by_cases h1 : (!d._blocks.isSome) = true
  · simp only [h1, if_true]
  · by_cases h2 : (!d.is_valid_read addr size) = true
    · simp only [h1, h2, if_true, if_false]
      rfl
    · simp only [h1, h2, if_false, read_loop_state_eq]
      cases read_loop d size addr size <;> rfl

/-- C23 (counterexample). The constructor accepts the total size 6 with read unit 2 and
erase unit 3; after `init` and an erase of both erase units the device has the
representation invariant, the arguments `addr = 2`, `size = 2` are valid for `read`,
and `read` does not return 0: its one chunk copy takes two bytes at offset 2 of the
three bytes of the buffer of erase unit 0. -/
theorem read_chunk_crosses_unit_end :
    (construct 6 2 2 3 >>= fun d => run d [.init, .erase 0 6])
      = .ok ([some 0, some 0], read_two_erase_three) ∧
    WF read_two_erase_three ∧ read_two_erase_three._blocks.isSome = true ∧
    read_two_erase_three.is_valid_read 2 2 = true ∧
    read_two_erase_three.read_state 2 2 = .error .outOfBounds ∧
    read_two_erase_three.read 2 2 = .error .outOfBounds := by
  decide

/-- C23 (as amended). Every `read` that returns, on any device and with any arguments,
returns 0 and leaves the device as it was given: every stored byte, every buffer or
missing buffer, every counter and both limits; its bytes are those of `read`.  On a
device after `init` whose erase unit is a multiple of its read unit, a `read` with
valid arguments does return, with the `size` stored bytes of the range; its loop
finishes with a budget of `size / read_size` passes and with no smaller one, so it
makes exactly `size / read_size` chunk copies; and a second `read` of the same range
on the device the first one left returns the same bytes. -/
theorem read_is_observation (d : ExhaustibleBlockDevice) (addr size : Nat) (hwf : WF d)
    (hinit : d._blocks.isSome = true) (hv : d.is_valid_read addr size = true)
    (hdvd : d._read_size ∣ d._erase_size) :
    (∀ (e : ExhaustibleBlockDevice) (a s : Nat)
        (r : Int × List Byte × ExhaustibleBlockDevice),
      e.read_state a s = .ok r →
        r.1 = 0 ∧ r.2.2 = e ∧ e.read a s = .ok (0, r.2.1) ∧
        (∀ x, r.2.2.content x = e.content x) ∧
        (∀ j, r.2.2.allocated j = e.allocated j) ∧
        r.2.2._program_array = e._program_array ∧ r.2.2._erase_array = e._erase_array ∧
        r.2.2._program_life = e._program_life ∧ r.2.2._erase_life = e._erase_life) ∧
    ∃ out, d.read_state addr size = .ok (0, out, d) ∧
      out = (List.range size).map (fun k => d.content (addr + k)) ∧
      out.length = size ∧
      read_loop_state (size / d._read_size) d addr size = .ok (out, d) ∧
      (∀ fuel, fuel < size / d._read_size →
        read_loop_state fuel d addr size = .error .diverged) ∧
      (∀ r, d.read_state addr size = .ok r →
        r.2.2.read_state addr size = .ok (0, out, d)) := by
  have hR : 0 < d._read_size := hwf.1
  have hE : 0 < d._erase_size := hwf.2.2.1
  obtain ⟨blocks, hb⟩ := Option.isSome_iff_exists.mp hinit
  obtain ⟨hv1, hv2, hv3⟩ := (is_valid_read_iff d addr size).mp hv
  obtain ⟨n, hn⟩ : ∃ n, size = n * d._read_size :=
    ⟨size / d._read_size, (Nat.div_mul_cancel (Nat.dvd_of_mod_eq_zero hv2)).symm⟩
  have hdiv : size / d._read_size = n := by
    rw [hn, Nat.mul_div_cancel _ hR]
  have hchunk : ∀ i, i < n → read_chunk d (addr + i * d._read_size)
      = .ok ((List.range d._read_size).map
          (fun k => d.content (addr + i * d._read_size + k))) := by
    intro i hi
    have hin : addr + i * d._read_size + d._read_size ≤ addr + n * d._read_size := by
      have : (i + 1) * d._read_size ≤ n * d._read_size := Nat.mul_le_mul_right _ (by omega)
      rw [Nat.succ_mul] at this
      omega
    have hal : (addr + i * d._read_size) % d._read_size = 0 := by
      rw [Nat.add_mul_mod_self_right]; exact hv1
    exact read_chunk_content hwf hb (by omega) (aligned_room hE hdvd hal)
  have hread := read_spec hwf hinit hv hdvd
  have hstate : d.read_state addr size
      = .ok (0, (List.range size).map (fun k => d.content (addr + k)), d) := by
    rw [read_state_eq, hread]
  constructor
  · intro e a s r hr
    rw [read_state_eq] at hr
    cases he : e.read a s with
    | error f => rw [he] at hr; cases hr
    | ok q =>
      rw [he] at hr
      simp only [Except.ok.injEq] at hr
      subst hr
      have hq : q.1 = 0 := by
        unfold read at he
        split at he
        · cases he
        · split at he
          · cases he
          · split at he
            · cases he
            · cases he; rfl
      have hq2 : q = (0, q.2) := by rw [← hq]
      exact ⟨hq, rfl, by rw [hq2], fun _ => rfl, fun _ => rfl, rfl, rfl, rfl, rfl⟩
  · refine ⟨_, hstate, rfl, by simp, ?_, ?_, ?_⟩
    · rw [hdiv, read_loop_state_eq]
      have := read_loop_content d hR n addr n (Nat.le_refl _) hchunk
      rw [← hn] at this
      rw [this]
    · intro fuel hfuel
      rw [hdiv] at hfuel
      have := read_loop_diverged d hR fuel n addr hfuel (fun i hi => ⟨_, hchunk i hi⟩)
      rw [← hn] at this
      rw [read_loop_state_eq, this]
    · intro r hr
      rw [hstate] at hr
      cases hr
      exact hstate

/-- The witness of `read_is_observation`: a read of four bytes across the two erase
units of `erased_first_unit`, the first with a buffer and the second without. -/
theorem read_is_observation_witness :
    erased_first_unit.read_state 2 4 = .ok (0, [255, 255, 0, 0], erased_first_unit) ∧
    read_loop_state 4 erased_first_unit 2 4 = .ok ([255, 255, 0, 0], erased_first_unit) ∧
    read_loop_state 3 erased_first_unit 2 4 = .error .diverged := by
  obtain ⟨_, out, h1, h2, _, h4, h5, _⟩ :=
    read_is_observation erased_first_unit 2 4 (by decide) (by decide) (by decide)
      (by decide)
  have hout : out = [255, 255, 0, 0] := by rw [h2]; decide
  rw [hout] at h1 h4
  exact ⟨h1, h4, h5 3 (by decide)⟩

end ExhaustibleBlockDevice

end FilesystemRecovery
